import Mathlib

/-!
Verification of the `tox` Earley-parsing repository.

Part 1 embeds the EBNF tokenizer (`src/lexers/src/ebnf_tokenizer.rs`).
The tokenizer is written against the lexers crate's `Scanner` and
`helpers::scan_identifier`, which are not part of the sources under
verification; those two are modelled from the specification (a
backtracking character scanner, and the identifier character set given
in the spec's EBNF textual format section).

Part 2 embeds the parse-forest evaluators (`src/earlgrey/src/trees.rs`):
`reduce`, `walker`, `eval_recursive`, `eval` (the stack-based variant),
`walker_all` and `eval_all_recursive`, over spans and back-pointer
sources modelled from the specification's data model.
-/

/-- Whitespace test used by the scanner's `ignore_ws`.  Modelled from the
spec: the lexers crate's scanner (not under `src/`) skips whitespace between
tokens; the ASCII whitespace characters are modelled. -/
def isWsChar (c : Char) : Bool :=
  c == ' ' || c == '\t' || c == '\n' || c == '\r'

/-- Modelled from the spec: the lexers crate's `Scanner` (not under `src/`),
a backtracking character scanner.  `buf` holds the characters consumed since
the last `ignore`/`extract_string`; `rest` is the input not yet consumed.
The scanner position is `buf.length`; `set_pos` returns consumed characters
to the front of `rest`. -/
structure Scanner where
  buf : List Char
  rest : List Char
deriving DecidableEq

/-- Consume one character (the scanner's `next`). -/
def Scanner.snext : Scanner → Option Char × Scanner
  | ⟨buf, []⟩ => (none, ⟨buf, []⟩)
  | ⟨buf, c :: r⟩ => (some c, ⟨buf ++ [c], r⟩)

/-- Consume `c` if it is the next character, else leave the scanner unchanged. -/
def Scanner.accept_char (c : Char) : Scanner → Bool × Scanner
  | ⟨buf, []⟩ => (false, ⟨buf, []⟩)
  | ⟨buf, c' :: r⟩ =>
    if c' = c then (true, ⟨buf ++ [c'], r⟩) else (false, ⟨buf, c' :: r⟩)

/-- Consume the next character if it belongs to `cs`. -/
def Scanner.accept_any_char (cs : List Char) : Scanner → Option Char × Scanner
  | ⟨buf, []⟩ => (none, ⟨buf, []⟩)
  | ⟨buf, c :: r⟩ =>
    if cs.contains c then (some c, ⟨buf ++ [c], r⟩) else (none, ⟨buf, c :: r⟩)

/-- Discard everything consumed so far. -/
def Scanner.ignore (s : Scanner) : Scanner := ⟨[], s.rest⟩

/-- Skip whitespace and discard it together with anything previously consumed. -/
def Scanner.ignore_ws (s : Scanner) : Scanner := ⟨[], s.rest.dropWhile isWsChar⟩

/-- Return the consumed characters as a string and discard them. -/
def Scanner.extract_string (s : Scanner) : String × Scanner :=
  (String.mk s.buf, ⟨[], s.rest⟩)

/-- Current position (number of consumed, undiscarded characters). -/
def Scanner.pos (s : Scanner) : Nat := s.buf.length

/-- Rewind to an earlier position: consumed characters past `p` are put back. -/
def Scanner.set_pos (s : Scanner) (p : Nat) : Scanner :=
  ⟨s.buf.take p, s.buf.drop p ++ s.rest⟩

/-- The comment loop of `EbnfTokenizer::next`: consume characters until a
newline is consumed (returning `true` and discarding the buffer) or the
input ends (returning `false`, consumed characters kept in the buffer). -/
def Scanner.consume_comment : Scanner → Bool × Scanner
  | ⟨buf, []⟩ => (false, ⟨buf, []⟩)
  | ⟨buf, c :: r⟩ =>
    if c = '\n' then (true, Scanner.ignore ⟨buf ++ [c], r⟩)
    else Scanner.consume_comment ⟨buf ++ [c], r⟩
termination_by s => s.rest.length
decreasing_by simp

/-- Loop of the string-literal branch: consume characters until the quote
character `q` is consumed (`true`) or the input ends (`false`). -/
def Scanner.scan_to_quote (q : Char) : Scanner → Bool × Scanner
  | ⟨buf, []⟩ => (false, ⟨buf, []⟩)
  | ⟨buf, c :: r⟩ =>
    if c = q then (true, ⟨buf ++ [c], r⟩)
    else Scanner.scan_to_quote q ⟨buf ++ [c], r⟩
termination_by s => s.rest.length
decreasing_by simp

/-- Identifier characters.  Modelled from the spec: letters, digits,
underscore, hyphen. -/
def isIdentChar (c : Char) : Bool :=
  c.isAlpha || c.isDigit || c == '_' || c == '-'

/-- Modelled from the spec: `helpers::scan_identifier` (not under `src/`).
Identifiers are made of letters, digits, underscore and hyphen and must not
begin with a digit; on success the whole scanner buffer (which may carry a
previously accepted leading `@`) is extracted. -/
def scan_identifier (s : Scanner) : Option String × Scanner :=
  match s.rest with
  | c :: _ =>
    if isIdentChar c && !c.isDigit then
      let s1 : Scanner := ⟨s.buf ++ s.rest.takeWhile isIdentChar, s.rest.dropWhile isIdentChar⟩
      let p := s1.extract_string
      (some p.1, p.2)
    else (none, s)
  | [] => (none, s)

/-- Punctuation characters accepted as single tokens by the EBNF tokenizer. -/
def ebnf_punct : List Char := ['[', ']', '\x7b', '\x7d', '(', ')', '|', ';']

/-- The two string-literal delimiters (double quote and single quote). -/
def quote_chars : List Char := ['\x22', '\x27']

/-- State of the EBNF tokenizer: the `lookahead` vector of already-produced
string parts (popped from the end) and the scanner over the input. -/
structure TokState where
  lookahead : List String
  input : Scanner
deriving DecidableEq

/-- Final stage of `EbnfTokenizer::next`: optional `@`, then an identifier;
on failure rewind the possible `@` and produce no token. -/
def ident_scan_part (s : Scanner) : Option String × TokState :=
  let backtrack := s.pos
  let s1 := (s.accept_char '@').2
  match scan_identifier s1 with
  | (some id, s2) => (some id, ⟨[], s2⟩)
  | (none, s2) => (none, ⟨[], s2.set_pos backtrack⟩)

/-- String-literal stage of `EbnfTokenizer::next`: on `"` or `'`, scan to the
matching close quote; found: return the opening quote as a token and queue
the content and the closing quote on the lookahead stack; not found:
backtrack and fall through to the identifier stage. -/
def quote_part (s : Scanner) : Option String × TokState :=
  let backtrack := s.pos
  match s.accept_any_char quote_chars with
  | (some q, s1) =>
    match s1.scan_to_quote q with
    | (true, s2) =>
      let p := s2.extract_string
      let content := String.mk ((p.1.toList.drop 1).dropLast)
      (some (String.mk [q]), ⟨[String.mk [q], content], p.2⟩)
    | (false, s2) => ident_scan_part (s2.set_pos backtrack)
  | (none, s1) => ident_scan_part s1

/-- Stages of `EbnfTokenizer::next` after the comment check: punctuation,
the `:=` operator (with backtracking over a lone `:`), string literals,
identifiers. -/
def rest_of_body (s : Scanner) : Option String × TokState :=
  match s.accept_any_char ebnf_punct with
  | (some _, s1) =>
    let p := s1.extract_string
    (some p.1, ⟨[], p.2⟩)
  | (none, s1) =>
    let backtrack := s1.pos
    match s1.accept_char ':' with
    | (true, s2) =>
      match s2.accept_char '=' with
      | (true, s3) =>
        let p := s3.extract_string
        (some p.1, ⟨[], p.2⟩)
      | (false, s3) => quote_part (s3.set_pos backtrack)
    | (false, s2) => quote_part s2

/-- One step of the EBNF tokenizer (`EbnfTokenizer::next` in
`src/lexers/src/ebnf_tokenizer.rs`): pop queued string parts first;
otherwise skip whitespace, discard a `#`-comment up to and including the
next newline and restart, and otherwise run the punctuation / `:=` /
string-literal / identifier stages. -/
def ebnf_next (st : TokState) : Option String × TokState :=
  match st.lookahead with
  | [] =>
    let s0 := st.input.ignore_ws
    match h1 : s0.accept_char '#' with
    | (true, s1) =>
      match h2 : s1.consume_comment with
      | (true, s2) => ebnf_next ⟨[], s2⟩
      | (false, s2) => rest_of_body s2
    | (false, s1) => rest_of_body s1
  | l => (l.getLast?, ⟨l.dropLast, st.input⟩)
termination_by st.input.rest.length
decreasing_by
  have hs0 : s0 = st.input.ignore_ws := rfl
  have hle : s0.rest.length ≤ st.input.rest.length := by
    rw [hs0]
    have : ∀ (l : List Char), (l.dropWhile isWsChar).length ≤ l.length := by
      intro l
      induction l with
      | nil => simp
      | cons c r ih =>
        by_cases h : isWsChar c <;> simp [List.dropWhile_cons, h] <;> omega
    simpa [Scanner.ignore_ws] using this st.input.rest
  have h1' : ∀ (sc : Scanner) (b : Bool) (sc' : Scanner),
      Scanner.accept_char '#' sc = (b, sc') →
        b = true → sc'.rest.length + 1 = sc.rest.length := by
    rintro ⟨buf, _ | ⟨c, r⟩⟩ b sc' h hb
    · subst hb
      simp [Scanner.accept_char] at h
    · subst hb
      by_cases hc : c = '#' <;> simp [Scanner.accept_char, hc] at h
      simp [← h]
  have h2' : ∀ (l buf : List Char) (b : Bool) (sc' : Scanner),
      Scanner.consume_comment ⟨buf, l⟩ = (b, sc') →
        b = true → sc'.rest.length < l.length := by
    intro l
    induction l with
    | nil =>
      intro buf b sc' h hb
      subst hb
      simp [Scanner.consume_comment] at h
    | cons c r ih =>
      intro buf b sc' h hb
      subst hb
      by_cases hc : c = '\n' <;>
        simp [Scanner.consume_comment, hc, Scanner.ignore] at h
      · simp [← h]
      · have := ih (buf ++ [c]) true sc' h rfl
        simp at this ⊢
        omega
  have e1 := h1' _ _ _ h1 rfl
  have e2 := h2' s1.rest s1.buf _ _ h2 rfl
  omega

/-- The token stream: iterate `ebnf_next` until it yields no token, with
explicit fuel bounding the number of tokens produced. -/
def ebnf_tokens : Nat → TokState → List String
  | 0, _ => []
  | fuel + 1, st =>
    match ebnf_next st with
    | (none, _) => []
    | (some t, st') => t :: ebnf_tokens fuel st'

/-- Initial tokenizer state over an input character list. -/
def initTok (input : List Char) : TokState := ⟨[], ⟨[], input⟩⟩

/-! ### Part 2: the parse-forest evaluators of `src/earlgrey/src/trees.rs` -/

namespace Earlgrey

/-- Grammar symbol.  Modelled from the spec: a named terminal or
non-terminal.  Terminal predicates are omitted: the spec requires two
terminals with the same name to have equivalent predicates, and the
evaluators consult only the symbol's name. -/
inductive Symbol where
  | nt (name : String)
  | term (name : String)
deriving DecidableEq

/-- The name of a symbol. -/
def Symbol.name : Symbol → String
  | .nt n => n
  | .term n => n

/-- Grammar rule: a head non-terminal name and a body of symbols.
Modelled from the spec's data model. -/
structure Rule where
  head : String
  spec : List Symbol
deriving DecidableEq

/-- Canonical rule string, the key for semantic actions:
`"head -> s1 s2 ... sn"` (space-separated body, empty body yields
`"head -> "`). -/
def Rule.to_string (r : Rule) : String :=
  r.head ++ " -> " ++ String.intercalate (" ") (r.spec.map Symbol.name)

mutual
/-- An Earley span.  Modelled from the spec's data model: a dotted rule
with origin and end columns and an insertion-ordered list of back-pointer
sources.  The `Rc` sharing of the Rust chart is value sharing here. -/
inductive Span : Type where
  | mk (rule : Rule) (dot : Nat) (origin : Nat) (finish : Nat)
       (sources : List SpanSource)
/-- A back-pointer source.  Modelled from the spec: a `Scan` advanced
`source` past a terminal consuming a lexeme; a `Completion` advanced
`source` past a non-terminal because `trigger` completed. -/
inductive SpanSource : Type where
  | scan (source : Span) (lexeme : String)
  | completion (source : Span) (trigger : Span)
end

/-- The span's rule. -/
def Span.rule : Span → Rule
  | .mk r _ _ _ _ => r

/-- The span's dot position. -/
def Span.dot : Span → Nat
  | .mk _ d _ _ _ => d

/-- The span's origin column. -/
def Span.origin : Span → Nat
  | .mk _ _ o _ _ => o

/-- The span's end column. -/
def Span.finish : Span → Nat
  | .mk _ _ _ f _ => f

/-- The span's back-pointer sources, in insertion order. -/
def Span.sources : Span → List SpanSource
  | .mk _ _ _ _ s => s

/-- A span is complete when the dot has reached the end of the rule body. -/
def Span.complete (sp : Span) : Bool := sp.dot == sp.rule.spec.length

/-- The symbol after the dot (`None` for a complete span). -/
def Span.next_symbol (sp : Span) : Option Symbol := sp.rule.spec.get? sp.dot

/-- `ParseTrees`: the list of root spans extracted from the final chart
column (`ParseTrees(pub Vec<Rc<Span>>)` in the source). -/
abbrev ParseTrees := List Span

/-- Outcome of a fallible evaluator step: a returned `Err` string, or a
panic (an `expect`/`assert!` firing, modelled as an error value of its
own kind so that panics and returned errors are distinguished). -/
inductive RunErr where
  | err (msg : String)
  | bug (msg : String)
deriving DecidableEq

/-- The semantic forest evaluator `EarleyForest`: registered actions keyed
by canonical rule string (the `HashMap` is modelled as its lookup
function) and the leaf builder. -/
structure EarleyForest (α : Type) where
  actions : String → Option (List α → α)
  leaf_builder : String → String → α

/-- `EarleyForest::reduce`: pass through the argument vector on an
incomplete span; on a complete span apply the registered action, or fail
with `Missing Action: <rule>`. -/
def EarleyForest.reduce {α : Type} (F : EarleyForest α) (root : Span)
    (args : List α) : Except RunErr (List α) :=
  if root.complete then
    match F.actions root.rule.to_string with
    | none => .error (.err ("Missing Action: " ++ root.rule.to_string))
    | some action => .ok [action args]
  else .ok args

mutual
/-- `EarleyForest::walker`: walk the first back-pointer source of each
span, collecting child values, and reduce at the span itself. -/
def EarleyForest.walker {α : Type} (F : EarleyForest α) (sp : Span) :
    Except RunErr (List α) := do
  let args ← F.walker_args sp
  F.reduce sp args
termination_by (sizeOf sp, 1)

/-- The source-following part of `EarleyForest::walker`: no sources yield
no children; a completion walks source then trigger; a scan walks source
then appends one leaf built from the scanned terminal's name and the
lexeme (panicking if the source has no next symbol). -/
def EarleyForest.walker_args {α : Type} (F : EarleyForest α) :
    Span → Except RunErr (List α)
  | .mk _ _ _ _ [] => .ok []
  | .mk _ _ _ _ (.completion s t :: _) => do
    let a ← F.walker s
    let b ← F.walker t
    .ok (a ++ b)
  | .mk _ _ _ _ (.scan s lex :: _) =>
    match s.next_symbol with
    | none => .error (.bug ("BUG: missing scan trigger symbol"))
    | some sym => do
      let a ← F.walker s
      .ok (a ++ [F.leaf_builder sym.name lex])
termination_by sp => (sizeOf sp, 0)
end

/-- `EarleyForest::eval_recursive`: walk the first `ParseTrees` root
(panicking when there is none) and return the single produced value
(`swap_remove(0)`, panicking when the walk produced no value). -/
def EarleyForest.eval_recursive {α : Type} (F : EarleyForest α)
    (ptrees : ParseTrees) : Except RunErr α :=
  match ptrees with
  | [] => .error (.bug ("BUG: ParseTrees empty"))
  | root :: _ => do
    let v ← F.walker root
    match v with
    | [] => .error (.bug ("BUG: swap_remove index out of bounds"))
    | a :: _ => .ok a

/-- The loop of the stack-based `EarleyForest::eval`: a work stack of
spans, an argument stack, and a stack of completed spans awaiting
reduction; at a no-source span the most recent completion is popped and
reduced over the last `|body|` arguments in reverse. -/
def EarleyForest.evalLoop {α : Type} (F : EarleyForest α) :
    List Span → List α → List Span → Except RunErr (List α)
  | [], args, _ => .ok args
  | cursor :: rest, args, completions =>
    let comps := if cursor.complete then completions ++ [cursor] else completions
    match cursor with
    | .mk _ _ _ _ (.completion s t :: _) => F.evalLoop (t :: s :: rest) args comps
    | .mk _ _ _ _ (.scan s lex :: _) =>
      match s.next_symbol with
      | none => .error (.bug ("BUG: missing scan trigger symbol"))
      | some sym => F.evalLoop (s :: rest) (args ++ [F.leaf_builder sym.name lex]) comps
    | .mk _ _ _ _ [] =>
      match comps.getLast? with
      | none => .error (.bug ("BUG: span rule never completed"))
      | some comp =>
        if cursor.rule = comp.rule then
          let slots := comp.rule.spec.length
          if slots ≤ args.length then
            let rule_args := (args.drop (args.length - slots)).reverse
            match F.actions comp.rule.to_string with
            | none => .error (.err ("Missing Action: " ++ comp.rule.to_string))
            | some action =>
              F.evalLoop rest (args.take (args.length - slots) ++ [action rule_args])
                comps.dropLast
          else .error (.bug ("BUG: split_off out of range"))
        else .error (.bug ("assertion failed: cursor rule equals completed rule"))
termination_by spans _ _ => sizeOf spans

/-- `EarleyForest::eval`: run the stack loop from the first `ParseTrees`
root (panicking when there is none); at the end assert exactly one value
remains and return it. -/
def EarleyForest.eval {α : Type} (F : EarleyForest α) (ptrees : ParseTrees) :
    Except RunErr α :=
  match ptrees with
  | [] => .error (.bug ("BUG: ParseTrees empty"))
  | root :: _ => do
    let args ← F.evalLoop [root] [] []
    match args with
    | [a] => .ok a
    | _ => .error (.bug ("assertion failed: args length is 1"))

/-- Reduce a row of argument vectors at `root`, in order. -/
def EarleyForest.reduce_row {α : Type} (F : EarleyForest α) (root : Span) :
    List (List α) → Except RunErr (List (List α))
  | [] => .ok []
  | a :: as => do
    let v ← F.reduce root a
    let vs ← F.reduce_row root as
    .ok (v :: vs)

/-- Scan-source loop of `walker_all`: the scanned symbol is looked up once
per iteration, then each child vector is extended with the leaf and
reduced. -/
def EarleyForest.wa_scan {α : Type} (F : EarleyForest α) (root : Span)
    (s : Span) (lex : String) : List (List α) → Except RunErr (List (List α))
  | [] => .ok []
  | args :: more =>
    match s.next_symbol with
    | none => .error (.bug ("BUG: missing scan trigger symbol"))
    | some sym => do
      let v ← F.reduce root (args ++ [F.leaf_builder sym.name lex])
      let vs ← F.wa_scan root s lex more
      .ok (v :: vs)

mutual
/-- `EarleyForest::walker_all`: a span with no sources reduces the empty
argument vector; otherwise every source contributes a block of child
vectors in insertion order. -/
def EarleyForest.walker_all {α : Type} (F : EarleyForest α) (sp : Span) :
    Except RunErr (List (List α)) :=
  match sp with
  | .mk _ _ _ _ [] => do
    let v ← F.reduce sp []
    .ok [v]
  | .mk _ _ _ _ (s0 :: more) => F.wa_sources sp (s0 :: more)
termination_by (sizeOf sp, 0, 0)

/-- The source loop of `walker_all`: a completion source walks its source
span once and then re-walks the trigger for each source child vector,
reducing every concatenation; a scan source walks its source span and
reduces each child vector extended with the scanned leaf. -/
def EarleyForest.wa_sources {α : Type} (F : EarleyForest α) (root : Span) :
    List SpanSource → Except RunErr (List (List α))
  | [] => .ok []
  | .completion s t :: rest => do
    let vss ← F.walker_all s
    let block ← F.wa_comp root t vss
    let more ← F.wa_sources root rest
    .ok (block ++ more)
  | .scan s lex :: rest => do
    let vss ← F.walker_all s
    let block ← F.wa_scan root s lex vss
    let more ← F.wa_sources root rest
    .ok (block ++ more)
termination_by l => (sizeOf l, 1, 0)

/-- The inner loop of a completion source in `walker_all`: for each child
vector of the source span, re-walk the trigger and reduce every
concatenation of the child vector with a trigger child vector. -/
def EarleyForest.wa_comp {α : Type} (F : EarleyForest α) (root : Span)
    (t : Span) : List (List α) → Except RunErr (List (List α))
  | [] => .ok []
  | args :: more => do
    let vts ← F.walker_all t
    let row ← F.reduce_row root (vts.map (fun trig => args ++ trig))
    let morerows ← F.wa_comp root t more
    .ok (row ++ morerows)
termination_by vss => (sizeOf t, 2, vss.length)
end

/-- First elements of the produced vectors (`swap_remove(0)` under the
iterator of `eval_all_recursive`, panicking on an empty vector). -/
def headsOf {α : Type} : List (List α) → Except RunErr (List α)
  | [] => .ok []
  | v :: vs =>
    match v with
    | [] => .error (.bug ("BUG: swap_remove index out of bounds"))
    | a :: _ => do
      let rest ← headsOf vs
      .ok (a :: rest)

/-- The root loop of `EarleyForest::eval_all_recursive`: for each root,
walk the whole sub-forest and keep the first element of every produced
vector. -/
def EarleyForest.eval_all_trees {α : Type} (F : EarleyForest α) :
    List Span → List α → Except RunErr (List α)
  | [], acc => .ok acc
  | root :: rs, acc => do
    let ts ← F.walker_all root
    let heads ← headsOf ts
    F.eval_all_trees rs (acc ++ heads)

/-- `EarleyForest::eval_all_recursive`: all trees of all roots, in root
order. -/
def EarleyForest.eval_all_recursive {α : Type} (F : EarleyForest α)
    (ptrees : ParseTrees) : Except RunErr (List α) :=
  F.eval_all_trees ptrees []

/-- Chart well-formedness along first sources only (the region visited by
`walker` and `eval`): the spec's back-pointer invariants restricted to
what the evaluators consult.  A no-source span sits at the start of its
rule; a scan source carries the same rule with the dot one step earlier
and has a next symbol; a completion source carries the same rule with the
dot one step earlier and a complete trigger. -/
def wfFirst : Span → Bool
  | .mk _ d _ _ [] => d == 0
  | .mk r d _ _ (.scan s _ :: _) =>
    s.rule == r && s.dot + 1 == d && s.next_symbol.isSome && wfFirst s
  | .mk r d _ _ (.completion s t :: _) =>
    s.rule == r && s.dot + 1 == d && s.next_symbol.isSome && t.complete &&
      wfFirst s && wfFirst t
termination_by sp => sizeOf sp

mutual
/-- Chart well-formedness along every source (the region visited by
`walker_all`). -/
def wfAll : Span → Bool
  | .mk _ d _ _ [] => d == 0
  | .mk r d _ _ (s0 :: more) => wfSrcs r d (s0 :: more)
termination_by sp => (sizeOf sp, 0)

/-- Source-list part of `wfAll`. -/
def wfSrcs (r : Rule) (d : Nat) : List SpanSource → Bool
  | [] => true
  | .scan s _ :: rest =>
    s.rule == r && s.dot + 1 == d && s.next_symbol.isSome && wfAll s && wfSrcs r d rest
  | .completion s t :: rest =>
    s.rule == r && s.dot + 1 == d && s.next_symbol.isSome && t.complete &&
      wfAll s && wfAll t && wfSrcs r d rest
termination_by l => (sizeOf l, 1)
end

/-- Every reachable span has at most one back-pointer source (the
unambiguous case). -/
def atMostOne : Span → Bool
  | .mk _ _ _ _ [] => true
  | .mk _ _ _ _ [.scan s _] => atMostOne s
  | .mk _ _ _ _ [.completion s t] => atMostOne s && atMostOne t
  | .mk _ _ _ _ (_ :: _ :: _) => false
termination_by sp => sizeOf sp

mutual
/-- The spans visited by the first-source walk, in post-order (sub-walks
first, the span itself last) — the order in which `walker` reduces. -/
def walkSpans (sp : Span) : List Span := walkSub sp ++ [sp]
termination_by (sizeOf sp, 1)

/-- The spans visited strictly below a span in the first-source walk. -/
def walkSub : Span → List Span
  | .mk _ _ _ _ [] => []
  | .mk _ _ _ _ (.scan s _ :: _) => walkSpans s
  | .mk _ _ _ _ (.completion s t :: _) => walkSpans s ++ walkSpans t
termination_by sp => (sizeOf sp, 0)
end

mutual
/-- The spans visited by the all-sources walk of `walker_all`. -/
def allWalkSpans (sp : Span) : List Span :=
  (match sp with
   | .mk _ _ _ _ srcs => allWalkSrcs srcs) ++ [sp]
termination_by (sizeOf sp, 1)

/-- Source-list part of `allWalkSpans`. -/
def allWalkSrcs : List SpanSource → List Span
  | [] => []
  | .scan s _ :: rest => allWalkSpans s ++ allWalkSrcs rest
  | .completion s t :: rest => allWalkSpans s ++ allWalkSpans t ++ allWalkSrcs rest
termination_by l => (sizeOf l, 0)
end

/-- A choice of back-pointer source at every span occurrence of a walked
tree: no sources, a chosen scan source, or a chosen completion source
with choices for its two sub-walks. -/
inductive Pick : Type where
  | leafP
  | scanP (source : Span) (lexeme : String) (ps : Pick)
  | compP (source trigger : Span) (ps pt : Pick)

mutual
/-- All source choices of a span, in the order `walker_all` enumerates
them: source-major over the insertion order of sources, and at a
completion the Cartesian product of the source choices (major) with the
trigger choices (minor). -/
def picks : Span → List Pick
  | .mk _ _ _ _ [] => [.leafP]
  | .mk _ _ _ _ (s0 :: more) => picksSrcs (s0 :: more)
termination_by sp => (sizeOf sp, 0)

/-- Source-list part of `picks`. -/
def picksSrcs : List SpanSource → List Pick
  | [] => []
  | .scan s lex :: rest => (picks s).map (.scanP s lex) ++ picksSrcs rest
  | .completion s t :: rest =>
    ((picks s).flatMap (fun ps => (picks t).map (fun pt => .compP s t ps pt))) ++
      picksSrcs rest
termination_by l => (sizeOf l, 1)
end

/-- Evaluate the single tree selected by a choice of sources: the child
vector of a scan choice is the source walk plus the scanned leaf, of a
completion choice the source walk followed by the trigger walk, and of a
no-source choice the empty vector; the span is then reduced. -/
def EarleyForest.evalPick {α : Type} (F : EarleyForest α) (root : Span) :
    Pick → Except RunErr (List α)
  | .leafP => F.reduce root []
  | .scanP s lex ps => do
    let vs ← F.evalPick s ps
    match s.next_symbol with
    | none => .error (.bug ("BUG: missing scan trigger symbol"))
    | some sym => F.reduce root (vs ++ [F.leaf_builder sym.name lex])
  | .compP s t ps pt => do
    let vs ← F.evalPick s ps
    let vt ← F.evalPick t pt
    F.reduce root (vs ++ vt)

/-- Instrumented `reduce`: also records the action invocation, as the pair
of the reduced span and the argument vector handed to its action. -/
def EarleyForest.reduceT {α : Type} (F : EarleyForest α) (root : Span)
    (args : List α) : Except RunErr (List α × List (Span × List α)) :=
  if root.complete then
    match F.actions root.rule.to_string with
    | none => .error (.err ("Missing Action: " ++ root.rule.to_string))
    | some action => .ok ([action args], [(root, args)])
  else .ok (args, [])

mutual
/-- Instrumented `walker`: additionally returns the list of action
invocations in the order they happen. -/
def EarleyForest.walkerT {α : Type} (F : EarleyForest α) (sp : Span) :
    Except RunErr (List α × List (Span × List α)) := do
  let p ← F.walker_argsT sp
  let q ← F.reduceT sp p.1
  .ok (q.1, p.2 ++ q.2)
termination_by (sizeOf sp, 1)

/-- Source-following part of the instrumented `walker`. -/
def EarleyForest.walker_argsT {α : Type} (F : EarleyForest α) :
    Span → Except RunErr (List α × List (Span × List α))
  | .mk _ _ _ _ [] => .ok ([], [])
  | .mk _ _ _ _ (.completion s t :: _) => do
    let a ← F.walkerT s
    let b ← F.walkerT t
    .ok (a.1 ++ b.1, a.2 ++ b.2)
  | .mk _ _ _ _ (.scan s lex :: _) =>
    match s.next_symbol with
    | none => .error (.bug ("BUG: missing scan trigger symbol"))
    | some sym => do
      let a ← F.walkerT s
      .ok (a.1 ++ [F.leaf_builder sym.name lex], a.2)
termination_by sp => (sizeOf sp, 0)
end

/-- Instrumented `evalLoop`: additionally returns the action invocations
of the rest of the run, in order. -/
def EarleyForest.evalLoopT {α : Type} (F : EarleyForest α) :
    List Span → List α → List Span → Except RunErr (List α × List (Span × List α))
  | [], args, _ => .ok (args, [])
  | cursor :: rest, args, completions =>
    let comps := if cursor.complete then completions ++ [cursor] else completions
    match cursor with
    | .mk _ _ _ _ (.completion s t :: _) => F.evalLoopT (t :: s :: rest) args comps
    | .mk _ _ _ _ (.scan s lex :: _) =>
      match s.next_symbol with
      | none => .error (.bug ("BUG: missing scan trigger symbol"))
      | some sym => F.evalLoopT (s :: rest) (args ++ [F.leaf_builder sym.name lex]) comps
    | .mk _ _ _ _ [] =>
      match comps.getLast? with
      | none => .error (.bug ("BUG: span rule never completed"))
      | some comp =>
        if cursor.rule = comp.rule then
          let slots := comp.rule.spec.length
          if slots ≤ args.length then
            let rule_args := (args.drop (args.length - slots)).reverse
            match F.actions comp.rule.to_string with
            | none => .error (.err ("Missing Action: " ++ comp.rule.to_string))
            | some action => do
              let p ← F.evalLoopT rest
                (args.take (args.length - slots) ++ [action rule_args]) comps.dropLast
              .ok (p.1, (comp, rule_args) :: p.2)
          else .error (.bug ("BUG: split_off out of range"))
        else .error (.bug ("assertion failed: cursor rule equals completed rule"))
termination_by spans _ _ => sizeOf spans

/-- Instrumented `eval`. -/
def EarleyForest.evalT {α : Type} (F : EarleyForest α) (ptrees : ParseTrees) :
    Except RunErr (α × List (Span × List α)) :=
  match ptrees with
  | [] => .error (.bug ("BUG: ParseTrees empty"))
  | root :: _ => do
    let p ← F.evalLoopT [root] [] []
    match p.1 with
    | [a] => .ok (a, p.2)
    | _ => .error (.bug ("assertion failed: args length is 1"))

/-- Depth-tagged instrumented `reduce` for `walker_all`: the event carries
the recursion depth of the `walker_all` call performing the reduction, so
that the root's own invocations are the depth-zero events. -/
def EarleyForest.reduceAT {α : Type} (F : EarleyForest α) (d : Nat) (root : Span)
    (args : List α) : Except RunErr (List α × List (Nat × Span × List α)) :=
  if root.complete then
    match F.actions root.rule.to_string with
    | none => .error (.err ("Missing Action: " ++ root.rule.to_string))
    | some action => .ok ([action args], [(d, root, args)])
  else .ok (args, [])

/-- Reduce a row of argument vectors in order, collecting the events. -/
def EarleyForest.reduce_rowT {α : Type} (F : EarleyForest α) (d : Nat) (root : Span) :
    List (List α) → Except RunErr (List (List α) × List (Nat × Span × List α))
  | [] => .ok ([], [])
  | a :: as => do
    let p ← F.reduceAT d root a
    let q ← F.reduce_rowT d root as
    .ok (p.1 :: q.1, p.2 ++ q.2)

/-- Scan-source loop of the instrumented `walker_all`: the scanned symbol
is looked up once per iteration, then each child vector is extended with
the leaf and reduced. -/
def EarleyForest.wa_scanT {α : Type} (F : EarleyForest α) (d : Nat) (root : Span)
    (s : Span) (lex : String) :
    List (List α) → Except RunErr (List (List α) × List (Nat × Span × List α))
  | [] => .ok ([], [])
  | args :: more =>
    match s.next_symbol with
    | none => .error (.bug ("BUG: missing scan trigger symbol"))
    | some sym => do
      let p ← F.reduceAT d root (args ++ [F.leaf_builder sym.name lex])
      let q ← F.wa_scanT d root s lex more
      .ok (p.1 :: q.1, p.2 ++ q.2)

mutual
/-- Instrumented `walker_all`: additionally returns the depth-tagged action
invocations in order; the trigger of a completion source is re-walked once
per source child vector, exactly as in the Rust loop. -/
def EarleyForest.walker_allT {α : Type} (F : EarleyForest α) (d : Nat) (sp : Span) :
    Except RunErr (List (List α) × List (Nat × Span × List α)) :=
  match sp with
  | .mk _ _ _ _ [] => do
    let p ← F.reduceAT d sp []
    .ok ([p.1], p.2)
  | .mk _ _ _ _ (s0 :: more) => F.wa_sourcesT d sp (s0 :: more)
termination_by (sizeOf sp, 0, 0)

/-- Source loop of the instrumented `walker_all`. -/
def EarleyForest.wa_sourcesT {α : Type} (F : EarleyForest α) (d : Nat) (root : Span) :
    List SpanSource → Except RunErr (List (List α) × List (Nat × Span × List α))
  | [] => .ok ([], [])
  | .completion s t :: rest => do
    let vss ← F.walker_allT (d + 1) s
    let block ← F.wa_compT d root t vss.1
    let more ← F.wa_sourcesT d root rest
    .ok (block.1 ++ more.1, vss.2 ++ block.2 ++ more.2)
  | .scan s lex :: rest => do
    let vss ← F.walker_allT (d + 1) s
    let block ← F.wa_scanT d root s lex vss.1
    let more ← F.wa_sourcesT d root rest
    .ok (block.1 ++ more.1, vss.2 ++ block.2 ++ more.2)
termination_by l => (sizeOf l, 1, 0)

/-- Completion-source inner loop of the instrumented `walker_all`:
re-walks the trigger for every source child vector. -/
def EarleyForest.wa_compT {α : Type} (F : EarleyForest α) (d : Nat) (root : Span)
    (t : Span) : List (List α) → Except RunErr (List (List α) × List (Nat × Span × List α))
  | [] => .ok ([], [])
  | args :: more => do
    let vts ← F.walker_allT (d + 1) t
    let row ← F.reduce_rowT d root (vts.1.map (fun trig => args ++ trig))
    let morerows ← F.wa_compT d root t more
    .ok (row.1 ++ morerows.1, vts.2 ++ row.2 ++ morerows.2)
termination_by vss => (sizeOf t, 2, vss.length)
end

/-- Witness rule `N -> 0`. -/
def ruleN : Rule := ⟨"N", [Symbol.term ("0")]⟩

/-- Witness span `(N -> .0, 0, 0)` (fresh prediction). -/
def wSpan0 : Span := .mk ruleN 0 0 0 []

/-- Witness span `(N -> 0., 0, 1)` produced by scanning `"0"`. -/
def wSpan1 : Span := .mk ruleN 1 0 1 [.scan wSpan0 ("0")]

/-- Witness forest over `Nat`: the action for `N -> 0` sums its arguments
plus one, leaves evaluate to the lexeme length. -/
def wForest : EarleyForest Nat :=
  ⟨fun r => if r = "N -> 0" then some (fun args => args.foldl (fun a b => a + b) 0 + 1)
            else none,
   fun _ _ => 1⟩

/-- Counterexample rule `B -> b`. -/
def ruleB : Rule := ⟨"B", [Symbol.term ("b")]⟩

/-- Counterexample rule `A -> x B`. -/
def ruleA : Rule := ⟨"A", [Symbol.term ("x"), Symbol.nt ("B")]⟩

/-- Counterexample span `(B -> .b, 1, 1)`. -/
def cSB0 : Span := .mk ruleB 0 1 1 []

/-- Counterexample span `(B -> b., 1, 2)`. -/
def cSB : Span := .mk ruleB 1 1 2 [.scan cSB0 ("b")]

/-- Counterexample span `(A -> .x B, 0, 0)`. -/
def cSA0 : Span := .mk ruleA 0 0 0 []

/-- Counterexample span `(A -> x.B, 0, 1)` with two scan sources (an
ambiguity below the source side of the completion above it). -/
def cSA1 : Span := .mk ruleA 1 0 1 [.scan cSA0 ("x"), .scan cSA0 ("y")]

/-- Counterexample root span `(A -> x B., 0, 2)`. -/
def cSA2 : Span := .mk ruleA 2 0 2 [.completion cSA1 cSB]

/-- Counterexample forest over `Nat`: every rule has the action summing the
arguments plus one; every leaf evaluates to `1`. -/
def cForest : EarleyForest Nat :=
  ⟨fun _ => some (fun args => args.foldl (fun a b => a + b) 0 + 1), fun _ _ => 1⟩

/-- Counterexample rule `A -> B C`. -/
def ruleABC : Rule := ⟨"A", [Symbol.nt ("B"), Symbol.nt ("C")]⟩

/-- Counterexample rule `C -> c`. -/
def ruleC : Rule := ⟨"C", [Symbol.term ("c")]⟩

/-- Counterexample span `(B -> .b, 0, 0)`. -/
def dSB0 : Span := .mk ruleB 0 0 0 []

/-- Counterexample span `(B -> b., 0, 1)`. -/
def dSB : Span := .mk ruleB 1 0 1 [.scan dSB0 ("b")]

/-- Counterexample span `(C -> .c, 1, 1)`. -/
def dSC0 : Span := .mk ruleC 0 1 1 []

/-- Counterexample span `(C -> c., 1, 2)`. -/
def dSC : Span := .mk ruleC 1 1 2 [.scan dSC0 ("c")]

/-- Counterexample span `(A -> .B C, 0, 0)`. -/
def dSA0 : Span := .mk ruleABC 0 0 0 []

/-- Counterexample span `(A -> B.C, 0, 1)`. -/
def dSA1 : Span := .mk ruleABC 1 0 1 [.completion dSA0 dSB]

/-- Counterexample root span `(A -> B C., 0, 2)`. -/
def dSA2 : Span := .mk ruleABC 2 0 2 [.completion dSA1 dSC]

/-- Counterexample forest over `Nat` in which only `A -> B C` has a
registered action: the actions for `B -> b` and `C -> c` are missing. -/
def dForest : EarleyForest Nat :=
  ⟨fun r => if r = "A -> B C" then some (fun args => args.foldl (fun a b => a + b) 0 + 1)
            else none,
   fun _ _ => 1⟩

/-- The spans visited by `eval_all_recursive` over a list of roots: the
all-sources walk of each root, in root order. -/
def allRootsWalk : List Span → List Span
  | [] => []
  | root :: rs => allWalkSpans root ++ allRootsWalk rs

/-- The shape the evaluators give to the argument vector of a reduction at
a span, per the span's first back-pointer source: a completion source
contributes the source walk followed by the trigger walk, a scan source
the source walk followed by one leaf built from the scanned terminal's
name and the lexeme, and a span with no sources the empty vector. -/
def reductionArgsSpec {α : Type} (F : EarleyForest α) (sp : Span)
    (args : List α) : Prop :=
  match sp.sources with
  | [] => args = []
  | .scan s lex :: _ =>
    ∃ ws tws sym, F.walkerT s = .ok (ws, tws) ∧ s.next_symbol = some sym ∧
      args = ws ++ [F.leaf_builder sym.name lex]
  | .completion s t :: _ =>
    ∃ ws tws wt twt, F.walkerT s = .ok (ws, tws) ∧ F.walkerT t = .ok (wt, twt) ∧
      args = ws ++ wt

end Earlgrey

-- ===== scratch tokenizer lemmas =====

theorem consume_comment_found (c : List Char) (hc : '\n' ∉ c) :
    ∀ (buf r : List Char),
      Scanner.consume_comment ⟨buf, c ++ '\n' :: r⟩ = (true, ⟨[], r⟩) := by
  induction c with
  | nil =>
    intro buf r
    simp [Scanner.consume_comment, Scanner.ignore]
  | cons a c' ih =>
    intro buf r
    have ha : a ≠ '\n' := by
      intro h
      exact hc (by simp [h])
    rw [List.cons_append, Scanner.consume_comment]
    simp only [if_neg ha]
    exact ih (fun h => hc (by simp [h])) (buf ++ [a]) r

theorem scan_to_quote_found (q : Char) (content : List Char) (hq : q ∉ content) :
    ∀ (buf r : List Char),
      Scanner.scan_to_quote q ⟨buf, content ++ q :: r⟩ =
        (true, ⟨buf ++ content ++ [q], r⟩) := by
  induction content with
  | nil =>
    intro buf r
    simp [Scanner.scan_to_quote]
  | cons a c' ih =>
    intro buf r
    have ha : a ≠ q := by
      intro h
      exact hq (by simp [h])
    rw [List.cons_append, Scanner.scan_to_quote]
    simp only [if_neg ha]
    have := ih (fun h => hq (by simp [h])) (buf ++ [a]) r
    simpa using this

theorem scan_to_quote_eof (q : Char) (l : List Char) (hq : q ∉ l) :
    ∀ (buf : List Char),
      Scanner.scan_to_quote q ⟨buf, l⟩ = (false, ⟨buf ++ l, []⟩) := by
  induction l with
  | nil =>
    intro buf
    simp [Scanner.scan_to_quote]
  | cons a l' ih =>
    intro buf
    have ha : a ≠ q := by
      intro h
      exact hq (by simp [h])
    rw [Scanner.scan_to_quote]
    simp only [if_neg ha]
    have := ih (fun h => hq (by simp [h])) (buf ++ [a])
    simpa using this

theorem ebnf_next_pop (l : List String) (hl : l ≠ []) (sc : Scanner) :
    ebnf_next ⟨l, sc⟩ = (l.getLast?, ⟨l.dropLast, sc⟩) := by
  rw [ebnf_next]
  cases l with
  | nil => exact absurd rfl hl
  | cons a l' => rfl

theorem ebnf_next_no_comment (st : TokState) (h0 : st.lookahead = [])
    (hh : ∀ c r, (st.input.ignore_ws).rest = c :: r → c ≠ '#') :
    ebnf_next st = rest_of_body st.input.ignore_ws := by
  have hacc : Scanner.accept_char '#' st.input.ignore_ws = (false, st.input.ignore_ws) := by
    rcases hr : (st.input.ignore_ws).rest with _ | ⟨c, r⟩
    · rcases hsc : st.input.ignore_ws with ⟨b, rr⟩
      rw [hsc] at hr
      simp at hr
      simp [hr, Scanner.accept_char]
    · have hcne : c ≠ '#' := hh c r hr
      rcases hsc : st.input.ignore_ws with ⟨b, rr⟩
      rw [hsc] at hr
      simp at hr
      simp [hr, Scanner.accept_char, hcne]
  rw [ebnf_next, h0]
  show (match h1 : Scanner.accept_char '#' st.input.ignore_ws with
    | (true, s1) =>
      match h2 : s1.consume_comment with
      | (true, s2) => ebnf_next ⟨[], s2⟩
      | (false, s2) => rest_of_body s2
    | (false, s1) => rest_of_body s1) = rest_of_body st.input.ignore_ws
  split
  · rename_i s1 heq
    rw [hacc] at heq
    simp at heq
  · rename_i s1 heq
    rw [hacc] at heq
    simp at heq
    rw [heq]

theorem ebnf_next_comment (c r : List Char) (hc : '\n' ∉ c) :
    ebnf_next (initTok ('#' :: (c ++ '\n' :: r))) = ebnf_next (initTok r) := by
  have hwsf : isWsChar '#' = false := by decide
  have hws : ((initTok ('#' :: (c ++ '\n' :: r))).input.ignore_ws) =
      ⟨[], '#' :: (c ++ '\n' :: r)⟩ := by
    simp [initTok, Scanner.ignore_ws, List.dropWhile_cons, hwsf]
  have hacc : Scanner.accept_char '#' ⟨[], '#' :: (c ++ '\n' :: r)⟩ =
      (true, ⟨['#'], c ++ '\n' :: r⟩) := by
    simp [Scanner.accept_char]
  have hcc := consume_comment_found c hc ['#'] r
  rw [ebnf_next]
  show (match h1 : Scanner.accept_char '#' ((initTok ('#' :: (c ++ '\n' :: r))).input.ignore_ws) with
    | (true, s1) =>
      match h2 : s1.consume_comment with
      | (true, s2) => ebnf_next ⟨[], s2⟩
      | (false, s2) => rest_of_body s2
    | (false, s1) => rest_of_body s1) = ebnf_next (initTok r)
  rw [hws]
  split
  · rename_i s1 heq
    rw [hacc] at heq
    simp at heq
    subst heq
    split
    · rename_i s2 heq2
      rw [hcc] at heq2
      simp at heq2
      subst heq2
      rfl
    · rename_i s2 heq2
      rw [hcc] at heq2
      simp at heq2
  · rename_i s1 heq
    rw [hacc] at heq
    simp at heq

theorem ebnf_tokens_congr (st1 st2 : TokState) (h : ebnf_next st1 = ebnf_next st2) :
    ∀ fuel, ebnf_tokens fuel st1 = ebnf_tokens fuel st2 := by
  intro fuel
  cases fuel with
  | zero => rfl
  | succ n =>
    show (match ebnf_next st1 with
      | (none, _) => []
      | (some t, st') => t :: ebnf_tokens n st') = _
    rw [h]
    rfl

theorem ebnf_comment_discard_aux (comments : List (List Char))
    (hc : ∀ c ∈ comments, '\n' ∉ c) (r : List Char) (fuel : Nat) :
    ebnf_tokens fuel
        (initTok (comments.foldr (fun c acc => '#' :: (c ++ '\n' :: acc)) r)) =
      ebnf_tokens fuel (initTok r) := by
  induction comments with
  | nil => rfl
  | cons c cs ih =>
    have h1 : ebnf_next (initTok ('#' :: (c ++ '\n' ::
        (cs.foldr (fun c acc => '#' :: (c ++ '\n' :: acc)) r)))) =
        ebnf_next (initTok (cs.foldr (fun c acc => '#' :: (c ++ '\n' :: acc)) r)) :=
      ebnf_next_comment _ _ (hc c (by simp))
    calc ebnf_tokens fuel (initTok ((c :: cs).foldr (fun c acc => '#' :: (c ++ '\n' :: acc)) r))
        = ebnf_tokens fuel (initTok (cs.foldr (fun c acc => '#' :: (c ++ '\n' :: acc)) r)) :=
          ebnf_tokens_congr _ _ h1 fuel
      _ = ebnf_tokens fuel (initTok r) := ih (fun c h => hc c (by simp [h]))

theorem ebnf_quote_found (q : Char) (hq : q = '\x22' ∨ q = '\x27')
    (content r : List Char) (hqc : q ∉ content) :
    ebnf_next (initTok (q :: (content ++ q :: r))) =
      (some (String.mk [q]), ⟨[String.mk [q], String.mk content], ⟨[], r⟩⟩) := by
  have hwq : isWsChar q = false := by rcases hq with h | h <;> subst h <;> decide
  have hnH : q ≠ '#' := by rcases hq with h | h <;> subst h <;> decide
  have hpq : q ∉ ebnf_punct := by rcases hq with h | h <;> subst h <;> decide
  have hcolon : q ≠ ':' := by rcases hq with h | h <;> subst h <;> decide
  have hqq : q ∈ quote_chars := by rcases hq with h | h <;> subst h <;> decide
  have hws : (initTok (q :: (content ++ q :: r))).input.ignore_ws =
      ⟨[], q :: (content ++ q :: r)⟩ := by
    simp [initTok, Scanner.ignore_ws, List.dropWhile_cons, hwq]
  rw [ebnf_next_no_comment _ rfl (by
    intro c rr hcr
    rw [hws] at hcr
    simp at hcr
    rw [← hcr.1]
    exact hnH), hws]
  have e1 : Scanner.accept_any_char ebnf_punct ⟨[], q :: (content ++ q :: r)⟩ =
      (none, ⟨[], q :: (content ++ q :: r)⟩) := by
    simp [Scanner.accept_any_char, hpq]
  have e2 : Scanner.accept_char ':' ⟨[], q :: (content ++ q :: r)⟩ =
      (false, ⟨[], q :: (content ++ q :: r)⟩) := by
    simp [Scanner.accept_char, hcolon]
  have e3 : Scanner.accept_any_char quote_chars ⟨[], q :: (content ++ q :: r)⟩ =
      (some q, ⟨[q], content ++ q :: r⟩) := by
    simp [Scanner.accept_any_char, hqq]
  have e4 := scan_to_quote_found q content hqc [q] r
  simp only [rest_of_body, e1, e2, quote_part, Scanner.pos, e3, e4,
    Scanner.extract_string, List.length_nil]
  have : ((((String.mk ([q] ++ content ++ [q])).toList.drop 1).dropLast)) = content := by
    show ((([q] ++ content ++ [q]).drop 1).dropLast) = content
    simp
  rw [this]

theorem ebnf_quote_unterminated (q : Char) (hq : q = '\x22' ∨ q = '\x27')
    (r : List Char) (hqr : q ∉ r) :
    ebnf_next (initTok (q :: r)) = (none, ⟨[], ⟨[], q :: r⟩⟩) := by
  have hwq : isWsChar q = false := by rcases hq with h | h <;> subst h <;> decide
  have hnH : q ≠ '#' := by rcases hq with h | h <;> subst h <;> decide
  have hpq : q ∉ ebnf_punct := by rcases hq with h | h <;> subst h <;> decide
  have hcolon : q ≠ ':' := by rcases hq with h | h <;> subst h <;> decide
  have hqq : q ∈ quote_chars := by rcases hq with h | h <;> subst h <;> decide
  have hat : q ≠ '@' := by rcases hq with h | h <;> subst h <;> decide
  have hid : isIdentChar q = false := by rcases hq with h | h <;> subst h <;> decide
  have hws : (initTok (q :: r)).input.ignore_ws = ⟨[], q :: r⟩ := by
    simp [initTok, Scanner.ignore_ws, List.dropWhile_cons, hwq]
  rw [ebnf_next_no_comment _ rfl (by
    intro c rr hcr
    rw [hws] at hcr
    simp at hcr
    rw [← hcr.1]
    exact hnH), hws]
  have e1 : Scanner.accept_any_char ebnf_punct ⟨[], q :: r⟩ = (none, ⟨[], q :: r⟩) := by
    simp [Scanner.accept_any_char, hpq]
  have e2 : Scanner.accept_char ':' ⟨[], q :: r⟩ = (false, ⟨[], q :: r⟩) := by
    simp [Scanner.accept_char, hcolon]
  have e3 : Scanner.accept_any_char quote_chars ⟨[], q :: r⟩ =
      (some q, ⟨[q], r⟩) := by
    simp [Scanner.accept_any_char, hqq]
  have e4 := scan_to_quote_eof q r hqr [q]
  have e5 : Scanner.set_pos ⟨[q] ++ r, []⟩ 0 = ⟨[], q :: r⟩ := by
    simp [Scanner.set_pos]
  have e6 : Scanner.accept_char '@' ⟨[], q :: r⟩ = (false, ⟨[], q :: r⟩) := by
    simp [Scanner.accept_char, hat]
  have e7 : scan_identifier ⟨[], q :: r⟩ = (none, ⟨[], q :: r⟩) := by
    simp [scan_identifier, hid]
  simp only [rest_of_body, e1, e2, quote_part, Scanner.pos, e3, e4,
    List.length_nil, e5, ident_scan_part, Scanner.set_pos,
    List.take_zero, List.drop_zero, List.append_nil, List.nil_append]
  simp [e6, e7, Scanner.set_pos]

theorem ebnf_quote_tokens_aux (q : Char) (hq : q = '\x22' ∨ q = '\x27')
    (content r : List Char) (hqc : q ∉ content) (fuel : Nat) :
    ebnf_tokens (fuel + 3) (initTok (q :: (content ++ q :: r))) =
      String.mk [q] :: String.mk content :: String.mk [q] ::
        ebnf_tokens fuel (initTok r) := by
  have s1 : ebnf_tokens (fuel + 3) (initTok (q :: (content ++ q :: r))) =
      String.mk [q] :: ebnf_tokens (fuel + 2)
        ⟨[String.mk [q], String.mk content], ⟨[], r⟩⟩ := by
    show (match ebnf_next (initTok (q :: (content ++ q :: r))) with
      | (none, _) => []
      | (some t, st') => t :: ebnf_tokens (fuel + 2) st') = _
    rw [ebnf_quote_found q hq content r hqc]
  have s2 : ebnf_tokens (fuel + 2) ⟨[String.mk [q], String.mk content], ⟨[], r⟩⟩ =
      String.mk content :: ebnf_tokens (fuel + 1) ⟨[String.mk [q]], ⟨[], r⟩⟩ := by
    show (match ebnf_next ⟨[String.mk [q], String.mk content], ⟨[], r⟩⟩ with
      | (none, _) => []
      | (some t, st') => t :: ebnf_tokens (fuel + 1) st') = _
    rw [ebnf_next_pop _ (by simp) _]
    simp [List.getLast?]
  have s3 : ebnf_tokens (fuel + 1) ⟨[String.mk [q]], ⟨[], r⟩⟩ =
      String.mk [q] :: ebnf_tokens fuel (initTok r) := by
    show (match ebnf_next ⟨[String.mk [q]], ⟨[], r⟩⟩ with
      | (none, _) => []
      | (some t, st') => t :: ebnf_tokens fuel st') = _
    rw [ebnf_next_pop _ (by simp) _]
    simp [List.getLast?, initTok]
  rw [s1, s2, s3]

namespace Earlgrey

@[simp] theorem except_bind_ok {ε β γ : Type} (a : β) (f : β → Except ε γ) :
    (Except.ok a >>= f : Except ε γ) = f a := rfl

@[simp] theorem except_bind_error {ε β γ : Type} (e : ε) (f : β → Except ε γ) :
    (Except.error e >>= f : Except ε γ) = Except.error e := rfl

@[simp] theorem except_pure_eq {ε β : Type} (a : β) :
    (pure a : Except ε β) = Except.ok a := rfl

@[simp] theorem except_map_ok {ε β γ : Type} (g : β → γ) (a : β) :
    (Except.map g (Except.ok a) : Except ε γ) = Except.ok (g a) := rfl

@[simp] theorem except_map_error {ε β γ : Type} (g : β → γ) (e : ε) :
    (Except.map g (Except.error e) : Except ε γ) = Except.error e := rfl

theorem ruleN_str : Rule.to_string ⟨"N", [Symbol.term ("0")]⟩ = "N -> 0" := rfl

theorem ruleA_str : Rule.to_string ⟨"A", [Symbol.term ("x"), Symbol.nt ("B")]⟩ = "A -> x B" := rfl

theorem ruleB_str : Rule.to_string ⟨"B", [Symbol.term ("b")]⟩ = "B -> b" := rfl

end Earlgrey

namespace Earlgrey

theorem ruleABC_str : Rule.to_string ⟨"A", [Symbol.nt ("B"), Symbol.nt ("C")]⟩ = "A -> B C" := rfl

theorem ruleC_str : Rule.to_string ⟨"C", [Symbol.term ("c")]⟩ = "C -> c" := rfl

end Earlgrey

namespace Earlgrey

theorem reduceT_proj {α : Type} (F : EarleyForest α) (root : Span) (args : List α) :
    (F.reduceT root args).map Prod.fst = F.reduce root args := by
  rw [EarleyForest.reduceT, EarleyForest.reduce]
  by_cases h : root.complete <;> simp [h]
  cases F.actions root.rule.to_string <;> simp

theorem reduceAT_proj {α : Type} (F : EarleyForest α) (d : Nat) (root : Span)
    (args : List α) :
    (F.reduceAT d root args).map Prod.fst = F.reduce root args := by
  rw [EarleyForest.reduceAT, EarleyForest.reduce]
  by_cases h : root.complete <;> simp [h]
  cases F.actions root.rule.to_string <;> simp

theorem walkerT_proj {α : Type} (F : EarleyForest α) :
    (∀ sp, (F.walkerT sp).map Prod.fst = F.walker sp) ∧
    (∀ sp, (F.walker_argsT sp).map Prod.fst = F.walker_args sp) := by
  refine EarleyForest.walkerT.mutual_induct F
    (fun sp => (F.walkerT sp).map Prod.fst = F.walker sp)
    (fun sp => (F.walker_argsT sp).map Prod.fst = F.walker_args sp) ?_ ?_ ?_ ?_ ?_
  · intro sp ih
    rw [EarleyForest.walkerT, EarleyForest.walker]
    cases ha : F.walker_argsT sp with
    | error e =>
      rw [ha] at ih
      simp at ih
      simp [← ih]
    | ok p =>
      rw [ha] at ih
      simp at ih
      rw [← ih]
      simp only [except_bind_ok]
      have := reduceT_proj F sp p.1
      cases hr : F.reduceT sp p.1 with
      | error e =>
        rw [hr] at this
        simp at this
        simp [← this]
      | ok q =>
        rw [hr] at this
        simp at this
        simp [← this]
  · intro r d o f
    rw [EarleyForest.walker_argsT, EarleyForest.walker_args]
    rfl
  · intro r d o f s t tail ih1 ih2
    rw [EarleyForest.walker_argsT, EarleyForest.walker_args]
    cases hw : F.walkerT s with
    | error e =>
      rw [hw] at ih1
      simp at ih1
      simp [← ih1]
    | ok p =>
      rw [hw] at ih1
      simp at ih1
      cases hw2 : F.walkerT t with
      | error e =>
        rw [hw2] at ih2
        simp at ih2
        simp [← ih1, ← ih2]
      | ok q =>
        rw [hw2] at ih2
        simp at ih2
        simp [← ih1, ← ih2]
  · intro r d o f s lex tail hn
    rw [EarleyForest.walker_argsT, EarleyForest.walker_args, hn]
    rfl
  · intro r d o f s lex tail sym hn ih
    rw [EarleyForest.walker_argsT, EarleyForest.walker_args, hn]
    cases hw : F.walkerT s with
    | error e =>
      rw [hw] at ih
      simp at ih
      simp [← ih]
    | ok p =>
      rw [hw] at ih
      simp at ih
      simp [← ih]

theorem map_fst_bind_cons {β γ : Type} (X : Except RunErr (β × List γ)) (ev : γ) :
    (X >>= fun p => Except.ok (p.1, ev :: p.2)).map Prod.fst = X.map Prod.fst := by
  cases X <;> rfl

theorem evalLoopT_proj {α : Type} (F : EarleyForest α) :
    ∀ (l : List Span) (args : List α) (comps : List Span),
      (F.evalLoopT l args comps).map Prod.fst = F.evalLoop l args comps := by
  intro l args comps
  induction l, args, comps using EarleyForest.evalLoopT.induct F
  all_goals (rw [EarleyForest.evalLoopT, EarleyForest.evalLoop])
  case case1 => rfl
  case case2 => rename_i ih; simpa using ih
  case case3 => rename_i hn; rw [hn]; rfl
  case case4 => rename_i sym hnsym cmps ih; rw [hnsym]; simpa using ih
  case case5 =>
    rename_i rest args comps0 r d o f cmps hnone
    have h' : (if (Span.mk r d o f []).complete = true
        then comps0 ++ [Span.mk r d o f []] else comps0).getLast? = none := hnone
    rw [h']
    rfl
  case case6 =>
    rename_i rest args comps0 r d o f comp slots hle hactnone cmps hlast hrule
    have hlast' : (if (Span.mk r d o f []).complete = true
        then comps0 ++ [Span.mk r d o f []] else comps0).getLast? = some comp := hlast
    rw [hlast']
    try dsimp only
    repeat rw [if_pos hrule]
    try dsimp only
    repeat rw [if_pos hle]
    repeat rw [hactnone]
    rfl
  case case7 =>
    rename_i rest args comps0 r d o f comp slots hle rule_args action hact cmps hlast hrule ih
    have hlast' : (if (Span.mk r d o f []).complete = true
        then comps0 ++ [Span.mk r d o f []] else comps0).getLast? = some comp := hlast
    rw [hlast']
    try dsimp only
    repeat rw [if_pos hrule]
    try dsimp only
    repeat rw [if_pos hle]
    repeat rw [hact]
    rw [map_fst_bind_cons]
    exact ih
  case case8 =>
    rename_i rest args comps0 r d o f comp slots hnle cmps hlast hrule
    have hlast' : (if (Span.mk r d o f []).complete = true
        then comps0 ++ [Span.mk r d o f []] else comps0).getLast? = some comp := hlast
    rw [hlast']
    try dsimp only
    repeat rw [if_pos hrule]
    try dsimp only
    repeat rw [if_neg hnle]
    rfl
  case case9 =>
    rename_i rest args comps0 r d o f comp cmps hlast hnrule
    have hlast' : (if (Span.mk r d o f []).complete = true
        then comps0 ++ [Span.mk r d o f []] else comps0).getLast? = some comp := hlast
    rw [hlast']
    try dsimp only
    rw [if_neg hnrule]
    rw [if_neg hnrule]
    rfl

theorem evalT_proj {α : Type} (F : EarleyForest α) (ptrees : ParseTrees) :
    (F.evalT ptrees).map Prod.fst = F.eval ptrees := by
  cases ptrees with
  | nil => rfl
  | cons root rest =>
    rw [EarleyForest.evalT, EarleyForest.eval]
    have h := evalLoopT_proj F [root] [] []
    cases hv : F.evalLoopT [root] [] [] with
    | error e =>
      rw [hv] at h
      simp at h
      simp [← h]
    | ok p =>
      rw [hv] at h
      simp at h
      rw [← h]
      simp only [except_bind_ok]
      cases hp : p.1 with
      | nil => rfl
      | cons a l =>
        cases l with
        | nil => rfl
        | cons b l2 => rfl

theorem map_fst_bind_pair {β γ τ : Type} (X' : Except RunErr (β × τ)) (X : Except RunErr β)
    (hX : X'.map Prod.fst = X) (f' : β × τ → Except RunErr (γ × τ)) (f : β → Except RunErr γ)
    (hf : ∀ p, (f' p).map Prod.fst = f p.1) :
    (X' >>= f').map Prod.fst = X >>= f := by
  cases X' with
  | error e =>
    rw [← hX]
    rfl
  | ok p =>
    rw [← hX]
    simpa using hf p

theorem reduce_rowT_proj {α : Type} (F : EarleyForest α) (d : Nat) (root : Span) :
    ∀ l, (F.reduce_rowT d root l).map Prod.fst = F.reduce_row root l := by
  intro l
  induction l with
  | nil => rfl
  | cons a as ih =>
    rw [EarleyForest.reduce_rowT, EarleyForest.reduce_row]
    refine map_fst_bind_pair _ _ (reduceAT_proj F d root a) _ _ ?_
    intro p
    refine map_fst_bind_pair _ _ ih _ _ ?_
    intro q
    rfl

theorem wa_scanT_proj {α : Type} (F : EarleyForest α) (d : Nat) (root s : Span)
    (lex : String) :
    ∀ l, (F.wa_scanT d root s lex l).map Prod.fst = F.wa_scan root s lex l := by
  intro l
  induction l with
  | nil => rfl
  | cons a as ih =>
    rw [EarleyForest.wa_scanT, EarleyForest.wa_scan]
    cases hn : s.next_symbol with
    | none => rfl
    | some sym =>
      refine map_fst_bind_pair _ _ (reduceAT_proj F d root _) _ _ ?_
      intro p
      refine map_fst_bind_pair _ _ ih _ _ ?_
      intro q
      rfl

theorem walker_allT_proj {α : Type} (F : EarleyForest α) :
    (∀ d sp, (F.walker_allT d sp).map Prod.fst = F.walker_all sp) ∧
    (∀ d root l, (F.wa_sourcesT d root l).map Prod.fst = F.wa_sources root l) ∧
    (∀ d root t vss, (F.wa_compT d root t vss).map Prod.fst = F.wa_comp root t vss) := by
  refine EarleyForest.walker_allT.mutual_induct F
    (fun d sp => (F.walker_allT d sp).map Prod.fst = F.walker_all sp)
    (fun d root l => (F.wa_sourcesT d root l).map Prod.fst = F.wa_sources root l)
    (fun d root t vss => (F.wa_compT d root t vss).map Prod.fst = F.wa_comp root t vss)
    ?_ ?_ ?_ ?_ ?_ ?_ ?_
  · intro d r dt o fi
    rw [EarleyForest.walker_allT, EarleyForest.walker_all]
    refine map_fst_bind_pair _ _ (reduceAT_proj F d _ _) _ _ ?_
    intro p
    rfl
  · intro d r dt o fi s0 more ih
    rw [EarleyForest.walker_allT, EarleyForest.walker_all]
    exact ih
  · intro d root
    rw [EarleyForest.wa_sourcesT, EarleyForest.wa_sources]
    rfl
  · intro d root s t rest ih1 ih3 ih2
    rw [EarleyForest.wa_sourcesT, EarleyForest.wa_sources]
    refine map_fst_bind_pair _ _ ih1 _ _ ?_
    intro p
    refine map_fst_bind_pair _ _ (ih3 p) _ _ ?_
    intro q
    refine map_fst_bind_pair _ _ ih2 _ _ ?_
    intro w
    rfl
  · intro d root s lex rest ih1 ih2
    rw [EarleyForest.wa_sourcesT, EarleyForest.wa_sources]
    refine map_fst_bind_pair _ _ ih1 _ _ ?_
    intro p
    refine map_fst_bind_pair _ _ (wa_scanT_proj F d root s lex p.1) _ _ ?_
    intro q
    refine map_fst_bind_pair _ _ ih2 _ _ ?_
    intro w
    rfl
  · intro d root t
    rw [EarleyForest.wa_compT, EarleyForest.wa_comp]
    rfl
  · intro d root t a as ih1 ih3
    rw [EarleyForest.wa_compT, EarleyForest.wa_comp]
    refine map_fst_bind_pair _ _ ih1 _ _ ?_
    intro p
    refine map_fst_bind_pair _ _ (reduce_rowT_proj F d root _) _ _ ?_
    intro q
    refine map_fst_bind_pair _ _ ih3 _ _ ?_
    intro w
    rfl

theorem error_bug_ne {β : Type} {m1 m2 : String} (h : ¬ m1 = m2) :
    (Except.error (RunErr.bug m1) : Except RunErr β) ≠ Except.error (RunErr.bug m2) := by
  intro hh
  injection hh with h1
  injection h1 with h2
  exact h h2

theorem error_err_ne_bug {β : Type} {m1 m2 : String} :
    (Except.error (RunErr.err m1) : Except RunErr β) ≠ Except.error (RunErr.bug m2) := by
  intro hh
  injection hh with h1
  exact RunErr.noConfusion h1

theorem ok_ne_error {β : Type} {a : β} {e : RunErr} :
    (Except.ok a : Except RunErr β) ≠ Except.error e := by
  intro hh
  exact Except.noConfusion hh

theorem reduce_ne_bug {α : Type} (F : EarleyForest α) (root : Span) (args : List α)
    (m : String) : F.reduce root args ≠ .error (.bug m) := by
  rw [EarleyForest.reduce]
  by_cases h : root.complete = true <;> simp [h]
  cases F.actions root.rule.to_string with
  | none => simp
  | some act => simp

theorem walker_ne_ptrees_bug {α : Type} (F : EarleyForest α) :
    (∀ sp, F.walker sp ≠ .error (.bug ("BUG: ParseTrees empty"))) ∧
    (∀ sp, F.walker_args sp ≠ .error (.bug ("BUG: ParseTrees empty"))) := by
  refine EarleyForest.walker.mutual_induct F
    (fun sp => F.walker sp ≠ .error (.bug ("BUG: ParseTrees empty")))
    (fun sp => F.walker_args sp ≠ .error (.bug ("BUG: ParseTrees empty"))) ?_ ?_ ?_ ?_ ?_
  · intro sp ih
    rw [EarleyForest.walker]
    cases ha : F.walker_args sp with
    | error e =>
      rw [ha] at ih
      simpa using ih
    | ok v =>
      simp only [except_bind_ok]
      exact reduce_ne_bug F sp v _
  · intro r d o f
    rw [EarleyForest.walker_args]
    exact ok_ne_error
  · intro r d o f s t tail ih1 ih2
    rw [EarleyForest.walker_args]
    cases h1 : F.walker s with
    | error e =>
      rw [h1] at ih1
      simpa using ih1
    | ok v =>
      simp only [except_bind_ok]
      cases h2 : F.walker t with
      | error e =>
        rw [h2] at ih2
        simpa using ih2
      | ok w =>
        simp only [except_bind_ok]
        exact ok_ne_error
  · intro r d o f s lex tail hn
    rw [EarleyForest.walker_args, hn]
    exact error_bug_ne (by decide)
  · intro r d o f s lex tail sym hn ih
    rw [EarleyForest.walker_args, hn]
    cases h1 : F.walker s with
    | error e =>
      rw [h1] at ih
      simpa using ih
    | ok v =>
      simp only [except_bind_ok]
      exact ok_ne_error

theorem evalLoop_ne_ptrees_bug {α : Type} (F : EarleyForest α) :
    ∀ (l : List Span) (args : List α) (comps : List Span),
      F.evalLoop l args comps ≠ .error (.bug ("BUG: ParseTrees empty")) := by
  intro l args comps
  induction l, args, comps using EarleyForest.evalLoop.induct F
  all_goals (rw [EarleyForest.evalLoop])
  case case1 => exact ok_ne_error
  case case2 => rename_i ih; simpa using ih
  case case3 => rename_i hn; rw [hn]; exact error_bug_ne (by decide)
  case case4 => rename_i sym hnsym cmps ih; rw [hnsym]; simpa using ih
  case case5 =>
    rename_i rest args comps0 r d o f cmps hnone
    have h' : (if (Span.mk r d o f []).complete = true
        then comps0 ++ [Span.mk r d o f []] else comps0).getLast? = none := hnone
    rw [h']
    exact error_bug_ne (by decide)
  case case6 =>
    rename_i rest args comps0 r d o f comp slots hle hactnone cmps hlast hrule
    have hlast' : (if (Span.mk r d o f []).complete = true
        then comps0 ++ [Span.mk r d o f []] else comps0).getLast? = some comp := hlast
    rw [hlast']
    try dsimp only
    rw [if_pos hrule]
    try dsimp only
    rw [if_pos hle, hactnone]
    exact error_err_ne_bug
  case case7 =>
    rename_i rest args comps0 r d o f comp slots hle rule_args action hact cmps hlast hrule ih
    have hlast' : (if (Span.mk r d o f []).complete = true
        then comps0 ++ [Span.mk r d o f []] else comps0).getLast? = some comp := hlast
    rw [hlast']
    try dsimp only
    rw [if_pos hrule]
    try dsimp only
    rw [if_pos hle, hact]
    exact ih
  case case8 =>
    rename_i rest args comps0 r d o f comp slots hnle cmps hlast hrule
    have hlast' : (if (Span.mk r d o f []).complete = true
        then comps0 ++ [Span.mk r d o f []] else comps0).getLast? = some comp := hlast
    rw [hlast']
    try dsimp only
    rw [if_pos hrule]
    try dsimp only
    rw [if_neg hnle]
    exact error_bug_ne (by decide)
  case case9 =>
    rename_i rest args comps0 r d o f comp cmps hlast hnrule
    have hlast' : (if (Span.mk r d o f []).complete = true
        then comps0 ++ [Span.mk r d o f []] else comps0).getLast? = some comp := hlast
    rw [hlast']
    try dsimp only
    rw [if_neg hnrule]
    exact error_bug_ne (by decide)

/-- C9: calling `eval` or `eval_recursive` on an empty `ParseTrees` panics
via the `expect` assertion `BUG: ParseTrees empty` rather than returning an
error value; for every non-empty `ParseTrees` this assertion cannot fire
(no other code path produces that panic), so non-emptiness of `ParseTrees`
is a precondition of both evaluators. -/
theorem c9_empty_parse_trees_panic :
    ∀ (α : Type) (F : EarleyForest α),
      (F.eval_recursive ([] : ParseTrees) = .error (.bug ("BUG: ParseTrees empty")) ∧
       F.eval ([] : ParseTrees) = .error (.bug ("BUG: ParseTrees empty"))) ∧
      (∀ (root : Span) (rest : List Span),
        F.eval_recursive (root :: rest) ≠ .error (.bug ("BUG: ParseTrees empty")) ∧
        F.eval (root :: rest) ≠ .error (.bug ("BUG: ParseTrees empty"))) := by
  intro α F
  refine ⟨⟨rfl, rfl⟩, ?_⟩
  intro root rest
  constructor
  · rw [EarleyForest.eval_recursive]
    cases hw : F.walker root with
    | error e =>
      have := (walker_ne_ptrees_bug F).1 root
      rw [hw] at this
      simpa using this
    | ok v =>
      simp only [except_bind_ok]
      cases v with
      | nil => exact error_bug_ne (by decide)
      | cons a l => exact ok_ne_error
  · rw [EarleyForest.eval]
    cases hw : F.evalLoop [root] [] [] with
    | error e =>
      have := evalLoop_ne_ptrees_bug F [root] [] []
      rw [hw] at this
      simpa using this
    | ok v =>
      simp only [except_bind_ok]
      match v with
      | [] => exact error_bug_ne (by decide)
      | [a] => exact ok_ne_error
      | a :: b :: l => exact error_bug_ne (by decide)

theorem reduce_congr {α : Type} (F1 F2 : EarleyForest α)
    (hA : ∀ r, F1.actions r = F2.actions r) (root : Span) (args : List α) :
    F1.reduce root args = F2.reduce root args := by
  rw [EarleyForest.reduce, EarleyForest.reduce, hA]

theorem walker_congr {α : Type} (F1 F2 : EarleyForest α)
    (hA : ∀ r, F1.actions r = F2.actions r)
    (hL : ∀ n l, F1.leaf_builder n l = F2.leaf_builder n l) :
    (∀ sp, F1.walker sp = F2.walker sp) ∧
    (∀ sp, F1.walker_args sp = F2.walker_args sp) := by
  refine EarleyForest.walker.mutual_induct F1
    (fun sp => F1.walker sp = F2.walker sp)
    (fun sp => F1.walker_args sp = F2.walker_args sp) ?_ ?_ ?_ ?_ ?_
  · intro sp ih
    rw [EarleyForest.walker, EarleyForest.walker, ih]
    cases F2.walker_args sp with
    | error e => rfl
    | ok v =>
      simp only [except_bind_ok]
      exact reduce_congr F1 F2 hA sp v
  · intro r d o f
    rw [EarleyForest.walker_args, EarleyForest.walker_args]
  · intro r d o f s t tail ih1 ih2
    rw [EarleyForest.walker_args, EarleyForest.walker_args, ih1, ih2]
  · intro r d o f s lex tail hn
    rw [EarleyForest.walker_args, EarleyForest.walker_args, hn]
  · intro r d o f s lex tail sym hn ih
    rw [EarleyForest.walker_args, EarleyForest.walker_args, hn]
    try dsimp only
    rw [ih, hL]

theorem evalLoop_congr {α : Type} (F1 F2 : EarleyForest α)
    (hA : ∀ r, F1.actions r = F2.actions r)
    (hL : ∀ n l, F1.leaf_builder n l = F2.leaf_builder n l) :
    ∀ (l : List Span) (args : List α) (comps : List Span),
      F1.evalLoop l args comps = F2.evalLoop l args comps := by
  intro l args comps
  induction l, args, comps using EarleyForest.evalLoop.induct F1
  all_goals (rw [EarleyForest.evalLoop, EarleyForest.evalLoop])
  case case2 => rename_i ih; simpa using ih
  case case3 => rename_i hn; rw [hn]
  case case4 =>
    rename_i sym hnsym cmps ih
    rw [hnsym]
    try dsimp only
    rw [hL]
    rw [hL] at ih
    simpa using ih
  case case5 =>
    rename_i rest args comps0 r d o f cmps hnone
    have h' : (if (Span.mk r d o f []).complete = true
        then comps0 ++ [Span.mk r d o f []] else comps0).getLast? = none := hnone
    rw [h']
  case case6 =>
    rename_i rest args comps0 r d o f comp slots hle hactnone cmps hlast hrule
    have hlast' : (if (Span.mk r d o f []).complete = true
        then comps0 ++ [Span.mk r d o f []] else comps0).getLast? = some comp := hlast
    rw [hlast']
    try dsimp only
    rw [if_pos hrule, if_pos hrule]
    try dsimp only
    have hactnone2 : F2.actions comp.rule.to_string = none := by rw [← hA]; exact hactnone
    rw [if_pos hle, if_pos hle, hactnone, hactnone2]
  case case7 =>
    rename_i rest args comps0 r d o f comp slots hle rule_args action hact cmps hlast hrule ih
    have hlast' : (if (Span.mk r d o f []).complete = true
        then comps0 ++ [Span.mk r d o f []] else comps0).getLast? = some comp := hlast
    rw [hlast']
    try dsimp only
    rw [if_pos hrule, if_pos hrule]
    try dsimp only
    have hact2 : F2.actions comp.rule.to_string = some action := by rw [← hA]; exact hact
    rw [if_pos hle, if_pos hle, hact, hact2]
    exact ih
  case case8 =>
    rename_i rest args comps0 r d o f comp slots hnle cmps hlast hrule
    have hlast' : (if (Span.mk r d o f []).complete = true
        then comps0 ++ [Span.mk r d o f []] else comps0).getLast? = some comp := hlast
    rw [hlast']
    try dsimp only
    rw [if_pos hrule, if_pos hrule]
    try dsimp only
    rw [if_neg hnle, if_neg hnle]
  case case9 =>
    rename_i rest args comps0 r d o f comp cmps hlast hnrule
    have hlast' : (if (Span.mk r d o f []).complete = true
        then comps0 ++ [Span.mk r d o f []] else comps0).getLast? = some comp := hlast
    rw [hlast']
    try dsimp only
    rw [if_neg hnrule, if_neg hnrule]

theorem reduce_row_congr {α : Type} (F1 F2 : EarleyForest α)
    (hA : ∀ r, F1.actions r = F2.actions r) (root : Span) :
    ∀ l, F1.reduce_row root l = F2.reduce_row root l := by
  intro l
  induction l with
  | nil => rfl
  | cons a as ih =>
    rw [EarleyForest.reduce_row, EarleyForest.reduce_row, reduce_congr F1 F2 hA, ih]

theorem wa_scan_congr {α : Type} (F1 F2 : EarleyForest α)
    (hA : ∀ r, F1.actions r = F2.actions r)
    (hL : ∀ n l, F1.leaf_builder n l = F2.leaf_builder n l) (root s : Span)
    (lex : String) :
    ∀ l, F1.wa_scan root s lex l = F2.wa_scan root s lex l := by
  intro l
  induction l with
  | nil => rfl
  | cons a as ih =>
    rw [EarleyForest.wa_scan, EarleyForest.wa_scan]
    cases hn : s.next_symbol with
    | none => rfl
    | some sym =>
      try dsimp only
      rw [hL, reduce_congr F1 F2 hA, ih]

theorem walker_all_congr {α : Type} (F1 F2 : EarleyForest α)
    (hA : ∀ r, F1.actions r = F2.actions r)
    (hL : ∀ n l, F1.leaf_builder n l = F2.leaf_builder n l) :
    (∀ sp, F1.walker_all sp = F2.walker_all sp) ∧
    (∀ root l, F1.wa_sources root l = F2.wa_sources root l) ∧
    (∀ root t vss, F1.wa_comp root t vss = F2.wa_comp root t vss) := by
  refine EarleyForest.walker_all.mutual_induct F1
    (fun sp => F1.walker_all sp = F2.walker_all sp)
    (fun root l => F1.wa_sources root l = F2.wa_sources root l)
    (fun root t vss => F1.wa_comp root t vss = F2.wa_comp root t vss) ?_ ?_ ?_ ?_ ?_ ?_ ?_
  · intro r d o f
    rw [EarleyForest.walker_all, EarleyForest.walker_all,
      reduce_congr F1 F2 hA]
  · intro r d o f s0 more ih
    rw [EarleyForest.walker_all, EarleyForest.walker_all]
    exact ih
  · intro root
    rw [EarleyForest.wa_sources, EarleyForest.wa_sources]
  · intro root s t rest ih1 ih3 ih2
    rw [EarleyForest.wa_sources, EarleyForest.wa_sources, ih1]
    cases F2.walker_all s with
    | error e => rfl
    | ok vss =>
      simp only [except_bind_ok]
      rw [ih3 vss, ih2]
  · intro root s lex rest ih1 ih2
    rw [EarleyForest.wa_sources, EarleyForest.wa_sources, ih1]
    cases F2.walker_all s with
    | error e => rfl
    | ok vss =>
      simp only [except_bind_ok]
      rw [wa_scan_congr F1 F2 hA hL, ih2]
  · intro root t
    rw [EarleyForest.wa_comp, EarleyForest.wa_comp]
  · intro root t a as ih1 ih3
    rw [EarleyForest.wa_comp, EarleyForest.wa_comp, ih1]
    cases F2.walker_all t with
    | error e => rfl
    | ok vts =>
      simp only [except_bind_ok]
      rw [reduce_row_congr F1 F2 hA, ih3]

theorem eval_all_trees_congr {α : Type} (F1 F2 : EarleyForest α)
    (hA : ∀ r, F1.actions r = F2.actions r)
    (hL : ∀ n l, F1.leaf_builder n l = F2.leaf_builder n l) :
    ∀ (l : List Span) (acc : List α),
      F1.eval_all_trees l acc = F2.eval_all_trees l acc := by
  intro l
  induction l with
  | nil => intro acc; rfl
  | cons root rs ih =>
    intro acc
    rw [EarleyForest.eval_all_trees, EarleyForest.eval_all_trees,
      (walker_all_congr F1 F2 hA hL).1]
    cases F2.walker_all root with
    | error e => rfl
    | ok ts =>
      simp only [except_bind_ok]
      cases headsOf ts with
      | error e => rfl
      | ok hs =>
        simp only [except_bind_ok]
        exact ih _

/-- C6: the evaluators are pure functions of the registered actions and
the leaf builder: two forests with extensionally equal action tables and
leaf builders (as built by two independent runs registering the same
actions) return equal results on every `ParseTrees` value, including an
identical ordering of the trees from `eval_all_recursive`. -/
theorem c6_deterministic_evaluation {α : Type} (F1 F2 : EarleyForest α)
    (hA : ∀ r, F1.actions r = F2.actions r)
    (hL : ∀ n l, F1.leaf_builder n l = F2.leaf_builder n l) (ptrees : ParseTrees) :
    F1.eval_recursive ptrees = F2.eval_recursive ptrees ∧
    F1.eval ptrees = F2.eval ptrees ∧
    F1.eval_all_recursive ptrees = F2.eval_all_recursive ptrees := by
  refine ⟨?_, ?_, ?_⟩
  · cases ptrees with
    | nil => rfl
    | cons root rest =>
      rw [EarleyForest.eval_recursive, EarleyForest.eval_recursive,
        (walker_congr F1 F2 hA hL).1]
  · cases ptrees with
    | nil => rfl
    | cons root rest =>
      rw [EarleyForest.eval, EarleyForest.eval, evalLoop_congr F1 F2 hA hL]
  · rw [EarleyForest.eval_all_recursive, EarleyForest.eval_all_recursive,
      eval_all_trees_congr F1 F2 hA hL]

/-- Witness for C6 at a concrete forest and chart: the hypotheses are
discharged by reflexivity of the (extensionally equal) action tables. -/
theorem c6_witness :
    EarleyForest.eval_recursive wForest [wSpan1] = EarleyForest.eval_recursive wForest [wSpan1] ∧
    EarleyForest.eval wForest [wSpan1] = EarleyForest.eval wForest [wSpan1] ∧
    EarleyForest.eval_all_recursive wForest [wSpan1] = EarleyForest.eval_all_recursive wForest [wSpan1] :=
  c6_deterministic_evaluation wForest wForest (fun _ => rfl) (fun _ _ => rfl) [wSpan1]

@[simp] theorem rule_mk (r : Rule) (d o f : Nat) (srcs : List SpanSource) :
    (Span.mk r d o f srcs).rule = r := rfl

@[simp] theorem dot_mk (r : Rule) (d o f : Nat) (srcs : List SpanSource) :
    (Span.mk r d o f srcs).dot = d := rfl

@[simp] theorem sources_mk (r : Rule) (d o f : Nat) (srcs : List SpanSource) :
    (Span.mk r d o f srcs).sources = srcs := rfl

theorem walkSpans_eq (sp : Span) : walkSpans sp = walkSub sp ++ [sp] := by
  rw [walkSpans]

theorem self_mem_walkSpans (sp : Span) : sp ∈ walkSpans sp := by
  rw [walkSpans_eq]
  simp

theorem walkSub_subset_walkSpans (sp : Span) :
    ∀ x ∈ walkSub sp, x ∈ walkSpans sp := by
  intro x hx
  rw [walkSpans_eq]
  simp [hx]

theorem isSome_next_symbol_not_complete (sp : Span)
    (h : sp.next_symbol.isSome = true) : sp.complete = false := by
  rw [Span.next_symbol] at h
  have hlt : sp.dot < sp.rule.spec.length := by
    cases hg : sp.rule.spec.get? sp.dot with
    | none =>
      rw [hg] at h
      simp at h
    | some sym =>
      obtain ⟨hlt2, _⟩ := List.get?_eq_some.mp hg
      exact hlt2
  rw [Span.complete]
  simp only [beq_eq_false_iff_ne, ne_eq]
  omega

theorem walker_dichotomy {α : Type} (F : EarleyForest α) :
    (∀ sp, wfFirst sp = true →
      (∃ bad, bad ∈ walkSpans sp ∧ bad.complete = true ∧
         F.actions bad.rule.to_string = none ∧
         F.walker sp = .error (.err ("Missing Action: " ++ bad.rule.to_string)))
      ∨ ((∀ sp2 ∈ walkSpans sp, sp2.complete = true →
            (F.actions sp2.rule.to_string).isSome = true) ∧
         ∃ v, F.walker sp = .ok v ∧
           v.length = (if sp.complete = true then 1 else sp.dot))) ∧
    (∀ sp, wfFirst sp = true →
      (∃ bad, bad ∈ walkSub sp ∧ bad.complete = true ∧
         F.actions bad.rule.to_string = none ∧
         F.walker_args sp = .error (.err ("Missing Action: " ++ bad.rule.to_string)))
      ∨ ((∀ sp2 ∈ walkSub sp, sp2.complete = true →
            (F.actions sp2.rule.to_string).isSome = true) ∧
         ∃ v, F.walker_args sp = .ok v ∧ v.length = sp.dot)) := by
  refine EarleyForest.walker.mutual_induct F
    (fun sp => wfFirst sp = true →
      (∃ bad, bad ∈ walkSpans sp ∧ bad.complete = true ∧
         F.actions bad.rule.to_string = none ∧
         F.walker sp = .error (.err ("Missing Action: " ++ bad.rule.to_string)))
      ∨ ((∀ sp2 ∈ walkSpans sp, sp2.complete = true →
            (F.actions sp2.rule.to_string).isSome = true) ∧
         ∃ v, F.walker sp = .ok v ∧
           v.length = (if sp.complete = true then 1 else sp.dot)))
    (fun sp => wfFirst sp = true →
      (∃ bad, bad ∈ walkSub sp ∧ bad.complete = true ∧
         F.actions bad.rule.to_string = none ∧
         F.walker_args sp = .error (.err ("Missing Action: " ++ bad.rule.to_string)))
      ∨ ((∀ sp2 ∈ walkSub sp, sp2.complete = true →
            (F.actions sp2.rule.to_string).isSome = true) ∧
         ∃ v, F.walker_args sp = .ok v ∧ v.length = sp.dot)) ?_ ?_ ?_ ?_ ?_
  · -- walker from walker_args
    intro sp ih hwf
    rcases ih hwf with ⟨bad, hmem, hbc, hbn, herr⟩ | ⟨hall, v, hok, hlen⟩
    · left
      refine ⟨bad, walkSub_subset_walkSpans sp bad hmem, hbc, hbn, ?_⟩
      rw [EarleyForest.walker, herr]
      rfl
    · rw [EarleyForest.walker, hok]
      simp only [except_bind_ok]
      by_cases hc : sp.complete = true
      · rw [EarleyForest.reduce, hc]
        simp only [if_true]
        cases hact : F.actions sp.rule.to_string with
        | none =>
          left
          exact ⟨sp, self_mem_walkSpans sp, hc, hact, rfl⟩
        | some act =>
          right
          constructor
          · intro sp2 hmem2 hc2
            rw [walkSpans_eq] at hmem2
            rcases List.mem_append.mp hmem2 with h2 | h2
            · exact hall sp2 h2 hc2
            · simp at h2
              rw [h2, hact]
              rfl
          · exact ⟨[act v], rfl, by simp [hc]⟩
      · have hcf : sp.complete = false := by
          cases hcc : sp.complete
          · rfl
          · exact absurd hcc hc
        rw [EarleyForest.reduce, hcf]
        simp only [Bool.false_eq_true, if_false]
        right
        constructor
        · intro sp2 hmem2 hc2
          rw [walkSpans_eq] at hmem2
          rcases List.mem_append.mp hmem2 with h2 | h2
          · exact hall sp2 h2 hc2
          · simp at h2
            rw [h2] at hc2
            exact absurd hc2 hc
        · exact ⟨v, rfl, hlen⟩
  · -- no sources
    intro r d o f hwf
    rw [wfFirst] at hwf
    right
    constructor
    · intro sp2 hmem2
      rw [walkSub] at hmem2
      simp at hmem2
    · refine ⟨[], by rw [EarleyForest.walker_args], ?_⟩
      simp
      exact (beq_iff_eq.mp hwf).symm
  · -- completion source
    intro r d o f s t tail ih1 ih2 hwf
    rw [wfFirst] at hwf
    simp only [Bool.and_eq_true, beq_iff_eq] at hwf
    obtain ⟨⟨⟨⟨⟨hsr, hsd⟩, hss⟩, htc⟩, hwfs⟩, hwft⟩ := hwf
    rw [EarleyForest.walker_args]
    rcases ih1 hwfs with ⟨bad, hmem, hbc, hbn, herr⟩ | ⟨hall1, vs, hok1, hlen1⟩
    · left
      refine ⟨bad, ?_, hbc, hbn, ?_⟩
      · rw [walkSub]
        simp [hmem]
      · rw [herr]
        rfl
    · rw [hok1]
      simp only [except_bind_ok]
      rcases ih2 hwft with ⟨bad, hmem, hbc, hbn, herr⟩ | ⟨hall2, vt, hok2, hlen2⟩
      · left
        refine ⟨bad, ?_, hbc, hbn, ?_⟩
        · rw [walkSub]
          simp [hmem]
        · rw [herr]
          rfl
      · right
        constructor
        · intro sp2 hmem2 hc2
          rw [walkSub] at hmem2
          rcases List.mem_append.mp hmem2 with h2 | h2
          · exact hall1 sp2 h2 hc2
          · exact hall2 sp2 h2 hc2
        · refine ⟨vs ++ vt, ?_, ?_⟩
          · rw [hok2]
            rfl
          have hsc : s.complete = false :=
            isSome_next_symbol_not_complete s hss
          rw [hsc] at hlen1
          simp at hlen1
          rw [htc] at hlen2
          simp at hlen2
          simp [hlen1, hlen2]
          omega
  · -- scan with missing next symbol: contradicts well-formedness
    intro r d o f s lex tail hn hwf
    rw [wfFirst] at hwf
    simp only [Bool.and_eq_true] at hwf
    rw [hn] at hwf
    simp at hwf
  · -- scan source
    intro r d o f s lex tail sym hn ih hwf
    rw [wfFirst] at hwf
    simp only [Bool.and_eq_true, beq_iff_eq] at hwf
    obtain ⟨⟨⟨hsr, hsd⟩, hss⟩, hwfs⟩ := hwf
    rw [EarleyForest.walker_args, hn]
    try dsimp only
    rcases ih hwfs with ⟨bad, hmem, hbc, hbn, herr⟩ | ⟨hall1, vs, hok1, hlen1⟩
    · left
      refine ⟨bad, ?_, hbc, hbn, ?_⟩
      · rw [walkSub]
        exact hmem
      · rw [herr]
        rfl
    · right
      constructor
      · intro sp2 hmem2 hc2
        rw [walkSub] at hmem2
        exact hall1 sp2 hmem2 hc2
      · refine ⟨vs ++ [F.leaf_builder sym.name lex], ?_, ?_⟩
        · rw [hok1]
          rfl
        have hsc : s.complete = false :=
          isSome_next_symbol_not_complete s hss
        rw [hsc] at hlen1
        simp at hlen1
        simp [hlen1]
        omega

theorem reduce_ok_length {α : Type} (F : EarleyForest α) (root : Span)
    (args : List α) (v : List α) (h : F.reduce root args = .ok v) :
    v.length = if root.complete = true then 1 else args.length := by
  rw [EarleyForest.reduce] at h
  by_cases hc : root.complete = true
  · rw [if_pos hc] at h
    rw [if_pos hc]
    cases hA : F.actions root.rule.to_string with
    | none =>
      rw [hA] at h
      simp at h
    | some act =>
      rw [hA] at h
      simp at h
      rw [← h]
      rfl
  · rw [if_neg hc] at h
    rw [if_neg hc]
    simp at h
    rw [← h]

theorem wa_scan_ok_length {α : Type} (F : EarleyForest α) (root s : Span)
    (lex : String) :
    ∀ (l : List (List α)) (bs : List (List α)),
      F.wa_scan root s lex l = .ok bs → bs.length = l.length := by
  intro l
  induction l with
  | nil =>
    intro bs h
    rw [EarleyForest.wa_scan] at h
    simp at h
    simp [← h]
  | cons a as ih =>
    intro bs h
    rw [EarleyForest.wa_scan] at h
    cases hn : s.next_symbol with
    | none =>
      rw [hn] at h
      simp at h
    | some sym =>
      rw [hn] at h
      try dsimp only at h
      cases h1 : F.reduce root (a ++ [F.leaf_builder sym.name lex]) with
      | error e =>
        rw [h1] at h
        simp at h
      | ok v =>
        rw [h1] at h
        simp only [except_bind_ok] at h
        cases h2 : F.wa_scan root s lex as with
        | error e =>
          rw [h2] at h
          simp at h
        | ok vs =>
          rw [h2] at h
          simp at h
          rw [← h]
          simp [ih vs h2]

theorem reduce_row_ok_length {α : Type} (F : EarleyForest α) (root : Span) :
    ∀ (l : List (List α)) (bs : List (List α)),
      F.reduce_row root l = .ok bs → bs.length = l.length := by
  intro l
  induction l with
  | nil =>
    intro bs h
    rw [EarleyForest.reduce_row] at h
    simp at h
    simp [← h]
  | cons a as ih =>
    intro bs h
    rw [EarleyForest.reduce_row] at h
    cases h1 : F.reduce root a with
    | error e =>
      rw [h1] at h
      simp at h
    | ok v =>
      rw [h1] at h
      simp only [except_bind_ok] at h
      cases h2 : F.reduce_row root as with
      | error e =>
        rw [h2] at h
        simp at h
      | ok vs =>
        rw [h2] at h
        simp at h
        rw [← h]
        simp [ih vs h2]

theorem walker_all_ne_nil {α : Type} (F : EarleyForest α) :
    (∀ sp ts, F.walker_all sp = .ok ts → ts ≠ []) ∧
    (∀ root l bs, F.wa_sources root l = .ok bs → l ≠ [] → bs ≠ []) ∧
    (∀ root t vss rows, F.wa_comp root t vss = .ok rows → vss ≠ [] → rows ≠ []) := by
  refine EarleyForest.walker_all.mutual_induct F
    (fun sp => ∀ ts, F.walker_all sp = .ok ts → ts ≠ [])
    (fun root l => ∀ bs, F.wa_sources root l = .ok bs → l ≠ [] → bs ≠ [])
    (fun root t vss => ∀ rows, F.wa_comp root t vss = .ok rows → vss ≠ [] → rows ≠ [])
    ?_ ?_ ?_ ?_ ?_ ?_ ?_
  · intro r d o f ts h
    rw [EarleyForest.walker_all] at h
    cases h1 : F.reduce (Span.mk r d o f []) [] with
    | error e =>
      rw [h1] at h
      simp at h
    | ok v =>
      rw [h1] at h
      simp at h
      simp [← h]
  · intro r d o f s0 more ih ts h
    rw [EarleyForest.walker_all] at h
    exact ih ts h (by simp)
  · intro root bs h hne
    exact absurd rfl hne
  · intro root s t rest ih1 ih3 ih2 bs h hne
    rw [EarleyForest.wa_sources] at h
    cases h1 : F.walker_all s with
    | error e =>
      rw [h1] at h
      simp at h
    | ok vss =>
      rw [h1] at h
      simp only [except_bind_ok] at h
      cases h2 : F.wa_comp root t vss with
      | error e =>
        rw [h2] at h
        simp at h
      | ok rows =>
        rw [h2] at h
        simp only [except_bind_ok] at h
        cases h3 : F.wa_sources root rest with
        | error e =>
          rw [h3] at h
          simp at h
        | ok more2 =>
          rw [h3] at h
          simp at h
          have hrows : rows ≠ [] := ih3 vss rows h2 (ih1 vss h1)
          rw [← h]
          simp [hrows]
  · intro root s lex rest ih1 ih2 bs h hne
    rw [EarleyForest.wa_sources] at h
    cases h1 : F.walker_all s with
    | error e =>
      rw [h1] at h
      simp at h
    | ok vss =>
      rw [h1] at h
      simp only [except_bind_ok] at h
      cases h2 : F.wa_scan root s lex vss with
      | error e =>
        rw [h2] at h
        simp at h
      | ok block =>
        rw [h2] at h
        simp only [except_bind_ok] at h
        cases h3 : F.wa_sources root rest with
        | error e =>
          rw [h3] at h
          simp at h
        | ok more2 =>
          rw [h3] at h
          simp at h
          have hb : block.length = vss.length := wa_scan_ok_length F root s lex vss block h2
          have hvss : vss ≠ [] := ih1 vss h1
          rw [← h]
          intro habs
          simp at habs
          have : block = [] := habs.1
          rw [this] at hb
          simp at hb
          exact hvss (List.length_eq_zero.mp hb.symm)
  · intro root t rows h hne
    exact absurd rfl hne
  · intro root t a as ih1 ih3 rows h hne
    rw [EarleyForest.wa_comp] at h
    cases h1 : F.walker_all t with
    | error e =>
      rw [h1] at h
      simp at h
    | ok vts =>
      rw [h1] at h
      simp only [except_bind_ok] at h
      cases h2 : F.reduce_row root (vts.map (fun trig => a ++ trig)) with
      | error e =>
        rw [h2] at h
        simp at h
      | ok row =>
        rw [h2] at h
        simp only [except_bind_ok] at h
        cases h3 : F.wa_comp root t as with
        | error e =>
          rw [h3] at h
          simp at h
        | ok morerows =>
          rw [h3] at h
          simp at h
          have hrow : row.length = vts.length := by
            have := reduce_row_ok_length F root _ row h2
            simpa using this
          have hvts : vts ≠ [] := ih1 vts h1
          rw [← h]
          intro habs
          simp at habs
          rw [habs.1] at hrow
          simp at hrow
          exact hvts (List.length_eq_zero.mp hrow.symm)

theorem wa_scan_lengths {α : Type} (F : EarleyForest α) (root s : Span)
    (lex : String) (k : Nat) :
    ∀ (l bs : List (List α)), (∀ a ∈ l, a.length = k) →
      F.wa_scan root s lex l = .ok bs →
      ∀ v ∈ bs, v.length = if root.complete = true then 1 else k + 1 := by
  intro l
  induction l with
  | nil =>
    intro bs _ h
    rw [EarleyForest.wa_scan] at h
    simp at h
    subst h
    simp
  | cons a as ih =>
    intro bs ha h
    rw [EarleyForest.wa_scan] at h
    cases hn : s.next_symbol with
    | none =>
      rw [hn] at h
      simp at h
    | some sym =>
      rw [hn] at h
      try dsimp only at h
      cases h1 : F.reduce root (a ++ [F.leaf_builder sym.name lex]) with
      | error e =>
        rw [h1] at h
        simp at h
      | ok v =>
        rw [h1] at h
        simp only [except_bind_ok] at h
        cases h2 : F.wa_scan root s lex as with
        | error e =>
          rw [h2] at h
          simp at h
        | ok vs =>
          rw [h2] at h
          simp at h
          intro w hw
          rw [← h] at hw
          rcases List.mem_cons.mp hw with hv | hvs
          · have := reduce_ok_length F root _ v h1
            rw [hv, this]
            have : a.length = k := ha a (by simp)
            simp [this]
          · exact ih vs (fun b hb => ha b (by simp [hb])) h2 w hvs

theorem reduce_row_lengths {α : Type} (F : EarleyForest α) (root : Span)
    (m : Nat) :
    ∀ (l bs : List (List α)), (∀ a ∈ l, a.length = m) →
      F.reduce_row root l = .ok bs →
      ∀ v ∈ bs, v.length = if root.complete = true then 1 else m := by
  intro l
  induction l with
  | nil =>
    intro bs _ h
    rw [EarleyForest.reduce_row] at h
    simp at h
    subst h
    simp
  | cons a as ih =>
    intro bs ha h
    rw [EarleyForest.reduce_row] at h
    cases h1 : F.reduce root a with
    | error e =>
      rw [h1] at h
      simp at h
    | ok v =>
      rw [h1] at h
      simp only [except_bind_ok] at h
      cases h2 : F.reduce_row root as with
      | error e =>
        rw [h2] at h
        simp at h
      | ok vs =>
        rw [h2] at h
        simp at h
        intro w hw
        rw [← h] at hw
        rcases List.mem_cons.mp hw with hv | hvs
        · have := reduce_ok_length F root a v h1
          rw [hv, this, ha a (by simp)]
        · exact ih vs (fun b hb => ha b (by simp [hb])) h2 w hvs

theorem walker_all_lengths {α : Type} (F : EarleyForest α) :
    (∀ sp, wfAll sp = true → ∀ ts, F.walker_all sp = .ok ts →
       ∀ v ∈ ts, v.length = if sp.complete = true then 1 else sp.dot) ∧
    (∀ root l, wfSrcs root.rule root.dot l = true →
       ∀ bs, F.wa_sources root l = .ok bs →
       ∀ v ∈ bs, v.length = if root.complete = true then 1 else root.dot) ∧
    (∀ root t vss, wfAll t = true → t.complete = true →
       ∀ k, (∀ a ∈ vss, a.length = k) →
       ∀ rows, F.wa_comp root t vss = .ok rows →
       ∀ v ∈ rows, v.length = if root.complete = true then 1 else k + 1) := by
  refine EarleyForest.walker_all.mutual_induct F
    (fun sp => wfAll sp = true → ∀ ts, F.walker_all sp = .ok ts →
       ∀ v ∈ ts, v.length = if sp.complete = true then 1 else sp.dot)
    (fun root l => wfSrcs root.rule root.dot l = true →
       ∀ bs, F.wa_sources root l = .ok bs →
       ∀ v ∈ bs, v.length = if root.complete = true then 1 else root.dot)
    (fun root t vss => wfAll t = true → t.complete = true →
       ∀ k, (∀ a ∈ vss, a.length = k) →
       ∀ rows, F.wa_comp root t vss = .ok rows →
       ∀ v ∈ rows, v.length = if root.complete = true then 1 else k + 1)
    ?_ ?_ ?_ ?_ ?_ ?_ ?_
  · intro r d o f hwf ts h
    rw [wfAll] at hwf
    have hd : d = 0 := by simpa using hwf
    rw [EarleyForest.walker_all] at h
    cases h1 : F.reduce (Span.mk r d o f []) [] with
    | error e =>
      rw [h1] at h
      simp at h
    | ok v =>
      rw [h1] at h
      simp at h
      intro w hw
      rw [← h] at hw
      simp at hw
      rw [hw]
      have := reduce_ok_length F (Span.mk r d o f []) [] v h1
      simpa [hd] using this
  · intro r d o f s0 more ih hwf ts h
    rw [EarleyForest.walker_all] at h
    rw [wfAll] at hwf
    exact ih (by simpa using hwf) ts h
  · intro root hwf bs h
    rw [EarleyForest.wa_sources] at h
    simp at h
    subst h
    simp
  · intro root s t rest ih1 ih3 ih2 hwf bs h
    rw [wfSrcs] at hwf
    simp only [Bool.and_eq_true, beq_iff_eq] at hwf
    obtain ⟨⟨⟨⟨⟨⟨hsr, hsd⟩, hss⟩, htc⟩, hws⟩, hwt⟩, hwr⟩ := hwf
    rw [EarleyForest.wa_sources] at h
    cases h1 : F.walker_all s with
    | error e =>
      rw [h1] at h
      simp at h
    | ok vss =>
      rw [h1] at h
      simp only [except_bind_ok] at h
      cases h2 : F.wa_comp root t vss with
      | error e =>
        rw [h2] at h
        simp at h
      | ok rows =>
        rw [h2] at h
        simp only [except_bind_ok] at h
        cases h3 : F.wa_sources root rest with
        | error e =>
          rw [h3] at h
          simp at h
        | ok more2 =>
          rw [h3] at h
          simp at h
          have hsc : s.complete = false :=
            isSome_next_symbol_not_complete s hss
          have hvss : ∀ a ∈ vss, a.length = s.dot := by
            intro a hainv
            have := ih1 hws vss h1 a hainv
            rw [hsc] at this
            simpa using this
          have hrows := ih3 vss hwt htc s.dot hvss rows h2
          intro w hw
          rw [← h] at hw
          rcases List.mem_append.mp hw with hwb | hwm
          · have := hrows w hwb
            rw [this, hsd]
          · exact ih2 hwr more2 h3 w hwm
  · intro root s lex rest ih1 ih2 hwf bs h
    rw [wfSrcs] at hwf
    simp only [Bool.and_eq_true, beq_iff_eq] at hwf
    obtain ⟨⟨⟨⟨hsr, hsd⟩, hss⟩, hws⟩, hwr⟩ := hwf
    rw [EarleyForest.wa_sources] at h
    cases h1 : F.walker_all s with
    | error e =>
      rw [h1] at h
      simp at h
    | ok vss =>
      rw [h1] at h
      simp only [except_bind_ok] at h
      cases h2 : F.wa_scan root s lex vss with
      | error e =>
        rw [h2] at h
        simp at h
      | ok block =>
        rw [h2] at h
        simp only [except_bind_ok] at h
        cases h3 : F.wa_sources root rest with
        | error e =>
          rw [h3] at h
          simp at h
        | ok more2 =>
          rw [h3] at h
          simp at h
          have hsc : s.complete = false :=
            isSome_next_symbol_not_complete s hss
          have hvss : ∀ a ∈ vss, a.length = s.dot := by
            intro a hainv
            have := ih1 hws vss h1 a hainv
            rw [hsc] at this
            simpa using this
          have hblock := wa_scan_lengths F root s lex s.dot vss block hvss h2
          intro w hw
          rw [← h] at hw
          rcases List.mem_append.mp hw with hwb | hwm
          · have := hblock w hwb
            rw [this, hsd]
          · exact ih2 hwr more2 h3 w hwm
  · intro root t hwt htc k ha rows h
    rw [EarleyForest.wa_comp] at h
    simp at h
    subst h
    simp
  · intro root t a as ih1 ih3 hwt htc k ha rows h
    rw [EarleyForest.wa_comp] at h
    cases h1 : F.walker_all t with
    | error e =>
      rw [h1] at h
      simp at h
    | ok vts =>
      rw [h1] at h
      simp only [except_bind_ok] at h
      cases h2 : F.reduce_row root (vts.map (fun trig => a ++ trig)) with
      | error e =>
        rw [h2] at h
        simp at h
      | ok row =>
        rw [h2] at h
        simp only [except_bind_ok] at h
        cases h3 : F.wa_comp root t as with
        | error e =>
          rw [h3] at h
          simp at h
        | ok morerows =>
          rw [h3] at h
          simp at h
          have hvts : ∀ b ∈ vts, b.length = 1 := by
            intro b hb
            have := ih1 hwt vts h1 b hb
            rw [htc] at this
            simpa using this
          have hmap : ∀ c ∈ vts.map (fun trig => a ++ trig), c.length = k + 1 := by
            intro c hc
            obtain ⟨b, hb, hcb⟩ := List.mem_map.mp hc
            rw [← hcb]
            simp [hvts b hb, ha a (by simp)]
          have hrow := reduce_row_lengths F root (k + 1) _ row hmap h2
          intro w hw
          rw [← h] at hw
          rcases List.mem_append.mp hw with hwb | hwm
          · exact hrow w hwb
          · exact ih3 hwt htc k (fun b hb => ha b (by simp [hb])) morerows h3 w hwm

theorem reduce_missing {α : Type} (F : EarleyForest α) (root : Span)
    (args : List α) (hc : root.complete = true)
    (hn : F.actions root.rule.to_string = none) :
    F.reduce root args = .error (.err ("Missing Action: " ++ root.rule.to_string)) := by
  rw [EarleyForest.reduce, if_pos hc, hn]

theorem reduce_ok_of_isSome {α : Type} (F : EarleyForest α) (root : Span)
    (args : List α) (h : root.complete = true → (F.actions root.rule.to_string).isSome = true) :
    ∃ v, F.reduce root args = .ok v := by
  rw [EarleyForest.reduce]
  by_cases hc : root.complete = true
  · rw [if_pos hc]
    obtain ⟨act, hact⟩ := Option.isSome_iff_exists.mp (h hc)
    rw [hact]
    exact ⟨[act args], rfl⟩
  · rw [if_neg hc]
    exact ⟨args, rfl⟩

theorem reduce_ok_isSome {α : Type} (F : EarleyForest α) (root : Span)
    (args v : List α) (h : F.reduce root args = .ok v) (hc : root.complete = true) :
    (F.actions root.rule.to_string).isSome = true := by
  rw [EarleyForest.reduce, if_pos hc] at h
  cases hA : F.actions root.rule.to_string with
  | none =>
    rw [hA] at h
    simp at h
  | some act => rfl

theorem wa_scan_dicho {α : Type} (F : EarleyForest α) (root s : Span)
    (lex : String) (hss : s.next_symbol.isSome = true) :
    ∀ vss : List (List α), vss ≠ [] →
      (root.complete = true ∧ F.actions root.rule.to_string = none ∧
        F.wa_scan root s lex vss =
          .error (.err ("Missing Action: " ++ root.rule.to_string)))
      ∨ ((root.complete = true → (F.actions root.rule.to_string).isSome = true) ∧
         ∃ bs, F.wa_scan root s lex vss = .ok bs) := by
  obtain ⟨sym, hsym⟩ := Option.isSome_iff_exists.mp hss
  by_cases hc : root.complete = true
  · cases hA : F.actions root.rule.to_string with
    | none =>
      intro vss hne
      left
      refine ⟨hc, rfl, ?_⟩
      cases vss with
      | nil => exact absurd rfl hne
      | cons a more =>
        rw [EarleyForest.wa_scan, hsym]
        try dsimp only
        rw [reduce_missing F root _ hc hA]
        rfl
    | some act =>
      intro vss hne
      right
      refine ⟨fun _ => rfl, ?_⟩
      clear hne
      induction vss with
      | nil => exact ⟨[], by rw [EarleyForest.wa_scan]⟩
      | cons a more ih =>
        obtain ⟨bs, hbs⟩ := ih
        obtain ⟨v, hv⟩ := reduce_ok_of_isSome F root
          (a ++ [F.leaf_builder sym.name lex]) (fun _ => by rw [hA]; rfl)
        refine ⟨v :: bs, ?_⟩
        rw [EarleyForest.wa_scan, hsym]
        try dsimp only
        rw [hv]
        simp only [except_bind_ok]
        rw [hbs]
        rfl
  · intro vss hne
    right
    refine ⟨fun h => absurd h hc, ?_⟩
    clear hne
    induction vss with
    | nil => exact ⟨[], by rw [EarleyForest.wa_scan]⟩
    | cons a more ih =>
      obtain ⟨bs, hbs⟩ := ih
      obtain ⟨v, hv⟩ := reduce_ok_of_isSome F root
        (a ++ [F.leaf_builder sym.name lex]) (fun h => absurd h hc)
      refine ⟨v :: bs, ?_⟩
      rw [EarleyForest.wa_scan, hsym]
      try dsimp only
      rw [hv]
      simp only [except_bind_ok]
      rw [hbs]
      rfl

theorem reduce_row_dicho {α : Type} (F : EarleyForest α) (root : Span) :
    ∀ rows : List (List α), rows ≠ [] →
      (root.complete = true ∧ F.actions root.rule.to_string = none ∧
        F.reduce_row root rows =
          .error (.err ("Missing Action: " ++ root.rule.to_string)))
      ∨ ((root.complete = true → (F.actions root.rule.to_string).isSome = true) ∧
         ∃ bs, F.reduce_row root rows = .ok bs) := by
  have hok : (root.complete = true → (F.actions root.rule.to_string).isSome = true) →
      ∀ rows : List (List α), ∃ bs, F.reduce_row root rows = .ok bs := by
    intro hA rows
    induction rows with
    | nil => exact ⟨[], by rw [EarleyForest.reduce_row]⟩
    | cons a more ih =>
      obtain ⟨bs, hbs⟩ := ih
      obtain ⟨v, hv⟩ := reduce_ok_of_isSome F root a hA
      refine ⟨v :: bs, ?_⟩
      rw [EarleyForest.reduce_row, hv]
      simp only [except_bind_ok]
      rw [hbs]
      rfl
  by_cases hc : root.complete = true
  · cases hA : F.actions root.rule.to_string with
    | none =>
      intro rows hne
      left
      refine ⟨hc, rfl, ?_⟩
      cases rows with
      | nil => exact absurd rfl hne
      | cons a more =>
        rw [EarleyForest.reduce_row, reduce_missing F root _ hc hA]
        rfl
    | some act =>
      intro rows _
      exact Or.inr ⟨fun _ => rfl, hok (fun _ => by rw [hA]; rfl) rows⟩
  · intro rows _
    exact Or.inr ⟨fun h => absurd h hc, hok (fun h => absurd h hc) rows⟩

theorem allWalkSpans_eq (sp : Span) :
    allWalkSpans sp = allWalkSrcs sp.sources ++ [sp] := by
  cases sp with
  | mk r d o f srcs =>
    rw [allWalkSpans]
    rfl

theorem self_mem_allWalkSpans (sp : Span) : sp ∈ allWalkSpans sp := by
  rw [allWalkSpans_eq]
  simp

theorem allWalkSrcs_nil : allWalkSrcs [] = [] := by rw [allWalkSrcs]

theorem allWalkSrcs_scan (s : Span) (lex : String) (rest : List SpanSource) :
    allWalkSrcs (.scan s lex :: rest) = allWalkSpans s ++ allWalkSrcs rest := by
  rw [allWalkSrcs]

theorem allWalkSrcs_comp (s t : Span) (rest : List SpanSource) :
    allWalkSrcs (.completion s t :: rest) =
      allWalkSpans s ++ allWalkSpans t ++ allWalkSrcs rest := by
  rw [allWalkSrcs]

theorem walker_all_dichotomy {α : Type} (F : EarleyForest α) :
    (∀ sp, wfAll sp = true →
      (∃ bad, bad ∈ allWalkSpans sp ∧ bad.complete = true ∧
         F.actions bad.rule.to_string = none ∧
         F.walker_all sp = .error (.err ("Missing Action: " ++ bad.rule.to_string)))
      ∨ ((∀ w ∈ allWalkSpans sp, w.complete = true →
            (F.actions w.rule.to_string).isSome = true) ∧
         ∃ ts, F.walker_all sp = .ok ts)) ∧
    (∀ root l, wfSrcs root.rule root.dot l = true → l ≠ [] →
      (∃ bad, bad ∈ allWalkSrcs l ++ [root] ∧ bad.complete = true ∧
         F.actions bad.rule.to_string = none ∧
         F.wa_sources root l = .error (.err ("Missing Action: " ++ bad.rule.to_string)))
      ∨ ((∀ w ∈ allWalkSrcs l ++ [root], w.complete = true →
            (F.actions w.rule.to_string).isSome = true) ∧
         ∃ bs, F.wa_sources root l = .ok bs)) ∧
    (∀ root t vss, wfAll t = true → t.complete = true → vss ≠ [] →
      (∃ bad, bad ∈ allWalkSpans t ++ [root] ∧ bad.complete = true ∧
         F.actions bad.rule.to_string = none ∧
         F.wa_comp root t vss = .error (.err ("Missing Action: " ++ bad.rule.to_string)))
      ∨ ((∀ w ∈ allWalkSpans t ++ [root], w.complete = true →
            (F.actions w.rule.to_string).isSome = true) ∧
         ∃ rows, F.wa_comp root t vss = .ok rows)) := by
  refine EarleyForest.walker_all.mutual_induct F
    (fun sp => wfAll sp = true →
      (∃ bad, bad ∈ allWalkSpans sp ∧ bad.complete = true ∧
         F.actions bad.rule.to_string = none ∧
         F.walker_all sp = .error (.err ("Missing Action: " ++ bad.rule.to_string)))
      ∨ ((∀ w ∈ allWalkSpans sp, w.complete = true →
            (F.actions w.rule.to_string).isSome = true) ∧
         ∃ ts, F.walker_all sp = .ok ts))
    (fun root l => wfSrcs root.rule root.dot l = true → l ≠ [] →
      (∃ bad, bad ∈ allWalkSrcs l ++ [root] ∧ bad.complete = true ∧
         F.actions bad.rule.to_string = none ∧
         F.wa_sources root l = .error (.err ("Missing Action: " ++ bad.rule.to_string)))
      ∨ ((∀ w ∈ allWalkSrcs l ++ [root], w.complete = true →
            (F.actions w.rule.to_string).isSome = true) ∧
         ∃ bs, F.wa_sources root l = .ok bs))
    (fun root t vss => wfAll t = true → t.complete = true → vss ≠ [] →
      (∃ bad, bad ∈ allWalkSpans t ++ [root] ∧ bad.complete = true ∧
         F.actions bad.rule.to_string = none ∧
         F.wa_comp root t vss = .error (.err ("Missing Action: " ++ bad.rule.to_string)))
      ∨ ((∀ w ∈ allWalkSpans t ++ [root], w.complete = true →
            (F.actions w.rule.to_string).isSome = true) ∧
         ∃ rows, F.wa_comp root t vss = .ok rows))
    ?_ ?_ ?_ ?_ ?_ ?_ ?_
  · intro r d o f _
    by_cases hc : (Span.mk r d o f []).complete = true
    · cases hA : F.actions (Span.mk r d o f []).rule.to_string with
      | none =>
        left
        refine ⟨Span.mk r d o f [], self_mem_allWalkSpans _, hc, hA, ?_⟩
        rw [EarleyForest.walker_all, reduce_missing F _ [] hc hA]
        rfl
      | some act =>
        right
        constructor
        · intro w hw _
          rw [allWalkSpans_eq] at hw
          simp [allWalkSrcs_nil] at hw
          rw [hw, hA]
          rfl
        · obtain ⟨v, hv⟩ := reduce_ok_of_isSome F _ [] (fun _ => by rw [hA]; rfl)
          exact ⟨[v], by rw [EarleyForest.walker_all, hv]; rfl⟩
    · right
      constructor
      · intro w hw hwc
        rw [allWalkSpans_eq] at hw
        simp [allWalkSrcs_nil] at hw
        rw [hw] at hwc
        exact absurd hwc hc
      · obtain ⟨v, hv⟩ := reduce_ok_of_isSome F _ [] (fun h => absurd h hc)
        exact ⟨[v], by rw [EarleyForest.walker_all, hv]; rfl⟩
  · intro r d o f s0 more ih hwf
    rw [wfAll] at hwf
    rcases ih (by simpa using hwf) (by simp) with ⟨bad, hbad, h1, h2, h3⟩ | ⟨hnb, bs, hbs⟩
    · left
      refine ⟨bad, ?_, h1, h2, ?_⟩
      · rw [allWalkSpans_eq]
        simpa using hbad
      · rw [EarleyForest.walker_all]
        exact h3
    · right
      constructor
      · intro w hw
        apply hnb
        rw [allWalkSpans_eq] at hw
        simpa using hw
      · exact ⟨bs, by rw [EarleyForest.walker_all]; exact hbs⟩
  · intro root _ hne
    exact absurd rfl hne
  · intro root s t rest ih1 ih3 ih2 hwf _
    rw [wfSrcs] at hwf
    simp only [Bool.and_eq_true, beq_iff_eq] at hwf
    obtain ⟨⟨⟨⟨⟨⟨hsr, hsd⟩, hss⟩, htc⟩, hws⟩, hwt⟩, hwr⟩ := hwf
    rcases ih1 hws with ⟨bad, hbad, h1, h2, h3⟩ | ⟨hnbs, vss, hok1⟩
    · left
      refine ⟨bad, ?_, h1, h2, ?_⟩
      · rw [allWalkSrcs_comp]
        simp only [List.mem_append]
        exact Or.inl (Or.inl (Or.inl hbad))
      · rw [EarleyForest.wa_sources, h3]
        rfl
    · have hvne : vss ≠ [] := (walker_all_ne_nil F).1 s vss hok1
      rcases ih3 vss hwt htc hvne with ⟨bad, hbad, h1, h2, h3⟩ | ⟨hnbt, rows, hok2⟩
      · left
        refine ⟨bad, ?_, h1, h2, ?_⟩
        · rw [allWalkSrcs_comp]
          simp only [List.mem_append]
          rcases List.mem_append.mp hbad with hbt | hbr
          · exact Or.inl (Or.inl (Or.inr hbt))
          · exact Or.inr hbr
        · rw [EarleyForest.wa_sources, hok1]
          simp only [except_bind_ok]
          rw [h3]
          rfl
      · cases rest with
        | nil =>
          right
          constructor
          · intro w hw
            rw [allWalkSrcs_comp, allWalkSrcs_nil] at hw
            simp only [List.append_nil, List.mem_append] at hw
            rcases hw with (hws2 | hwt2) | hwr2
            · exact hnbs w hws2
            · exact hnbt w (List.mem_append.mpr (Or.inl hwt2))
            · exact hnbt w (by simpa using Or.inr hwr2)
          · refine ⟨rows ++ [], ?_⟩
            rw [EarleyForest.wa_sources, hok1]
            simp only [except_bind_ok]
            rw [hok2]
            simp only [except_bind_ok]
            rw [EarleyForest.wa_sources]
            rfl
        | cons r0 more =>
          rcases ih2 hwr (by simp) with ⟨bad, hbad, h1, h2, h3⟩ | ⟨hnbr, bs, hbs⟩
          · left
            refine ⟨bad, ?_, h1, h2, ?_⟩
            · rw [allWalkSrcs_comp]
              simp only [List.mem_append]
              rcases List.mem_append.mp hbad with hbm | hbr
              · exact Or.inl (Or.inr hbm)
              · exact Or.inr hbr
            · rw [EarleyForest.wa_sources, hok1]
              simp only [except_bind_ok]
              rw [hok2]
              simp only [except_bind_ok]
              rw [h3]
              rfl
          · right
            constructor
            · intro w hw
              rw [allWalkSrcs_comp] at hw
              simp only [List.mem_append] at hw
              rcases hw with ((hws2 | hwt2) | hwm) | hwr2
              · exact hnbs w hws2
              · exact hnbt w (List.mem_append.mpr (Or.inl hwt2))
              · exact hnbr w (List.mem_append.mpr (Or.inl hwm))
              · exact hnbr w (List.mem_append.mpr (Or.inr hwr2))
            · refine ⟨rows ++ bs, ?_⟩
              rw [EarleyForest.wa_sources, hok1]
              simp only [except_bind_ok]
              rw [hok2]
              simp only [except_bind_ok]
              rw [hbs]
              rfl
  · intro root s lex rest ih1 ih2 hwf _
    rw [wfSrcs] at hwf
    simp only [Bool.and_eq_true, beq_iff_eq] at hwf
    obtain ⟨⟨⟨⟨hsr, hsd⟩, hss⟩, hws⟩, hwr⟩ := hwf
    rcases ih1 hws with ⟨bad, hbad, h1, h2, h3⟩ | ⟨hnbs, vss, hok1⟩
    · left
      refine ⟨bad, ?_, h1, h2, ?_⟩
      · rw [allWalkSrcs_scan]
        simp only [List.mem_append]
        exact Or.inl (Or.inl hbad)
      · rw [EarleyForest.wa_sources, h3]
        rfl
    · have hvne : vss ≠ [] := (walker_all_ne_nil F).1 s vss hok1
      rcases wa_scan_dicho F root s lex hss vss hvne with ⟨hrc, hrn, herr⟩ | ⟨himp, bs, hbs⟩
      · left
        refine ⟨root, by simp, hrc, hrn, ?_⟩
        rw [EarleyForest.wa_sources, hok1]
        simp only [except_bind_ok]
        rw [herr]
        rfl
      · cases rest with
        | nil =>
          right
          constructor
          · intro w hw
            rw [allWalkSrcs_scan, allWalkSrcs_nil] at hw
            simp only [List.append_nil, List.mem_append] at hw
            rcases hw with hws2 | hwr2
            · exact hnbs w hws2
            · simp at hwr2
              rw [hwr2]
              exact himp
          · refine ⟨bs ++ [], ?_⟩
            rw [EarleyForest.wa_sources, hok1]
            simp only [except_bind_ok]
            rw [hbs]
            simp only [except_bind_ok]
            rw [EarleyForest.wa_sources]
            rfl
        | cons r0 more =>
          rcases ih2 hwr (by simp) with ⟨bad, hbad, h1, h2, h3⟩ | ⟨hnbr, bs2, hbs2⟩
          · left
            refine ⟨bad, ?_, h1, h2, ?_⟩
            · rw [allWalkSrcs_scan]
              simp only [List.mem_append]
              rcases List.mem_append.mp hbad with hbm | hbr
              · exact Or.inl (Or.inr hbm)
              · exact Or.inr hbr
            · rw [EarleyForest.wa_sources, hok1]
              simp only [except_bind_ok]
              rw [hbs]
              simp only [except_bind_ok]
              rw [h3]
              rfl
          · right
            constructor
            · intro w hw
              rw [allWalkSrcs_scan] at hw
              simp only [List.mem_append] at hw
              rcases hw with (hws2 | hwm) | hwr2
              · exact hnbs w hws2
              · exact hnbr w (List.mem_append.mpr (Or.inl hwm))
              · exact hnbr w (List.mem_append.mpr (Or.inr hwr2))
            · refine ⟨bs ++ bs2, ?_⟩
              rw [EarleyForest.wa_sources, hok1]
              simp only [except_bind_ok]
              rw [hbs]
              simp only [except_bind_ok]
              rw [hbs2]
              rfl
  · intro root t _ _ hne
    exact absurd rfl hne
  · intro root t a as ih1 ih3 hwt htc _
    rcases ih1 hwt with ⟨bad, hbad, h1, h2, h3⟩ | ⟨hnbt, vts, hokt⟩
    · left
      refine ⟨bad, List.mem_append.mpr (Or.inl hbad), h1, h2, ?_⟩
      rw [EarleyForest.wa_comp, h3]
      rfl
    · have hvne : vts ≠ [] := (walker_all_ne_nil F).1 t vts hokt
      have hmapne : vts.map (fun trig => a ++ trig) ≠ [] := by
        simpa using hvne
      rcases reduce_row_dicho F root _ hmapne with ⟨hrc, hrn, herr⟩ | ⟨himp, row, hrow⟩
      · left
        refine ⟨root, by simp, hrc, hrn, ?_⟩
        rw [EarleyForest.wa_comp, hokt]
        simp only [except_bind_ok]
        rw [herr]
        rfl
      · cases as with
        | nil =>
          right
          constructor
          · intro w hw
            rcases List.mem_append.mp hw with hwt2 | hwr2
            · exact hnbt w hwt2
            · simp at hwr2
              rw [hwr2]
              exact himp
          · refine ⟨row ++ [], ?_⟩
            rw [EarleyForest.wa_comp, hokt]
            simp only [except_bind_ok]
            rw [hrow]
            simp only [except_bind_ok]
            rw [EarleyForest.wa_comp]
            rfl
        | cons a2 as2 =>
          rcases ih3 hwt htc (by simp) with ⟨bad, hbad, h1, h2, h3⟩ | ⟨hnb2, rows2, hrows2⟩
          · left
            refine ⟨bad, hbad, h1, h2, ?_⟩
            rw [EarleyForest.wa_comp, hokt]
            simp only [except_bind_ok]
            rw [hrow]
            simp only [except_bind_ok]
            rw [h3]
            rfl
          · right
            refine ⟨hnb2, row ++ rows2, ?_⟩
            rw [EarleyForest.wa_comp, hokt]
            simp only [except_bind_ok]
            rw [hrow]
            simp only [except_bind_ok]
            rw [hrows2]
            rfl

theorem walkSub_nil (r : Rule) (d o f : Nat) : walkSub (Span.mk r d o f []) = [] := by
  rw [walkSub]

theorem walkSub_scan (r : Rule) (d o f : Nat) (s : Span) (lex : String)
    (srcs : List SpanSource) :
    walkSub (Span.mk r d o f (.scan s lex :: srcs)) = walkSpans s := by
  rw [walkSub]

theorem walkSub_comp (r : Rule) (d o f : Nat) (s t : Span) (srcs : List SpanSource) :
    walkSub (Span.mk r d o f (.completion s t :: srcs)) = walkSpans s ++ walkSpans t := by
  rw [walkSub]

theorem walkerT_incomplete {α : Type} (F : EarleyForest α) (s : Span)
    (hc : s.complete = false) : F.walkerT s = F.walker_argsT s := by
  rw [EarleyForest.walkerT]
  cases h : F.walker_argsT s with
  | error e => rfl
  | ok p =>
    simp only [except_bind_ok]
    rw [EarleyForest.reduceT, if_neg (by simp [hc])]
    simp

theorem sizeOf_comp_s (r : Rule) (d o f : Nat) (s t : Span) (srcs : List SpanSource) :
    sizeOf s < sizeOf (Span.mk r d o f (SpanSource.completion s t :: srcs)) := by
  simp
  omega

theorem sizeOf_comp_t (r : Rule) (d o f : Nat) (s t : Span) (srcs : List SpanSource) :
    sizeOf t < sizeOf (Span.mk r d o f (SpanSource.completion s t :: srcs)) := by
  simp
  omega

theorem sizeOf_scan_s (r : Rule) (d o f : Nat) (s : Span) (lex : String)
    (srcs : List SpanSource) :
    sizeOf s < sizeOf (Span.mk r d o f (SpanSource.scan s lex :: srcs)) := by
  simp
  omega

theorem evalLoopT_step_comp {α : Type} (F : EarleyForest α) (r : Rule) (d o f : Nat)
    (s t : Span) (srcs : List SpanSource) (rest : List Span) (args : List α)
    (completions comps2 : List Span)
    (hcomps : (if (Span.mk r d o f (SpanSource.completion s t :: srcs)).complete = true
               then completions ++ [Span.mk r d o f (SpanSource.completion s t :: srcs)]
               else completions) = comps2) :
    F.evalLoopT (Span.mk r d o f (.completion s t :: srcs) :: rest) args completions =
      F.evalLoopT (t :: s :: rest) args comps2 := by
  rw [EarleyForest.evalLoopT]
  rw [hcomps]

theorem evalLoopT_step_scan {α : Type} (F : EarleyForest α) (r : Rule) (d o f : Nat)
    (s : Span) (lex : String) (srcs : List SpanSource) (rest : List Span) (args : List α)
    (completions comps2 : List Span) (sym : Symbol)
    (hsym : s.next_symbol = some sym)
    (hcomps : (if (Span.mk r d o f (SpanSource.scan s lex :: srcs)).complete = true
               then completions ++ [Span.mk r d o f (SpanSource.scan s lex :: srcs)]
               else completions) = comps2) :
    F.evalLoopT (Span.mk r d o f (.scan s lex :: srcs) :: rest) args completions =
      F.evalLoopT (s :: rest) (args ++ [F.leaf_builder sym.name lex]) comps2 := by
  rw [EarleyForest.evalLoopT]
  rw [hcomps, hsym]

theorem evalLoopT_step_nil {α : Type} (F : EarleyForest α) (r : Rule) (d o f : Nat)
    (rest : List Span) (args : List α) (completions comps2 : List Span) (comp : Span)
    (hcomps : (if (Span.mk r d o f []).complete = true
               then completions ++ [Span.mk r d o f []]
               else completions) = comps2)
    (hlast : comps2.getLast? = some comp)
    (hr : r = comp.rule)
    (hle : comp.rule.spec.length ≤ args.length) :
    F.evalLoopT (Span.mk r d o f [] :: rest) args completions =
      (match F.actions comp.rule.to_string with
       | none => Except.error (.err ("Missing Action: " ++ comp.rule.to_string))
       | some action =>
         (F.evalLoopT rest
           (args.take (args.length - comp.rule.spec.length) ++
             [action ((args.drop (args.length - comp.rule.spec.length)).reverse)])
           comps2.dropLast) >>= fun p =>
             Except.ok (p.1, (comp, (args.drop (args.length - comp.rule.spec.length)).reverse) :: p.2)) := by
  rw [EarleyForest.evalLoopT]
  rw [hcomps]
  simp only [hlast]
  rw [if_pos (show (Span.mk r d o f []).rule = comp.rule from hr)]
  rw [if_pos hle]

theorem span_sizeOf_pos (sp : Span) : 0 < sizeOf sp := by
  cases sp with
  | mk r d o f srcs => simp

theorem evalChain {α : Type} (F : EarleyForest α) :
    ∀ (n : Nat) (sp : Span), sizeOf sp ≤ n →
    ((wfFirst sp = true → sp.complete = true →
      ∀ (rest : List Span) (args : List α) (comps : List Span),
      (∃ bad, bad ∈ walkSpans sp ∧ bad.complete = true ∧
          F.actions bad.rule.to_string = none ∧
          F.evalLoopT (sp :: rest) args comps =
            .error (.err ("Missing Action: " ++ bad.rule.to_string)))
      ∨ (∃ a tw tw2, F.walkerT sp = .ok ([a], tw) ∧ List.Perm tw2 tw ∧
          F.evalLoopT (sp :: rest) args comps =
            (F.evalLoopT rest (args ++ [a]) comps).map (fun p => (p.1, tw2 ++ p.2)))) ∧
     (wfFirst sp = true → sp.complete = false →
      ∀ (comp : Span) (rest : List Span) (args0 pend : List α) (comps : List Span),
      comp.complete = true → comp.rule = sp.rule →
      sp.dot + pend.length = comp.rule.spec.length →
      (∃ bad, bad ∈ walkSub sp ∧ bad.complete = true ∧
          F.actions bad.rule.to_string = none ∧
          F.evalLoopT (sp :: rest) (args0 ++ pend) (comps ++ [comp]) =
            .error (.err ("Missing Action: " ++ bad.rule.to_string)))
      ∨ (F.actions comp.rule.to_string = none ∧
          F.evalLoopT (sp :: rest) (args0 ++ pend) (comps ++ [comp]) =
            .error (.err ("Missing Action: " ++ comp.rule.to_string)))
      ∨ (∃ w tw tw2 act, F.walker_argsT sp = .ok (w, tw) ∧ List.Perm tw2 tw ∧
          F.actions comp.rule.to_string = some act ∧
          F.evalLoopT (sp :: rest) (args0 ++ pend) (comps ++ [comp]) =
            (F.evalLoopT rest (args0 ++ [act (w ++ pend.reverse)]) comps).map
              (fun p => (p.1, tw2 ++ (comp, w ++ pend.reverse) :: p.2))))) := by
  intro n
  induction n with
  | zero =>
    intro sp hsz
    exfalso
    have := span_sizeOf_pos sp
    omega
  | succ n ih =>
    intro sp hsz
    cases sp with
    | mk r d o f srcs =>
    cases srcs with
    | nil =>
      constructor
      · intro hwf hc rest args comps
        have hd : d = 0 := by
          rw [wfFirst] at hwf
          simpa using hwf
        have hspec : r.spec.length = 0 := by
          rw [Span.complete] at hc
          simp at hc
          omega
        have hstep := evalLoopT_step_nil F r d o f rest args comps
          (comps ++ [Span.mk r d o f []]) (Span.mk r d o f [])
          (by rw [if_pos hc]) (List.getLast?_concat _) rfl (by simp [hspec])
        cases hA : F.actions (Span.mk r d o f []).rule.to_string with
        | none =>
          left
          refine ⟨Span.mk r d o f [], self_mem_walkSpans _, hc, hA, ?_⟩
          rw [hstep]
          simp only [hA]
        | some act =>
          right
          refine ⟨act [], [(Span.mk r d o f [], [])], [(Span.mk r d o f [], [])],
            ?_, List.Perm.refl _, ?_⟩
          · rw [EarleyForest.walkerT, EarleyForest.walker_argsT]
            simp only [except_bind_ok]
            rw [EarleyForest.reduceT, if_pos hc]
            simp only [hA]
            simp
          · rw [hstep]
            simp only [hA]
            have h1 : args.length - (Span.mk r d o f []).rule.spec.length = args.length := by
              simp [hspec]
            rw [h1, List.take_length, List.drop_length, List.dropLast_concat]
            simp only [List.reverse_nil]
            cases hX : F.evalLoopT rest (args ++ [act []]) comps <;> simp [hX]
      · intro hwf hc2 comp rest args0 pend comps hcc hcr harith
        have hd : d = 0 := by
          rw [wfFirst] at hwf
          simpa using hwf
        have hpend : pend.length = comp.rule.spec.length := by
          simp [hd] at harith
          exact harith
        have hstep := evalLoopT_step_nil F r d o f rest (args0 ++ pend)
          (comps ++ [comp]) (comps ++ [comp]) comp
          (by rw [if_neg (by simp [hc2])]) (List.getLast?_concat _)
          (by rw [hcr]; rfl)
          (by simp [← hpend])
        have harith2 : (args0 ++ pend).length - comp.rule.spec.length = args0.length := by
          simp [← hpend]
        cases hA : F.actions comp.rule.to_string with
        | none =>
          right
          left
          refine ⟨rfl, ?_⟩
          rw [hstep]
          simp only [hA]
        | some act =>
          right
          right
          refine ⟨[], [], [], act, ?_, List.Perm.refl _, rfl, ?_⟩
          · rw [EarleyForest.walker_argsT]
          · rw [hstep]
            simp only [hA]
            rw [harith2, List.take_left, List.drop_left, List.dropLast_concat]
            simp only [List.nil_append]
            cases hX : F.evalLoopT rest (args0 ++ [act pend.reverse]) comps <;>
              simp [hX]
    | cons src srcs2 =>
      cases src with
      | scan s lex =>
        have hwfparts : ∀ (hwf : wfFirst (Span.mk r d o f (.scan s lex :: srcs2)) = true),
            s.rule = r ∧ s.dot + 1 = d ∧ s.next_symbol.isSome = true ∧ wfFirst s = true := by
          intro hwf
          rw [wfFirst] at hwf
          simp only [Bool.and_eq_true, beq_iff_eq] at hwf
          exact ⟨hwf.1.1.1, hwf.1.1.2, hwf.1.2, hwf.2⟩
        have hszs : sizeOf s ≤ n := by
          have := sizeOf_scan_s r d o f s lex srcs2
          omega
        constructor
        · intro hwf hc rest args comps
          obtain ⟨hsr, hsd, hss, hwfs⟩ := hwfparts hwf
          obtain ⟨sym, hsym⟩ := Option.isSome_iff_exists.mp hss
          have hscomp : s.complete = false := isSome_next_symbol_not_complete s hss
          have hcd : d = r.spec.length := by
            rw [Span.complete] at hc
            simpa using hc
          have hstep := evalLoopT_step_scan F r d o f s lex srcs2 rest args comps
            (comps ++ [Span.mk r d o f (.scan s lex :: srcs2)]) sym hsym (by rw [if_pos hc])
          rcases (ih s hszs).2 hwfs hscomp (Span.mk r d o f (.scan s lex :: srcs2)) rest
              args [F.leaf_builder sym.name lex] comps hc (by simp [hsr])
              (by simp; omega) with
            ⟨bad, hmem, hb1, hb2, herr⟩ | ⟨hnone, herr⟩ |
            ⟨w, tw, tw2, act, hargS, hperm, hact, heq2⟩
          · left
            refine ⟨bad, ?_, hb1, hb2, ?_⟩
            · rw [walkSpans_eq, walkSub_scan]
              refine List.mem_append.mpr (Or.inl ?_)
              rw [walkSpans_eq]
              exact List.mem_append.mpr (Or.inl hmem)
            · rw [hstep]
              exact herr
          · left
            refine ⟨Span.mk r d o f (.scan s lex :: srcs2), self_mem_walkSpans _, hc,
              hnone, ?_⟩
            rw [hstep]
            exact herr
          · right
            simp only [List.reverse_cons, List.reverse_nil, List.nil_append] at heq2
            refine ⟨act (w ++ [F.leaf_builder sym.name lex]),
              tw ++ [(Span.mk r d o f (.scan s lex :: srcs2),
                w ++ [F.leaf_builder sym.name lex])],
              tw2 ++ [(Span.mk r d o f (.scan s lex :: srcs2),
                w ++ [F.leaf_builder sym.name lex])],
              ?_, List.Perm.append_right _ hperm, ?_⟩
            · rw [EarleyForest.walkerT, EarleyForest.walker_argsT, hsym]
              rw [walkerT_incomplete F s hscomp, hargS]
              simp only [except_bind_ok]
              rw [EarleyForest.reduceT, if_pos hc]
              simp only [hact]
              simp only [except_bind_ok]
            · rw [hstep, heq2]
              cases hX : F.evalLoopT rest
                  (args ++ [act (w ++ [F.leaf_builder sym.name lex])]) comps <;> simp [hX]
        · intro hwf hc2 comp rest args0 pend comps hcc hcr harith
          obtain ⟨hsr, hsd, hss, hwfs⟩ := hwfparts hwf
          obtain ⟨sym, hsym⟩ := Option.isSome_iff_exists.mp hss
          have hscomp : s.complete = false := isSome_next_symbol_not_complete s hss
          have hstep := evalLoopT_step_scan F r d o f s lex srcs2 rest (args0 ++ pend)
            (comps ++ [comp]) (comps ++ [comp]) sym hsym (by rw [if_neg (by simp [hc2])])
          have hassoc : (args0 ++ pend) ++ [F.leaf_builder sym.name lex] =
              args0 ++ (pend ++ [F.leaf_builder sym.name lex]) := by
            rw [List.append_assoc]
          simp at harith
          rcases (ih s hszs).2 hwfs hscomp comp rest args0
              (pend ++ [F.leaf_builder sym.name lex]) comps hcc
              (by rw [hcr]; simp [hsr]) (by simp; omega) with
            ⟨bad, hmem, hb1, hb2, herr⟩ | ⟨hnone, herr⟩ |
            ⟨w, tw, tw2, act, hargS, hperm, hact, heq2⟩
          · left
            refine ⟨bad, ?_, hb1, hb2, ?_⟩
            · rw [walkSub_scan, walkSpans_eq]
              exact List.mem_append.mpr (Or.inl hmem)
            · rw [hstep, hassoc]
              exact herr
          · right
            left
            refine ⟨hnone, ?_⟩
            rw [hstep, hassoc]
            exact herr
          · right
            right
            have hlist : w ++ (pend ++ [F.leaf_builder sym.name lex]).reverse =
                (w ++ [F.leaf_builder sym.name lex]) ++ pend.reverse := by
              simp
            rw [hlist] at heq2
            refine ⟨w ++ [F.leaf_builder sym.name lex], tw, tw2, act, ?_, hperm, hact, ?_⟩
            · rw [EarleyForest.walker_argsT, hsym]
              rw [walkerT_incomplete F s hscomp, hargS]
              simp only [except_bind_ok]
            · rw [hstep, hassoc]
              exact heq2
      | completion s t =>
        have hwfparts : ∀ (hwf : wfFirst (Span.mk r d o f (.completion s t :: srcs2)) = true),
            s.rule = r ∧ s.dot + 1 = d ∧ s.next_symbol.isSome = true ∧
              t.complete = true ∧ wfFirst s = true ∧ wfFirst t = true := by
          intro hwf
          rw [wfFirst] at hwf
          simp only [Bool.and_eq_true, beq_iff_eq] at hwf
          exact ⟨hwf.1.1.1.1.1, hwf.1.1.1.1.2, hwf.1.1.1.2, hwf.1.1.2, hwf.1.2, hwf.2⟩
        have hszs : sizeOf s ≤ n := by
          have := sizeOf_comp_s r d o f s t srcs2
          omega
        have hszt : sizeOf t ≤ n := by
          have := sizeOf_comp_t r d o f s t srcs2
          omega
        constructor
        · intro hwf hc rest args comps
          obtain ⟨hsr, hsd, hss, htc, hwfs, hwft⟩ := hwfparts hwf
          have hscomp : s.complete = false := isSome_next_symbol_not_complete s hss
          have hcd : d = r.spec.length := by
            rw [Span.complete] at hc
            simpa using hc
          have hstep := evalLoopT_step_comp F r d o f s t srcs2 rest args comps
            (comps ++ [Span.mk r d o f (.completion s t :: srcs2)]) (by rw [if_pos hc])
          rcases (ih t hszt).1 hwft htc (s :: rest) args
              (comps ++ [Span.mk r d o f (.completion s t :: srcs2)]) with
            ⟨bad, hmem, hb1, hb2, herr⟩ | ⟨at2, twt, twt2, hwtT, hpermt, heq1⟩
          · left
            refine ⟨bad, ?_, hb1, hb2, ?_⟩
            · rw [walkSpans_eq, walkSub_comp]
              exact List.mem_append.mpr (Or.inl (List.mem_append.mpr (Or.inr hmem)))
            · rw [hstep]
              exact herr
          · rcases (ih s hszs).2 hwfs hscomp (Span.mk r d o f (.completion s t :: srcs2))
                rest args [at2] comps hc (by simp [hsr]) (by simp; omega) with
              ⟨bad, hmem, hb1, hb2, herr2⟩ | ⟨hnone, herr2⟩ |
              ⟨w, tws, tws2, act, hargS, hperms, hact, heq2⟩
            · left
              refine ⟨bad, ?_, hb1, hb2, ?_⟩
              · rw [walkSpans_eq, walkSub_comp]
                refine List.mem_append.mpr (Or.inl (List.mem_append.mpr (Or.inl ?_)))
                rw [walkSpans_eq]
                exact List.mem_append.mpr (Or.inl hmem)
              · rw [hstep, heq1]
                simp only [herr2, except_map_error]
            · left
              refine ⟨Span.mk r d o f (.completion s t :: srcs2), self_mem_walkSpans _,
                hc, hnone, ?_⟩
              rw [hstep, heq1]
              simp only [herr2, except_map_error]
            · right
              simp only [List.reverse_cons, List.reverse_nil, List.nil_append] at heq2
              refine ⟨act (w ++ [at2]),
                (tws ++ twt) ++ [(Span.mk r d o f (.completion s t :: srcs2), w ++ [at2])],
                (twt2 ++ tws2) ++ [(Span.mk r d o f (.completion s t :: srcs2), w ++ [at2])],
                ?_, ?_, ?_⟩
              · rw [EarleyForest.walkerT, EarleyForest.walker_argsT]
                rw [walkerT_incomplete F s hscomp, hargS]
                simp only [except_bind_ok]
                rw [hwtT]
                simp only [except_bind_ok]
                rw [EarleyForest.reduceT, if_pos hc]
                simp only [hact]
                simp only [except_bind_ok]
              · exact List.Perm.append_right _
                  (((hpermt.append hperms).trans List.perm_append_comm))
              · rw [hstep, heq1, heq2]
                cases hX : F.evalLoopT rest (args ++ [act (w ++ [at2])]) comps <;>
                  simp [hX]
        · intro hwf hc2 comp rest args0 pend comps hcc hcr harith
          obtain ⟨hsr, hsd, hss, htc, hwfs, hwft⟩ := hwfparts hwf
          have hscomp : s.complete = false := isSome_next_symbol_not_complete s hss
          have hstep := evalLoopT_step_comp F r d o f s t srcs2 rest (args0 ++ pend)
            (comps ++ [comp]) (comps ++ [comp]) (by rw [if_neg (by simp [hc2])])
          simp at harith
          rcases (ih t hszt).1 hwft htc (s :: rest) (args0 ++ pend)
              (comps ++ [comp]) with
            ⟨bad, hmem, hb1, hb2, herr⟩ | ⟨at2, twt, twt2, hwtT, hpermt, heq1⟩
          · left
            refine ⟨bad, ?_, hb1, hb2, ?_⟩
            · rw [walkSub_comp]
              exact List.mem_append.mpr (Or.inr hmem)
            · rw [hstep]
              exact herr
          · have hassoc : (args0 ++ pend) ++ [at2] = args0 ++ (pend ++ [at2]) := by
              rw [List.append_assoc]
            rw [hassoc] at heq1
            rcases (ih s hszs).2 hwfs hscomp comp rest args0 (pend ++ [at2]) comps hcc
                (by rw [hcr]; simp [hsr]) (by simp; omega) with
              ⟨bad, hmem, hb1, hb2, herr2⟩ | ⟨hnone, herr2⟩ |
              ⟨w, tws, tws2, act, hargS, hperms, hact, heq2⟩
            · left
              refine ⟨bad, ?_, hb1, hb2, ?_⟩
              · rw [walkSub_comp]
                refine List.mem_append.mpr (Or.inl ?_)
                rw [walkSpans_eq]
                exact List.mem_append.mpr (Or.inl hmem)
              · rw [hstep, heq1]
                simp only [herr2, except_map_error]
            · right
              left
              refine ⟨hnone, ?_⟩
              rw [hstep, heq1]
              simp only [herr2, except_map_error]
            · right
              right
              have hlist : w ++ (pend ++ [at2]).reverse = (w ++ [at2]) ++ pend.reverse := by
                simp
              rw [hlist] at heq2
              refine ⟨w ++ [at2], tws ++ twt, twt2 ++ tws2, act, ?_, ?_, hact, ?_⟩
              · rw [EarleyForest.walker_argsT]
                rw [walkerT_incomplete F s hscomp, hargS]
                simp only [except_bind_ok]
                rw [hwtT]
                simp only [except_bind_ok]
              · exact (hpermt.append hperms).trans List.perm_append_comm
              · rw [hstep, heq1, heq2]
                cases hX : F.evalLoopT rest
                    (args0 ++ [act ((w ++ [at2]) ++ pend.reverse)]) comps <;> simp [hX]

theorem headsOf_ok {α : Type} :
    ∀ ts : List (List α), (∀ v ∈ ts, v ≠ []) → ∃ hs, headsOf ts = .ok hs := by
  intro ts
  induction ts with
  | nil => exact fun _ => ⟨[], rfl⟩
  | cons v vs ih =>
    intro h
    obtain ⟨hs, hhs⟩ := ih (fun w hw => h w (by simp [hw]))
    cases v with
    | nil => exact absurd rfl (h [] (by simp))
    | cons a rest =>
      refine ⟨a :: hs, ?_⟩
      rw [headsOf, hhs]
      rfl

theorem eval_all_trees_dicho {α : Type} (F : EarleyForest α) :
    ∀ (l : List Span), (∀ sp ∈ l, wfAll sp = true ∧ sp.complete = true) →
    ∀ acc : List α,
    (∃ bad, bad ∈ allRootsWalk l ∧ bad.complete = true ∧
        F.actions bad.rule.to_string = none ∧
        F.eval_all_trees l acc = .error (.err ("Missing Action: " ++ bad.rule.to_string)))
    ∨ ((∀ w ∈ allRootsWalk l, w.complete = true →
          (F.actions w.rule.to_string).isSome = true) ∧
       ∃ out, F.eval_all_trees l acc = .ok out) := by
  intro l
  induction l with
  | nil =>
    intro _ acc
    right
    refine ⟨?_, acc, by rw [EarleyForest.eval_all_trees]⟩
    intro w hw
    rw [allRootsWalk] at hw
    simp at hw
  | cons root rs ih =>
    intro h acc
    obtain ⟨hwa, hrc⟩ := h root (by simp)
    rcases (walker_all_dichotomy F).1 root hwa with ⟨bad, hmem, h1, h2, herr⟩ |
      ⟨hnb, ts, hts⟩
    · left
      refine ⟨bad, ?_, h1, h2, ?_⟩
      · rw [allRootsWalk]
        exact List.mem_append.mpr (Or.inl hmem)
      · rw [EarleyForest.eval_all_trees, herr]
        rfl
    · have hne : ∀ v ∈ ts, v ≠ [] := by
        intro v hv
        have := (walker_all_lengths F).1 root hwa ts hts v hv
        rw [hrc] at this
        simp at this
        intro habs
        rw [habs] at this
        simp at this
      obtain ⟨hs, hhs⟩ := headsOf_ok ts hne
      rcases ih (fun sp hsp => h sp (by simp [hsp])) (acc ++ hs) with
        ⟨bad, hmem, h1, h2, herr⟩ | ⟨hnb2, out, hout⟩
      · left
        refine ⟨bad, ?_, h1, h2, ?_⟩
        · rw [allRootsWalk]
          exact List.mem_append.mpr (Or.inr hmem)
        · rw [EarleyForest.eval_all_trees, hts]
          simp only [except_bind_ok]
          rw [hhs]
          simp only [except_bind_ok]
          exact herr
      · right
        constructor
        · intro w hw
          rw [allRootsWalk] at hw
          rcases List.mem_append.mp hw with hw1 | hw2
          · exact hnb w hw1
          · exact hnb2 w hw2
        · refine ⟨out, ?_⟩
          rw [EarleyForest.eval_all_trees, hts]
          simp only [except_bind_ok]
          rw [hhs]
          simp only [except_bind_ok]
          exact hout

theorem eval_recursive_dichotomy {α : Type} (F : EarleyForest α) (root : Span)
    (others : List Span) (hwf : wfFirst root = true) (hc : root.complete = true) :
    (∃ bad, bad ∈ walkSpans root ∧ bad.complete = true ∧
        F.actions bad.rule.to_string = none ∧
        F.eval_recursive (root :: others) =
          .error (.err ("Missing Action: " ++ bad.rule.to_string)))
    ∨ ((∀ w ∈ walkSpans root, w.complete = true →
          (F.actions w.rule.to_string).isSome = true) ∧
       ∃ a, F.eval_recursive (root :: others) = .ok a ∧ F.walker root = .ok [a]) := by
  rcases (walker_dichotomy F).1 root hwf with ⟨bad, hmem, h1, h2, herr⟩ |
    ⟨hnb, v, hok, hlen⟩
  · left
    refine ⟨bad, hmem, h1, h2, ?_⟩
    rw [EarleyForest.eval_recursive, herr]
    rfl
  · right
    rw [hc] at hlen
    simp at hlen
    obtain ⟨a, ha⟩ := List.length_eq_one.mp hlen
    subst ha
    refine ⟨hnb, a, ?_, hok⟩
    rw [EarleyForest.eval_recursive, hok]
    rfl

theorem eval_dichotomy {α : Type} (F : EarleyForest α) (root : Span)
    (others : List Span) (hwf : wfFirst root = true) (hc : root.complete = true) :
    (∃ bad, bad ∈ walkSpans root ∧ bad.complete = true ∧
        F.actions bad.rule.to_string = none ∧
        F.eval (root :: others) =
          .error (.err ("Missing Action: " ++ bad.rule.to_string)))
    ∨ ((∀ w ∈ walkSpans root, w.complete = true →
          (F.actions w.rule.to_string).isSome = true) ∧
       ∃ a tw tw2, F.walkerT root = .ok ([a], tw) ∧ List.Perm tw2 tw ∧
         F.evalT (root :: others) = .ok (a, tw2) ∧
         F.eval (root :: others) = .ok a) := by
  rcases (evalChain F (sizeOf root) root le_rfl).1 hwf hc [] [] [] with
    ⟨bad, hmem, h1, h2, herr⟩ | ⟨a, tw, tw2, hwT, hperm, heq⟩
  · left
    refine ⟨bad, hmem, h1, h2, ?_⟩
    have hL : F.evalLoop [root] [] [] =
        .error (.err ("Missing Action: " ++ bad.rule.to_string)) := by
      rw [← evalLoopT_proj, herr]
      rfl
    rw [EarleyForest.eval, hL]
    rfl
  · have h0 : F.evalLoopT [root] [] [] = .ok ([a], tw2) := by
      rw [heq, EarleyForest.evalLoopT]
      simp
    have hET : F.evalT (root :: others) = .ok (a, tw2) := by
      rw [EarleyForest.evalT, h0]
      rfl
    have hE : F.eval (root :: others) = .ok a := by
      rw [← evalT_proj, hET]
      rfl
    right
    refine ⟨?_, a, tw, tw2, hwT, hperm, hET, hE⟩
    have hwalker : F.walker root = .ok [a] := by
      rw [← (walkerT_proj F).1, hwT]
      rfl
    rcases (walker_dichotomy F).1 root hwf with ⟨bad, hmem, h1, h2, herr⟩ |
      ⟨hnb, v, hok, hlen⟩
    · rw [hwalker] at herr
      exact absurd herr ok_ne_error
    · exact hnb

/-- C2: for each of the three evaluators run on a well-formed chart with
complete roots, the evaluation fails with a `Missing Action:` error naming
the canonical rule string of a complete actionless span reached by its
walk exactly when such a span exists among the reached spans, and when
every complete reached span has an action the evaluation succeeds —
incomplete reached spans never require an action. -/
theorem c2_missing_action_exactly_when {α : Type} (F : EarleyForest α)
    (root : Span) (others : List Span)
    (hwf : wfFirst root = true) (hc : root.complete = true)
    (hall : ∀ sp ∈ root :: others, wfAll sp = true ∧ sp.complete = true) :
    (((∃ bad, bad ∈ walkSpans root ∧ bad.complete = true ∧
          F.actions bad.rule.to_string = none) ↔
       (∃ bad, bad ∈ walkSpans root ∧ bad.complete = true ∧
          F.actions bad.rule.to_string = none ∧
          F.eval_recursive (root :: others) =
            .error (.err ("Missing Action: " ++ bad.rule.to_string)))) ∧
      ((∀ w ∈ walkSpans root, w.complete = true →
          (F.actions w.rule.to_string).isSome = true) →
        ∃ a, F.eval_recursive (root :: others) = .ok a)) ∧
    (((∃ bad, bad ∈ walkSpans root ∧ bad.complete = true ∧
          F.actions bad.rule.to_string = none) ↔
       (∃ bad, bad ∈ walkSpans root ∧ bad.complete = true ∧
          F.actions bad.rule.to_string = none ∧
          F.eval (root :: others) =
            .error (.err ("Missing Action: " ++ bad.rule.to_string)))) ∧
      ((∀ w ∈ walkSpans root, w.complete = true →
          (F.actions w.rule.to_string).isSome = true) →
        ∃ a, F.eval (root :: others) = .ok a)) ∧
    (((∃ bad, bad ∈ allRootsWalk (root :: others) ∧ bad.complete = true ∧
          F.actions bad.rule.to_string = none) ↔
       (∃ bad, bad ∈ allRootsWalk (root :: others) ∧ bad.complete = true ∧
          F.actions bad.rule.to_string = none ∧
          F.eval_all_recursive (root :: others) =
            .error (.err ("Missing Action: " ++ bad.rule.to_string)))) ∧
      ((∀ w ∈ allRootsWalk (root :: others), w.complete = true →
          (F.actions w.rule.to_string).isSome = true) →
        ∃ out, F.eval_all_recursive (root :: others) = .ok out)) := by
  refine ⟨?_, ?_, ?_⟩
  · rcases eval_recursive_dichotomy F root others hwf hc with
      ⟨bad, hmem, h1, h2, herr⟩ | ⟨hnb, a, hok, _⟩
    · constructor
      · constructor
        · intro _
          exact ⟨bad, hmem, h1, h2, herr⟩
        · rintro ⟨b, hm, hb1, hb2, _⟩
          exact ⟨b, hm, hb1, hb2⟩
      · intro hnb
        have := hnb bad hmem h1
        rw [h2] at this
        simp at this
    · constructor
      · constructor
        · rintro ⟨b, hm, hb1, hb2⟩
          have := hnb b hm hb1
          rw [hb2] at this
          simp at this
        · rintro ⟨b, hm, hb1, hb2, _⟩
          exact ⟨b, hm, hb1, hb2⟩
      · exact fun _ => ⟨a, hok⟩
  · rcases eval_dichotomy F root others hwf hc with
      ⟨bad, hmem, h1, h2, herr⟩ | ⟨hnb, a, tw, tw2, _, _, _, hok⟩
    · constructor
      · constructor
        · intro _
          exact ⟨bad, hmem, h1, h2, herr⟩
        · rintro ⟨b, hm, hb1, hb2, _⟩
          exact ⟨b, hm, hb1, hb2⟩
      · intro hnb
        have := hnb bad hmem h1
        rw [h2] at this
        simp at this
    · constructor
      · constructor
        · rintro ⟨b, hm, hb1, hb2⟩
          have := hnb b hm hb1
          rw [hb2] at this
          simp at this
        · rintro ⟨b, hm, hb1, hb2, _⟩
          exact ⟨b, hm, hb1, hb2⟩
      · exact fun _ => ⟨a, hok⟩
  · have hrw : F.eval_all_recursive (root :: others) =
        F.eval_all_trees (root :: others) [] := rfl
    rcases eval_all_trees_dicho F (root :: others) hall [] with
      ⟨bad, hmem, h1, h2, herr⟩ | ⟨hnb, out, hout⟩
    · constructor
      · constructor
        · intro _
          exact ⟨bad, hmem, h1, h2, by rw [hrw]; exact herr⟩
        · rintro ⟨b, hm, hb1, hb2, _⟩
          exact ⟨b, hm, hb1, hb2⟩
      · intro hnb
        have := hnb bad hmem h1
        rw [h2] at this
        simp at this
    · constructor
      · constructor
        · rintro ⟨b, hm, hb1, hb2⟩
          have := hnb b hm hb1
          rw [hb2] at this
          simp at this
        · rintro ⟨b, hm, hb1, hb2, _⟩
          exact ⟨b, hm, hb1, hb2⟩
      · exact fun _ => ⟨out, by rw [hrw]; exact hout⟩

/-- Witness for C2 on the concrete chart `N -> 0` with the action
registered: all hypotheses hold and the evaluation succeeds. -/
theorem c2_witness :
    wfFirst wSpan1 = true ∧ wSpan1.complete = true ∧
      (∀ sp ∈ ([wSpan1] : List Span), wfAll sp = true ∧ sp.complete = true) ∧
      ∃ a, wForest.eval_recursive [wSpan1] = .ok a := by
  have hwf : wfFirst wSpan1 = true := by
    simp [wfFirst, wSpan1, wSpan0, ruleN, Span.rule, Span.dot, Span.next_symbol,
      Span.complete]
  have hc : wSpan1.complete = true := by
    simp [wSpan1, ruleN, Span.complete, Span.dot, Span.rule]
  have hall : ∀ sp ∈ ([wSpan1] : List Span), wfAll sp = true ∧ sp.complete = true := by
    intro sp hsp
    simp at hsp
    subst hsp
    refine ⟨?_, hc⟩
    simp [wfAll, wfSrcs, wSpan1, wSpan0, ruleN, Span.rule, Span.dot,
      Span.next_symbol, Span.complete]
  refine ⟨hwf, hc, hall, ?_⟩
  refine (c2_missing_action_exactly_when wForest wSpan1 [] hwf hc hall).1.2 ?_
  intro w hw hwc
  simp [walkSpans, walkSub, wSpan1, wSpan0] at hw
  rcases hw with h | h
  · rw [h] at hwc
    simp [wSpan0, ruleN, Span.complete, Span.dot, Span.rule] at hwc
  · rw [h]
    simp [wForest, wSpan1, ruleN, Span.rule, ruleN_str]

/-- C1 (corrected): on a well-formed unambiguous chart with a complete
root, when every complete walked span has an action the stack-based
`eval` returns the same AST as the recursive `eval_recursive`; when some
complete walked span has no action both evaluators fail with a
`Missing Action:` error naming a complete actionless walked span, but not
necessarily the same one — the original claim of an identical error on
failure is refuted by `c1_counterexample`. -/
theorem c1_eval_refines_eval_recursive {α : Type} (F : EarleyForest α)
    (root : Span) (others : List Span)
    (hwf : wfFirst root = true) (hc : root.complete = true)
    (hamb : atMostOne root = true) :
    ((∀ w ∈ walkSpans root, w.complete = true →
        (F.actions w.rule.to_string).isSome = true) →
      F.eval (root :: others) = F.eval_recursive (root :: others) ∧
      ∃ a, F.eval (root :: others) = .ok a) ∧
    ((∃ bad, bad ∈ walkSpans root ∧ bad.complete = true ∧
        F.actions bad.rule.to_string = none) →
      (∃ bad1, bad1 ∈ walkSpans root ∧ bad1.complete = true ∧
        F.actions bad1.rule.to_string = none ∧
        F.eval_recursive (root :: others) =
          .error (.err ("Missing Action: " ++ bad1.rule.to_string))) ∧
      (∃ bad2, bad2 ∈ walkSpans root ∧ bad2.complete = true ∧
        F.actions bad2.rule.to_string = none ∧
        F.eval (root :: others) =
          .error (.err ("Missing Action: " ++ bad2.rule.to_string)))) := by
  constructor
  · intro hnb
    rcases eval_dichotomy F root others hwf hc with
      ⟨bad, hmem, h1, h2, _⟩ | ⟨_, a, tw, tw2, hwT, _, _, hok⟩
    · have := hnb bad hmem h1
      rw [h2] at this
      simp at this
    · have hwalker : F.walker root = .ok [a] := by
        rw [← (walkerT_proj F).1, hwT]
        rfl
      have hrec : F.eval_recursive (root :: others) = .ok a := by
        rw [EarleyForest.eval_recursive, hwalker]
        rfl
      exact ⟨by rw [hok, hrec], a, hok⟩
  · rintro ⟨bad, hmem, h1, h2⟩
    constructor
    · rcases eval_recursive_dichotomy F root others hwf hc with
        ⟨b, hm, hb1, hb2, herr⟩ | ⟨hnb, _, _, _⟩
      · exact ⟨b, hm, hb1, hb2, herr⟩
      · have := hnb bad hmem h1
        rw [h2] at this
        simp at this
    · rcases eval_dichotomy F root others hwf hc with
        ⟨b, hm, hb1, hb2, herr⟩ | ⟨hnb, _, _, _, _, _, _, _⟩
      · exact ⟨b, hm, hb1, hb2, herr⟩
      · have := hnb bad hmem h1
        rw [h2] at this
        simp at this

/-- Witness for the corrected C1 on the chart `N -> 0` with its action
registered: the hypotheses hold and both evaluators return the same AST. -/
theorem c1_witness :
    wfFirst wSpan1 = true ∧ wSpan1.complete = true ∧ atMostOne wSpan1 = true ∧
      wForest.eval [wSpan1] = wForest.eval_recursive [wSpan1] := by
  have hwf : wfFirst wSpan1 = true := by
    simp [wfFirst, wSpan1, wSpan0, ruleN, Span.rule, Span.dot, Span.next_symbol,
      Span.complete]
  have hc : wSpan1.complete = true := by
    simp [wSpan1, ruleN, Span.complete, Span.dot, Span.rule]
  have hamb : atMostOne wSpan1 = true := by
    simp [atMostOne, wSpan1, wSpan0]
  refine ⟨hwf, hc, hamb, ?_⟩
  refine ((c1_eval_refines_eval_recursive wForest wSpan1 [] hwf hc hamb).1 ?_).1
  intro w hw hwc
  simp [walkSpans, walkSub, wSpan1, wSpan0] at hw
  rcases hw with h | h
  · rw [h] at hwc
    simp [wSpan0, ruleN, Span.complete, Span.dot, Span.rule] at hwc
  · rw [h]
    simp [wForest, wSpan1, ruleN, Span.rule, ruleN_str]

/-- Counterexample to the original C1: on the unambiguous well-formed
chart `A -> B C` with the actions for `B -> b` and `C -> c` missing,
`eval_recursive` fails with `Missing Action: B -> b` while `eval` fails
with `Missing Action: C -> c` — the two evaluators do not return the same
error on failure. -/
theorem c1_counterexample :
    atMostOne dSA2 = true ∧ wfFirst dSA2 = true ∧ dSA2.complete = true ∧
    dForest.eval_recursive [dSA2] = .error (.err ("Missing Action: B -> b")) ∧
    dForest.eval [dSA2] = .error (.err ("Missing Action: C -> c")) ∧
    ("Missing Action: B -> b" : String) ≠ "Missing Action: C -> c" := by
  refine ⟨?_, ?_, ?_, ?_, ?_, ?_⟩
  · simp [atMostOne, dSA2, dSA1, dSA0, dSB, dSB0, dSC, dSC0]
  · simp [wfFirst, dSA2, dSA1, dSA0, dSB, dSB0, dSC, dSC0, ruleABC, ruleB, ruleC,
      Span.rule, Span.dot, Span.next_symbol, Span.complete]
  · simp [dSA2, ruleABC, Span.complete, Span.dot, Span.rule]
  · simp [EarleyForest.eval_recursive, EarleyForest.walker, EarleyForest.walker_args,
      EarleyForest.reduce, dSA2, dSA1, dSA0, dSB, dSB0, dSC, dSC0, ruleABC, ruleB, ruleC,
      dForest, Span.rule, Span.dot, Span.next_symbol, Span.complete, Symbol.name,
      ruleABC_str, ruleB_str, ruleC_str]
  · simp [EarleyForest.eval, EarleyForest.evalLoop, EarleyForest.reduce,
      dSA2, dSA1, dSA0, dSB, dSB0, dSC, dSC0, ruleABC, ruleB, ruleC,
      dForest, Span.rule, Span.dot, Span.next_symbol, Span.complete, Symbol.name,
      ruleABC_str, ruleB_str, ruleC_str]
  · decide

theorem walker_argsT_spec {α : Type} (F : EarleyForest α) (sp : Span)
    (hwf : wfFirst sp = true) (p : List α × List (Span × List α))
    (h : F.walker_argsT sp = .ok p) : reductionArgsSpec F sp p.1 := by
  cases sp with
  | mk r d o f srcs =>
    cases srcs with
    | nil =>
      rw [EarleyForest.walker_argsT] at h
      show p.1 = []
      simp at h
      rw [← h]
    | cons src rest =>
      cases src with
      | scan s lex =>
        rw [wfFirst] at hwf
        simp only [Bool.and_eq_true, beq_iff_eq] at hwf
        obtain ⟨sym, hsym⟩ := Option.isSome_iff_exists.mp hwf.1.2
        rw [EarleyForest.walker_argsT, hsym] at h
        show ∃ ws tws sym2, F.walkerT s = .ok (ws, tws) ∧ s.next_symbol = some sym2 ∧
          p.1 = ws ++ [F.leaf_builder sym2.name lex]
        cases hw : F.walkerT s with
        | error e =>
          rw [hw] at h
          simp at h
        | ok a =>
          rw [hw] at h
          simp at h
          exact ⟨a.1, a.2, sym, rfl, hsym, by rw [← h]⟩
      | completion s t =>
        rw [EarleyForest.walker_argsT] at h
        show ∃ ws tws wt twt, F.walkerT s = .ok (ws, tws) ∧ F.walkerT t = .ok (wt, twt) ∧
          p.1 = ws ++ wt
        cases hw : F.walkerT s with
        | error e =>
          rw [hw] at h
          simp at h
        | ok a =>
          rw [hw] at h
          simp only [except_bind_ok] at h
          cases hw2 : F.walkerT t with
          | error e =>
            rw [hw2] at h
            simp at h
          | ok b =>
            rw [hw2] at h
            simp at h
            exact ⟨a.1, a.2, b.1, b.2, rfl, rfl, by rw [← h]⟩

theorem walkerT_events_spec {α : Type} (F : EarleyForest α) :
    (∀ sp, wfFirst sp = true → ∀ v tw, F.walkerT sp = .ok (v, tw) →
       ∀ ev ∈ tw, reductionArgsSpec F ev.1 ev.2) ∧
    (∀ sp, wfFirst sp = true → ∀ v tw, F.walker_argsT sp = .ok (v, tw) →
       ∀ ev ∈ tw, reductionArgsSpec F ev.1 ev.2) := by
  refine EarleyForest.walkerT.mutual_induct F
    (fun sp => wfFirst sp = true → ∀ v tw, F.walkerT sp = .ok (v, tw) →
       ∀ ev ∈ tw, reductionArgsSpec F ev.1 ev.2)
    (fun sp => wfFirst sp = true → ∀ v tw, F.walker_argsT sp = .ok (v, tw) →
       ∀ ev ∈ tw, reductionArgsSpec F ev.1 ev.2) ?_ ?_ ?_ ?_ ?_
  · intro sp ih hwf v tw h ev hev
    rw [EarleyForest.walkerT] at h
    cases ha : F.walker_argsT sp with
    | error e =>
      rw [ha] at h
      simp at h
    | ok p =>
      rw [ha] at h
      simp only [except_bind_ok] at h
      cases hr : F.reduceT sp p.1 with
      | error e =>
        rw [hr] at h
        simp at h
      | ok q =>
        rw [hr] at h
        simp at h
        rw [← h.2] at hev
        rcases List.mem_append.mp hev with hp | hq
        · exact ih hwf p.1 p.2 ha ev hp
        · rw [EarleyForest.reduceT] at hr
          by_cases hc : sp.complete = true
          · rw [if_pos hc] at hr
            cases hA : F.actions sp.rule.to_string with
            | none =>
              rw [hA] at hr
              simp at hr
            | some act =>
              rw [hA] at hr
              simp at hr
              rw [← hr] at hq
              simp at hq
              rw [hq]
              exact walker_argsT_spec F sp hwf p ha
          · rw [if_neg hc] at hr
            simp at hr
            rw [← hr] at hq
            simp at hq
  · intro r d o f _ v tw h ev hev
    rw [EarleyForest.walker_argsT] at h
    simp at h
    rw [h.2] at hev
    simp at hev
  · intro r d o f s t tail ih1 ih2 hwf v tw h ev hev
    rw [wfFirst] at hwf
    simp only [Bool.and_eq_true, beq_iff_eq] at hwf
    rw [EarleyForest.walker_argsT] at h
    cases hw : F.walkerT s with
    | error e =>
      rw [hw] at h
      simp at h
    | ok a =>
      rw [hw] at h
      simp only [except_bind_ok] at h
      cases hw2 : F.walkerT t with
      | error e =>
        rw [hw2] at h
        simp at h
      | ok b =>
        rw [hw2] at h
        simp at h
        rw [← h.2] at hev
        rcases List.mem_append.mp hev with ha2 | hb2
        · exact ih1 hwf.1.2 a.1 a.2 hw ev ha2
        · exact ih2 hwf.2 b.1 b.2 hw2 ev hb2
  · intro r d o f s lex tail hn hwf v tw h ev hev
    rw [EarleyForest.walker_argsT, hn] at h
    simp at h
  · intro r d o f s lex tail sym hn ih hwf v tw h ev hev
    rw [wfFirst] at hwf
    simp only [Bool.and_eq_true, beq_iff_eq] at hwf
    rw [EarleyForest.walker_argsT, hn] at h
    cases hw : F.walkerT s with
    | error e =>
      rw [hw] at h
      simp at h
    | ok a =>
      rw [hw] at h
      simp at h
      rw [← h.2] at hev
      exact ih hwf.2 a.1 a.2 hw ev hev

/-- C4: every action invocation performed by the recursive walker (used by
`eval_recursive`) and by the stack-based `eval` hands the action exactly
the argument vector given by the reduced span's first back-pointer
source: the source walk followed by the trigger walk at a completion
source, the source walk followed by one leaf built from the scanned
terminal's name and the lexeme at a scan source, and the empty vector at
a span with no sources. -/
theorem c4_reduction_args {α : Type} (F : EarleyForest α) :
    (∀ sp, wfFirst sp = true → ∀ v tw, F.walkerT sp = .ok (v, tw) →
       ∀ ev ∈ tw, reductionArgsSpec F ev.1 ev.2) ∧
    (∀ root others a tw2, wfFirst root = true → root.complete = true →
       F.evalT (root :: others) = .ok (a, tw2) →
       ∀ ev ∈ tw2, reductionArgsSpec F ev.1 ev.2) := by
  constructor
  · exact (walkerT_events_spec F).1
  · intro root others a tw2 hwf hc hev ev hmem
    rcases eval_dichotomy F root others hwf hc with
      ⟨bad, _, _, _, herr⟩ | ⟨_, a2, tw, tw2b, hwT, hperm, hET, _⟩
    · have hok : F.eval (root :: others) = .ok a := by
        rw [← evalT_proj, hev]
        rfl
      exact absurd (hok.symm.trans herr) ok_ne_error
    · rw [hev] at hET
      simp at hET
      have hmem2 : ev ∈ tw := hperm.mem_iff.mp (by rw [← hET.2]; exact hmem)
      exact (walkerT_events_spec F).1 root hwf [a2] tw hwT ev hmem2

/-- Witness for C4 on the chart `N -> 0`: the walker performs one action
invocation, at the complete root with the single scanned leaf. -/
theorem c4_witness :
    wfFirst wSpan1 = true ∧
    wForest.walkerT wSpan1 = .ok ([2], [(wSpan1, [1])]) ∧
    ∀ ev ∈ [(wSpan1, ([1] : List Nat))], reductionArgsSpec wForest ev.1 ev.2 := by
  have hwf : wfFirst wSpan1 = true := by
    simp [wfFirst, wSpan1, wSpan0, ruleN, Span.rule, Span.dot, Span.next_symbol,
      Span.complete]
  have hrun : wForest.walkerT wSpan1 = .ok ([2], [(wSpan1, [1])]) := by
    simp [EarleyForest.walkerT, EarleyForest.walker_argsT, EarleyForest.reduceT,
      wSpan1, wSpan0, ruleN, wForest, Span.rule, Span.dot, Span.next_symbol,
      Span.complete, Symbol.name, ruleN_str]
  exact ⟨hwf, hrun, (c4_reduction_args wForest).1 wSpan1 hwf [2] [(wSpan1, [1])] hrun⟩

theorem filter_none {β : Type} (p : β → Bool) :
    ∀ l : List β, (∀ e ∈ l, p e = false) → l.filter p = [] := by
  intro l
  induction l with
  | nil => intro _; rfl
  | cons a as ih =>
    intro h
    rw [List.filter_cons]
    rw [h a (by simp)]
    simp only [Bool.false_eq_true, if_false]
    exact ih (fun e he => h e (by simp [he]))

theorem filter_all {β : Type} (p : β → Bool) :
    ∀ l : List β, (∀ e ∈ l, p e = true) → l.filter p = l := by
  intro l
  induction l with
  | nil => intro _; rfl
  | cons a as ih =>
    intro h
    rw [List.filter_cons, h a (by simp)]
    simp only [if_true]
    rw [ih (fun e he => h e (by simp [he]))]

theorem reduceAT_events {α : Type} (F : EarleyForest α) (d : Nat) (root : Span)
    (args : List α) (v : List α) (evs : List (Nat × Span × List α))
    (h : F.reduceAT d root args = .ok (v, evs)) :
    evs = (if root.complete = true then [(d, root, args)] else []) := by
  rw [EarleyForest.reduceAT] at h
  by_cases hc : root.complete = true
  · rw [if_pos hc] at h
    rw [if_pos hc]
    cases hA : F.actions root.rule.to_string with
    | none =>
      rw [hA] at h
      simp at h
    | some act =>
      rw [hA] at h
      simp at h
      exact h.2.symm
  · rw [if_neg hc] at h
    rw [if_neg hc]
    simp at h
    exact h.2

theorem wa_scanT_events {α : Type} (F : EarleyForest α) (d : Nat) (root s : Span)
    (lex : String) :
    ∀ (l : List (List α)) (bs : List (List α)) (evs : List (Nat × Span × List α)),
      F.wa_scanT d root s lex l = .ok (bs, evs) →
      (∀ e ∈ evs, e.1 = d) ∧
        evs.length = (if root.complete = true then bs.length else 0) := by
  intro l
  induction l with
  | nil =>
    intro bs evs h
    rw [EarleyForest.wa_scanT] at h
    simp at h
    rw [h.1, h.2]
    simp
  | cons a more ih =>
    intro bs evs h
    rw [EarleyForest.wa_scanT] at h
    cases hn : s.next_symbol with
    | none =>
      rw [hn] at h
      simp at h
    | some sym =>
      rw [hn] at h
      try dsimp only at h
      cases h1 : F.reduceAT d root (a ++ [F.leaf_builder sym.name lex]) with
      | error e =>
        rw [h1] at h
        simp at h
      | ok p =>
        rw [h1] at h
        simp only [except_bind_ok] at h
        cases h2 : F.wa_scanT d root s lex more with
        | error e =>
          rw [h2] at h
          simp at h
        | ok q =>
          rw [h2] at h
          simp at h
          have hp := reduceAT_events F d root _ p.1 p.2 (by rw [h1])
          have hq := ih q.1 q.2 (by rw [h2])
          rw [← h.1, ← h.2]
          constructor
          · intro e he
            rcases List.mem_append.mp he with he1 | he2
            · rw [hp] at he1
              by_cases hc : root.complete = true
              · rw [if_pos hc] at he1
                simp at he1
                rw [he1]
              · rw [if_neg hc] at he1
                simp at he1
            · exact hq.1 e he2
          · by_cases hc : root.complete = true
            · rw [hp, if_pos hc]
              simp [hq.2, hc]
            · rw [hp, if_neg hc]
              simp [hq.2, hc]

theorem reduce_rowT_events {α : Type} (F : EarleyForest α) (d : Nat) (root : Span) :
    ∀ (l : List (List α)) (bs : List (List α)) (evs : List (Nat × Span × List α)),
      F.reduce_rowT d root l = .ok (bs, evs) →
      (∀ e ∈ evs, e.1 = d) ∧
        evs.length = (if root.complete = true then bs.length else 0) := by
  intro l
  induction l with
  | nil =>
    intro bs evs h
    rw [EarleyForest.reduce_rowT] at h
    simp at h
    rw [h.1, h.2]
    simp
  | cons a more ih =>
    intro bs evs h
    rw [EarleyForest.reduce_rowT] at h
    cases h1 : F.reduceAT d root a with
    | error e =>
      rw [h1] at h
      simp at h
    | ok p =>
      rw [h1] at h
      simp only [except_bind_ok] at h
      cases h2 : F.reduce_rowT d root more with
      | error e =>
        rw [h2] at h
        simp at h
      | ok q =>
        rw [h2] at h
        simp at h
        have hp := reduceAT_events F d root a p.1 p.2 (by rw [h1])
        have hq := ih q.1 q.2 (by rw [h2])
        rw [← h.1, ← h.2]
        constructor
        · intro e he
          rcases List.mem_append.mp he with he1 | he2
          · rw [hp] at he1
            by_cases hc : root.complete = true
            · rw [if_pos hc] at he1
              simp at he1
              rw [he1]
            · rw [if_neg hc] at he1
              simp at he1
          · exact hq.1 e he2
        · by_cases hc : root.complete = true
          · rw [hp, if_pos hc]
            simp [hq.2, hc]
          · rw [hp, if_neg hc]
            simp [hq.2, hc]

theorem walker_allT_depth_ge {α : Type} (F : EarleyForest α) :
    (∀ d sp, ∀ ts evs, F.walker_allT d sp = .ok (ts, evs) → ∀ e ∈ evs, d ≤ e.1) ∧
    (∀ d root l, ∀ bs evs, F.wa_sourcesT d root l = .ok (bs, evs) → ∀ e ∈ evs, d ≤ e.1) ∧
    (∀ d root t vss, ∀ rows evs, F.wa_compT d root t vss = .ok (rows, evs) →
       ∀ e ∈ evs, d ≤ e.1) := by
  refine EarleyForest.walker_allT.mutual_induct F
    (fun d sp => ∀ ts evs, F.walker_allT d sp = .ok (ts, evs) → ∀ e ∈ evs, d ≤ e.1)
    (fun d root l => ∀ bs evs, F.wa_sourcesT d root l = .ok (bs, evs) → ∀ e ∈ evs, d ≤ e.1)
    (fun d root t vss => ∀ rows evs, F.wa_compT d root t vss = .ok (rows, evs) →
       ∀ e ∈ evs, d ≤ e.1)
    ?_ ?_ ?_ ?_ ?_ ?_ ?_
  · intro d r dt o f ts evs h e he
    rw [EarleyForest.walker_allT] at h
    cases h1 : F.reduceAT d (Span.mk r dt o f []) [] with
    | error er =>
      rw [h1] at h
      simp at h
    | ok p =>
      rw [h1] at h
      simp at h
      rw [← h.2] at he
      have := reduceAT_events F d (Span.mk r dt o f []) [] p.1 p.2 (by rw [h1])
      rw [this] at he
      by_cases hc : (Span.mk r dt o f []).complete = true
      · rw [if_pos hc] at he
        simp at he
        rw [he]
      · rw [if_neg hc] at he
        simp at he
  · intro d r dt o f s0 more ih ts evs h e he
    rw [EarleyForest.walker_allT] at h
    exact ih ts evs h e he
  · intro d root bs evs h e he
    rw [EarleyForest.wa_sourcesT] at h
    simp at h
    rw [h.2] at he
    simp at he
  · intro d root s t rest ih1 ih3 ih2 bs evs h e he
    rw [EarleyForest.wa_sourcesT] at h
    cases h1 : F.walker_allT (d + 1) s with
    | error er =>
      rw [h1] at h
      simp at h
    | ok vp =>
      rw [h1] at h
      simp only [except_bind_ok] at h
      cases h2 : F.wa_compT d root t vp.1 with
      | error er =>
        rw [h2] at h
        simp at h
      | ok bp =>
        rw [h2] at h
        simp only [except_bind_ok] at h
        cases h3 : F.wa_sourcesT d root rest with
        | error er =>
          rw [h3] at h
          simp at h
        | ok mp =>
          rw [h3] at h
          simp at h
          rw [← h.2] at he
          rcases List.mem_append.mp he with he1 | he23
          · have := ih1 vp.1 vp.2 (by rw [h1]) e he1
            omega
          · rcases List.mem_append.mp he23 with he2 | he3
            · exact ih3 vp bp.1 bp.2 (by rw [h2]) e he2
            · exact ih2 mp.1 mp.2 (by rw [h3]) e he3
  · intro d root s lex rest ih1 ih2 bs evs h e he
    rw [EarleyForest.wa_sourcesT] at h
    cases h1 : F.walker_allT (d + 1) s with
    | error er =>
      rw [h1] at h
      simp at h
    | ok vp =>
      rw [h1] at h
      simp only [except_bind_ok] at h
      cases h2 : F.wa_scanT d root s lex vp.1 with
      | error er =>
        rw [h2] at h
        simp at h
      | ok bp =>
        rw [h2] at h
        simp only [except_bind_ok] at h
        cases h3 : F.wa_sourcesT d root rest with
        | error er =>
          rw [h3] at h
          simp at h
        | ok mp =>
          rw [h3] at h
          simp at h
          rw [← h.2] at he
          rcases List.mem_append.mp he with he1 | he23
          · have := ih1 vp.1 vp.2 (by rw [h1]) e he1
            omega
          · rcases List.mem_append.mp he23 with he2 | he3
            · have := (wa_scanT_events F d root s lex vp.1 bp.1 bp.2 (by rw [h2])).1 e he2
              omega
            · exact ih2 mp.1 mp.2 (by rw [h3]) e he3
  · intro d root t rows evs h e he
    rw [EarleyForest.wa_compT] at h
    simp at h
    rw [h.2] at he
    simp at he
  · intro d root t a as ih1 ih3 rows evs h e he
    rw [EarleyForest.wa_compT] at h
    cases h1 : F.walker_allT (d + 1) t with
    | error er =>
      rw [h1] at h
      simp at h
    | ok vp =>
      rw [h1] at h
      simp only [except_bind_ok] at h
      cases h2 : F.reduce_rowT d root (vp.1.map (fun trig => a ++ trig)) with
      | error er =>
        rw [h2] at h
        simp at h
      | ok rp =>
        rw [h2] at h
        simp only [except_bind_ok] at h
        cases h3 : F.wa_compT d root t as with
        | error er =>
          rw [h3] at h
          simp at h
        | ok mp =>
          rw [h3] at h
          simp at h
          rw [← h.2] at he
          rcases List.mem_append.mp he with he1 | he23
          · have := ih1 vp.1 vp.2 (by rw [h1]) e he1
            omega
          · rcases List.mem_append.mp he23 with he2 | he3
            · have := (reduce_rowT_events F d root _ rp.1 rp.2 (by rw [h2])).1 e he2
              omega
            · exact ih3 mp.1 mp.2 (by rw [h3]) e he3

theorem walker_allT_depth_count {α : Type} (F : EarleyForest α) :
    (∀ d sp ts evs, F.walker_allT d sp = .ok (ts, evs) →
       (evs.filter (fun e => e.1 == d)).length =
         if sp.complete = true then ts.length else 0) ∧
    (∀ d root l bs evs, F.wa_sourcesT d root l = .ok (bs, evs) →
       (evs.filter (fun e => e.1 == d)).length =
         if root.complete = true then bs.length else 0) ∧
    (∀ d root t vss rows evs, F.wa_compT d root t vss = .ok (rows, evs) →
       (evs.filter (fun e => e.1 == d)).length =
         if root.complete = true then rows.length else 0) := by
  refine EarleyForest.walker_allT.mutual_induct F
    (fun d sp => ∀ ts evs, F.walker_allT d sp = .ok (ts, evs) →
       (evs.filter (fun e => e.1 == d)).length =
         if sp.complete = true then ts.length else 0)
    (fun d root l => ∀ bs evs, F.wa_sourcesT d root l = .ok (bs, evs) →
       (evs.filter (fun e => e.1 == d)).length =
         if root.complete = true then bs.length else 0)
    (fun d root t vss => ∀ rows evs, F.wa_compT d root t vss = .ok (rows, evs) →
       (evs.filter (fun e => e.1 == d)).length =
         if root.complete = true then rows.length else 0)
    ?_ ?_ ?_ ?_ ?_ ?_ ?_
  · intro d r dt o f ts evs h
    rw [EarleyForest.walker_allT] at h
    cases h1 : F.reduceAT d (Span.mk r dt o f []) [] with
    | error er =>
      rw [h1] at h
      simp at h
    | ok p =>
      rw [h1] at h
      simp at h
      have hev := reduceAT_events F d (Span.mk r dt o f []) [] p.1 p.2 (by rw [h1])
      rw [← h.1, ← h.2, hev]
      by_cases hc : (Span.mk r dt o f []).complete = true
      · rw [if_pos hc, if_pos hc]
        simp
      · rw [if_neg hc, if_neg hc]
        simp
  · intro d r dt o f s0 more ih ts evs h
    rw [EarleyForest.walker_allT] at h
    exact ih ts evs h
  · intro d root bs evs h
    rw [EarleyForest.wa_sourcesT] at h
    simp at h
    rw [h.1, h.2]
    simp
  · intro d root s t rest ih1 ih3 ih2 bs evs h
    rw [EarleyForest.wa_sourcesT] at h
    cases h1 : F.walker_allT (d + 1) s with
    | error er =>
      rw [h1] at h
      simp at h
    | ok vp =>
      rw [h1] at h
      simp only [except_bind_ok] at h
      cases h2 : F.wa_compT d root t vp.1 with
      | error er =>
        rw [h2] at h
        simp at h
      | ok bp =>
        rw [h2] at h
        simp only [except_bind_ok] at h
        cases h3 : F.wa_sourcesT d root rest with
        | error er =>
          rw [h3] at h
          simp at h
        | ok mp =>
          rw [h3] at h
          simp at h
          rw [← h.1, ← h.2]
          rw [List.filter_append, List.filter_append]
          have hsub : vp.2.filter (fun e => e.1 == d) = [] := by
            refine filter_none _ _ ?_
            intro e he
            have := (walker_allT_depth_ge F).1 (d + 1) s vp.1 vp.2 (by rw [h1]) e he
            simp
            omega
          have hblock := ih3 vp bp.1 bp.2 (by rw [h2])
          have hmore := ih2 mp.1 mp.2 (by rw [h3])
          rw [hsub]
          simp only [List.nil_append, List.length_append, hblock, hmore]
          by_cases hc : root.complete = true
          · rw [if_pos hc, if_pos hc, if_pos hc]
          · rw [if_neg hc, if_neg hc, if_neg hc]
  · intro d root s lex rest ih1 ih2 bs evs h
    rw [EarleyForest.wa_sourcesT] at h
    cases h1 : F.walker_allT (d + 1) s with
    | error er =>
      rw [h1] at h
      simp at h
    | ok vp =>
      rw [h1] at h
      simp only [except_bind_ok] at h
      cases h2 : F.wa_scanT d root s lex vp.1 with
      | error er =>
        rw [h2] at h
        simp at h
      | ok bp =>
        rw [h2] at h
        simp only [except_bind_ok] at h
        cases h3 : F.wa_sourcesT d root rest with
        | error er =>
          rw [h3] at h
          simp at h
        | ok mp =>
          rw [h3] at h
          simp at h
          rw [← h.1, ← h.2]
          rw [List.filter_append, List.filter_append]
          have hsub : vp.2.filter (fun e => e.1 == d) = [] := by
            refine filter_none _ _ ?_
            intro e he
            have := (walker_allT_depth_ge F).1 (d + 1) s vp.1 vp.2 (by rw [h1]) e he
            simp
            omega
          obtain ⟨hdep, hlen⟩ := wa_scanT_events F d root s lex vp.1 bp.1 bp.2 (by rw [h2])
          have hblock : bp.2.filter (fun e => e.1 == d) = bp.2 := by
            refine filter_all _ _ ?_
            intro e he
            simp [hdep e he]
          have hmore := ih2 mp.1 mp.2 (by rw [h3])
          rw [hsub, hblock]
          simp only [List.nil_append, List.length_append, hmore, hlen]
          by_cases hc : root.complete = true
          · rw [if_pos hc, if_pos hc, if_pos hc]
          · rw [if_neg hc, if_neg hc, if_neg hc]
  · intro d root t rows evs h
    rw [EarleyForest.wa_compT] at h
    simp at h
    rw [h.1, h.2]
    simp
  · intro d root t a as ih1 ih3 rows evs h
    rw [EarleyForest.wa_compT] at h
    cases h1 : F.walker_allT (d + 1) t with
    | error er =>
      rw [h1] at h
      simp at h
    | ok vp =>
      rw [h1] at h
      simp only [except_bind_ok] at h
      cases h2 : F.reduce_rowT d root (vp.1.map (fun trig => a ++ trig)) with
      | error er =>
        rw [h2] at h
        simp at h
      | ok rp =>
        rw [h2] at h
        simp only [except_bind_ok] at h
        cases h3 : F.wa_compT d root t as with
        | error er =>
          rw [h3] at h
          simp at h
        | ok mp =>
          rw [h3] at h
          simp at h
          rw [← h.1, ← h.2]
          rw [List.filter_append, List.filter_append]
          have hsub : vp.2.filter (fun e => e.1 == d) = [] := by
            refine filter_none _ _ ?_
            intro e he
            have := (walker_allT_depth_ge F).1 (d + 1) t vp.1 vp.2 (by rw [h1]) e he
            simp
            omega
          obtain ⟨hdep, hlen⟩ := reduce_rowT_events F d root _ rp.1 rp.2 (by rw [h2])
          have hrow : rp.2.filter (fun e => e.1 == d) = rp.2 := by
            refine filter_all _ _ ?_
            intro e he
            simp [hdep e he]
          have hmore := ih3 mp.1 mp.2 (by rw [h3])
          rw [hsub, hrow]
          simp only [List.nil_append, List.length_append, hmore, hlen]
          by_cases hc : root.complete = true
          · rw [if_pos hc, if_pos hc, if_pos hc]
          · rw [if_neg hc, if_neg hc, if_neg hc]

theorem walkerT_trace_spans {α : Type} (F : EarleyForest α) :
    (∀ sp, ∀ v tw, F.walkerT sp = .ok (v, tw) →
       tw.map Prod.fst = (walkSpans sp).filter (fun w => w.complete)) ∧
    (∀ sp, ∀ v tw, F.walker_argsT sp = .ok (v, tw) →
       tw.map Prod.fst = (walkSub sp).filter (fun w => w.complete)) := by
  refine EarleyForest.walkerT.mutual_induct F
    (fun sp => ∀ v tw, F.walkerT sp = .ok (v, tw) →
       tw.map Prod.fst = (walkSpans sp).filter (fun w => w.complete))
    (fun sp => ∀ v tw, F.walker_argsT sp = .ok (v, tw) →
       tw.map Prod.fst = (walkSub sp).filter (fun w => w.complete)) ?_ ?_ ?_ ?_ ?_
  · intro sp ih v tw h
    rw [EarleyForest.walkerT] at h
    cases ha : F.walker_argsT sp with
    | error e =>
      rw [ha] at h
      simp at h
    | ok p =>
      rw [ha] at h
      simp only [except_bind_ok] at h
      cases hr : F.reduceT sp p.1 with
      | error e =>
        rw [hr] at h
        simp at h
      | ok q =>
        rw [hr] at h
        simp at h
        rw [← h.2, List.map_append, ih p.1 p.2 ha, walkSpans_eq, List.filter_append]
        rw [EarleyForest.reduceT] at hr
        by_cases hc : sp.complete = true
        · rw [if_pos hc] at hr
          cases hA : F.actions sp.rule.to_string with
          | none =>
            rw [hA] at hr
            simp at hr
          | some act =>
            rw [hA] at hr
            simp at hr
            rw [← hr]
            simp [hc]
        · rw [if_neg hc] at hr
          simp at hr
          rw [← hr]
          simp [hc]
  · intro r d o f v tw h
    rw [EarleyForest.walker_argsT] at h
    simp at h
    rw [h.2, walkSub_nil]
    rfl
  · intro r d o f s t tail ih1 ih2 v tw h
    rw [EarleyForest.walker_argsT] at h
    cases hw : F.walkerT s with
    | error e =>
      rw [hw] at h
      simp at h
    | ok a =>
      rw [hw] at h
      simp only [except_bind_ok] at h
      cases hw2 : F.walkerT t with
      | error e =>
        rw [hw2] at h
        simp at h
      | ok b =>
        rw [hw2] at h
        simp at h
        rw [← h.2, walkSub_comp, List.filter_append, List.map_append,
          ih1 a.1 a.2 hw, ih2 b.1 b.2 hw2]
  · intro r d o f s lex tail hn v tw h
    rw [EarleyForest.walker_argsT, hn] at h
    simp at h
  · intro r d o f s lex tail sym hn ih v tw h
    rw [EarleyForest.walker_argsT, hn] at h
    cases hw : F.walkerT s with
    | error e =>
      rw [hw] at h
      simp at h
    | ok a =>
      rw [hw] at h
      simp at h
      rw [← h.2, walkSub_scan, ih a.1 a.2 hw]

/-- C5 (corrected): in `eval_recursive`'s walk the registered actions are
invoked exactly once per complete span of the walked tree, in walk order;
in `eval` the invocations are a permutation of the same collection (still
exactly once per complete walked span); in `eval_all_recursive` the
action at a span is invoked once per enumerated child-vector combination,
with multiplicity — `c5_counterexample` shows the same child vector can
be produced and reduced more than once, refuting the original claim of
one invocation per distinct combination. -/
theorem c5_action_invocations {α : Type} (F : EarleyForest α) :
    (∀ sp v tw, F.walkerT sp = .ok (v, tw) →
       tw.map Prod.fst = (walkSpans sp).filter (fun w => w.complete)) ∧
    (∀ root others a tw2, wfFirst root = true → root.complete = true →
       F.evalT (root :: others) = .ok (a, tw2) →
       List.Perm (tw2.map Prod.fst) ((walkSpans root).filter (fun w => w.complete))) ∧
    (∀ d sp ts evs, sp.complete = true → F.walker_allT d sp = .ok (ts, evs) →
       (evs.filter (fun e => e.1 == d)).length = ts.length) := by
  refine ⟨(walkerT_trace_spans F).1, ?_, ?_⟩
  · intro root others a tw2 hwf hc hev
    rcases eval_dichotomy F root others hwf hc with
      ⟨bad, _, _, _, herr⟩ | ⟨_, a2, tw, tw2b, hwT, hperm, hET, _⟩
    · have hok : F.eval (root :: others) = .ok a := by
        rw [← evalT_proj, hev]
        rfl
      exact absurd (hok.symm.trans herr) ok_ne_error
    · rw [hev] at hET
      simp at hET
      rw [hET.2]
      have := (walkerT_trace_spans F).1 root [a2] tw hwT
      rw [← this]
      exact hperm.map Prod.fst
  · intro d sp ts evs hc h
    have := (walker_allT_depth_count F).1 d sp ts evs h
    rw [hc] at this
    simpa using this

/-- Witness for the corrected C5 on the chart `N -> 0`: one complete span
is walked and exactly one action invocation happens. -/
theorem c5_witness :
    wForest.walkerT wSpan1 = .ok ([2], [(wSpan1, [1])]) ∧
    ([(wSpan1, ([1] : List Nat))].map Prod.fst =
      (walkSpans wSpan1).filter (fun w => w.complete)) := by
  have hrun : wForest.walkerT wSpan1 = .ok ([2], [(wSpan1, [1])]) := by
    simp [EarleyForest.walkerT, EarleyForest.walker_argsT, EarleyForest.reduceT,
      wSpan1, wSpan0, ruleN, wForest, Span.rule, Span.dot, Span.next_symbol,
      Span.complete, Symbol.name, ruleN_str]
  exact ⟨hrun, (c5_action_invocations wForest).1 wSpan1 [2] [(wSpan1, [1])] hrun⟩

/-- Counterexample to the original C5: on the chart with root `A -> x B.`
whose source span has two scan back-pointers, `walker_all` re-walks the
completion trigger once per source child vector, so the root's action is
invoked twice with the identical child vector `[1, 2]` — not once per
distinct child-vector combination (and the action of the trigger
`B -> b.` also runs twice on the identical vector `[1]`). -/
theorem c5_counterexample :
    cForest.walker_allT 0 cSA2 =
      .ok ([[4], [4]],
        [(1, cSB, [1]), (0, cSA2, [1, 2]), (1, cSB, [1]), (0, cSA2, [1, 2])]) ∧
    ([(1, cSB, ([1] : List Nat)), (0, cSA2, [1, 2]), (1, cSB, [1]),
        (0, cSA2, [1, 2])].filter (fun e => e.1 == 0)).map (fun e => e.2.2) =
      [[1, 2], [1, 2]] := by
  constructor
  · simp [EarleyForest.walker_allT, EarleyForest.wa_sourcesT, EarleyForest.wa_compT,
      EarleyForest.wa_scanT, EarleyForest.reduceAT, EarleyForest.reduce_rowT,
      cSA2, cSA1, cSA0, cSB, cSB0, ruleA, ruleB, cForest, Span.complete,
      Span.rule, Span.dot, Span.next_symbol, Symbol.name, ruleA_str, ruleB_str]
  · rfl

theorem picks_nil (r : Rule) (d o f : Nat) : picks (Span.mk r d o f []) = [.leafP] := by
  rw [picks]

theorem picks_cons (r : Rule) (d o f : Nat) (s0 : SpanSource) (more : List SpanSource) :
    picks (Span.mk r d o f (s0 :: more)) = picksSrcs (s0 :: more) := by
  rw [picks]

theorem picksSrcs_scan (s : Span) (lex : String) (rest : List SpanSource) :
    picksSrcs (.scan s lex :: rest) =
      (picks s).map (.scanP s lex) ++ picksSrcs rest := by
  rw [picksSrcs]

theorem picksSrcs_comp (s t : Span) (rest : List SpanSource) :
    picksSrcs (.completion s t :: rest) =
      ((picks s).flatMap (fun ps => (picks t).map (fun pt => .compP s t ps pt))) ++
        picksSrcs rest := by
  rw [picksSrcs]

theorem forall2_app {β γ : Type} {R : β → γ → Prop} :
    ∀ {l1 r1 l2 r2 : _}, List.Forall₂ R l1 r1 → List.Forall₂ R l2 r2 →
      List.Forall₂ R (l1 ++ l2) (r1 ++ r2) := by
  intro l1 r1 l2 r2 h1 h2
  induction h1 with
  | nil => exact h2
  | cons hab htl ih => exact List.Forall₂.cons hab ih

theorem scan_chunk {α : Type} (F : EarleyForest α) (root s : Span) (lex : String)
    (sym : Symbol) (hsym : s.next_symbol = some sym) :
    ∀ {pss : List Pick} {vss : List (List α)},
      List.Forall₂ (fun p v => F.evalPick s p = .ok v) pss vss →
      ∀ block, F.wa_scan root s lex vss = .ok block →
      List.Forall₂ (fun p v => F.evalPick root p = .ok v)
        (pss.map (.scanP s lex)) block := by
  intro pss vss h
  induction h with
  | nil =>
    intro block hb
    rw [EarleyForest.wa_scan] at hb
    simp at hb
    rw [hb]
    exact List.Forall₂.nil
  | cons hab htl ih =>
    intro block hb
    rw [EarleyForest.wa_scan, hsym] at hb
    try dsimp only at hb
    rename_i p v ps vs
    cases h1 : F.reduce root (v ++ [F.leaf_builder sym.name lex]) with
    | error e =>
      rw [h1] at hb
      simp at hb
    | ok w =>
      rw [h1] at hb
      simp only [except_bind_ok] at hb
      cases h2 : F.wa_scan root s lex vs with
      | error e =>
        rw [h2] at hb
        simp at hb
      | ok ws =>
        rw [h2] at hb
        simp at hb
        rw [← hb]
        refine List.Forall₂.cons ?_ (ih ws h2)
        rw [EarleyForest.evalPick, hab]
        simp only [except_bind_ok]
        rw [hsym]
        exact h1

theorem comp_chunk {α : Type} (F : EarleyForest α) (root s t : Span) (ps : Pick)
    (args : List α) (hps : F.evalPick s ps = .ok args) :
    ∀ {pts : List Pick} {vts : List (List α)},
      List.Forall₂ (fun p v => F.evalPick t p = .ok v) pts vts →
      ∀ row, F.reduce_row root (vts.map (fun trig => args ++ trig)) = .ok row →
      List.Forall₂ (fun p v => F.evalPick root p = .ok v)
        (pts.map (fun pt => Pick.compP s t ps pt)) row := by
  intro pts vts h
  induction h with
  | nil =>
    intro row hr
    rw [List.map_nil, EarleyForest.reduce_row] at hr
    simp at hr
    rw [hr]
    exact List.Forall₂.nil
  | cons hab htl ih =>
    intro row hr
    rename_i p v ptl vtl
    rw [List.map_cons, EarleyForest.reduce_row] at hr
    cases h1 : F.reduce root (args ++ v) with
    | error e =>
      rw [h1] at hr
      simp at hr
    | ok w =>
      rw [h1] at hr
      simp only [except_bind_ok] at hr
      cases h2 : F.reduce_row root (vtl.map (fun trig => args ++ trig)) with
      | error e =>
        rw [h2] at hr
        simp at hr
      | ok ws =>
        rw [h2] at hr
        simp at hr
        rw [← hr]
        refine List.Forall₂.cons ?_ (ih ws h2)
        rw [EarleyForest.evalPick, hps]
        simp only [except_bind_ok]
        rw [hab]
        simp only [except_bind_ok]
        exact h1

theorem comp_srcchunk {α : Type} (F : EarleyForest α) (root s t : Span)
    (vts : List (List α))
    (hPt : List.Forall₂ (fun p v => F.evalPick t p = .ok v) (picks t) vts) :
    ∀ {pss : List Pick} {vss : List (List α)},
      List.Forall₂ (fun p v => F.evalPick s p = .ok v) pss vss →
      ∀ rowss, List.Forall₂ (fun args row =>
          F.reduce_row root (vts.map (fun trig => args ++ trig)) = .ok row) vss rowss →
      List.Forall₂ (fun p v => F.evalPick root p = .ok v)
        (pss.flatMap (fun ps => (picks t).map (fun pt => Pick.compP s t ps pt)))
        rowss.flatten := by
  intro pss vss h
  induction h with
  | nil =>
    intro rowss hr
    cases hr
    exact List.Forall₂.nil
  | cons hab htl ih =>
    intro rowss hr
    rename_i p v ptl vtl
    cases hr with
    | cons hrow hrtl =>
      rename_i row rtl
      rw [List.flatMap_cons, List.flatten_cons]
      exact forall2_app (comp_chunk F root s t p v hab hPt row hrow) (ih rtl hrtl)

end Earlgrey

namespace Earlgrey

theorem walker_all_picks {α : Type} (F : EarleyForest α) :
    (∀ sp, wfAll sp = true → ∀ ts, F.walker_all sp = .ok ts →
       List.Forall₂ (fun p v => F.evalPick sp p = .ok v) (picks sp) ts) ∧
    (∀ root l, wfSrcs root.rule root.dot l = true →
       ∀ bs, F.wa_sources root l = .ok bs →
       List.Forall₂ (fun p v => F.evalPick root p = .ok v) (picksSrcs l) bs) ∧
    (∀ root t vss, wfAll t = true → vss ≠ [] →
       ∀ rows, F.wa_comp root t vss = .ok rows →
       ∃ vts rowss, F.walker_all t = .ok vts ∧
         List.Forall₂ (fun p v => F.evalPick t p = .ok v) (picks t) vts ∧
         rows = rowss.flatten ∧
         List.Forall₂ (fun args row =>
           F.reduce_row root (vts.map (fun trig => args ++ trig)) = .ok row)
           vss rowss) := by
  refine EarleyForest.walker_all.mutual_induct F
    (fun sp => wfAll sp = true → ∀ ts, F.walker_all sp = .ok ts →
       List.Forall₂ (fun p v => F.evalPick sp p = .ok v) (picks sp) ts)
    (fun root l => wfSrcs root.rule root.dot l = true →
       ∀ bs, F.wa_sources root l = .ok bs →
       List.Forall₂ (fun p v => F.evalPick root p = .ok v) (picksSrcs l) bs)
    (fun root t vss => wfAll t = true → vss ≠ [] →
       ∀ rows, F.wa_comp root t vss = .ok rows →
       ∃ vts rowss, F.walker_all t = .ok vts ∧
         List.Forall₂ (fun p v => F.evalPick t p = .ok v) (picks t) vts ∧
         rows = rowss.flatten ∧
         List.Forall₂ (fun args row =>
           F.reduce_row root (vts.map (fun trig => args ++ trig)) = .ok row)
           vss rowss)
    ?_ ?_ ?_ ?_ ?_ ?_ ?_
  · intro r d o f _ ts h
    rw [EarleyForest.walker_all] at h
    cases h1 : F.reduce (Span.mk r d o f []) [] with
    | error e =>
      rw [h1] at h
      simp at h
    | ok v =>
      rw [h1] at h
      simp at h
      rw [← h, picks_nil]
      refine List.Forall₂.cons ?_ List.Forall₂.nil
      rw [EarleyForest.evalPick]
      exact h1
  · intro r d o f s0 more ih hwf ts h
    rw [EarleyForest.walker_all] at h
    rw [wfAll] at hwf
    rw [picks_cons]
    exact ih (by simpa using hwf) ts h
  · intro root _ bs h
    rw [EarleyForest.wa_sources] at h
    simp at h
    rw [h, picksSrcs]
    exact List.Forall₂.nil
  · intro root s t rest ih1 ih3 ih2 hwf bs h
    rw [wfSrcs] at hwf
    simp only [Bool.and_eq_true, beq_iff_eq] at hwf
    obtain ⟨⟨⟨⟨⟨⟨hsr, hsd⟩, hss⟩, htc⟩, hws⟩, hwt⟩, hwr⟩ := hwf
    rw [EarleyForest.wa_sources] at h
    cases h1 : F.walker_all s with
    | error e =>
      rw [h1] at h
      simp at h
    | ok vss =>
      rw [h1] at h
      simp only [except_bind_ok] at h
      cases h2 : F.wa_comp root t vss with
      | error e =>
        rw [h2] at h
        simp at h
      | ok block =>
        rw [h2] at h
        simp only [except_bind_ok] at h
        cases h3 : F.wa_sources root rest with
        | error e =>
          rw [h3] at h
          simp at h
        | ok more2 =>
          rw [h3] at h
          simp at h
          have hvne : vss ≠ [] := (walker_all_ne_nil F).1 s vss h1
          obtain ⟨vts, rowss, hvts, hPt, hflat, hF2⟩ := ih3 vss hwt hvne block h2
          have hPs := ih1 hws vss h1
          have chunkF := comp_srcchunk F root s t vts hPt hPs rowss hF2
          rw [← h, hflat, picksSrcs_comp]
          exact forall2_app chunkF (ih2 hwr more2 h3)
  · intro root s lex rest ih1 ih2 hwf bs h
    rw [wfSrcs] at hwf
    simp only [Bool.and_eq_true, beq_iff_eq] at hwf
    obtain ⟨⟨⟨⟨hsr, hsd⟩, hss⟩, hws⟩, hwr⟩ := hwf
    obtain ⟨sym, hsym⟩ := Option.isSome_iff_exists.mp hss
    rw [EarleyForest.wa_sources] at h
    cases h1 : F.walker_all s with
    | error e =>
      rw [h1] at h
      simp at h
    | ok vss =>
      rw [h1] at h
      simp only [except_bind_ok] at h
      cases h2 : F.wa_scan root s lex vss with
      | error e =>
        rw [h2] at h
        simp at h
      | ok block =>
        rw [h2] at h
        simp only [except_bind_ok] at h
        cases h3 : F.wa_sources root rest with
        | error e =>
          rw [h3] at h
          simp at h
        | ok more2 =>
          rw [h3] at h
          simp at h
          have hPs := ih1 hws vss h1
          have scanF := scan_chunk F root s lex sym hsym hPs block h2
          rw [← h, picksSrcs_scan]
          exact forall2_app scanF (ih2 hwr more2 h3)
  · intro root t hwt hne rows h
    exact absurd rfl hne
  · intro root t a as ih1 ih3 hwt _ rows h
    rw [EarleyForest.wa_comp] at h
    cases h1 : F.walker_all t with
    | error e =>
      rw [h1] at h
      simp at h
    | ok vts =>
      rw [h1] at h
      simp only [except_bind_ok] at h
      cases h2 : F.reduce_row root (vts.map (fun trig => a ++ trig)) with
      | error e =>
        rw [h2] at h
        simp at h
      | ok row =>
        rw [h2] at h
        simp only [except_bind_ok] at h
        cases h3 : F.wa_comp root t as with
        | error e =>
          rw [h3] at h
          simp at h
        | ok morerows =>
          rw [h3] at h
          simp at h
          cases as with
          | nil =>
            rw [EarleyForest.wa_comp] at h3
            simp at h3
            refine ⟨vts, [row], rfl, ih1 hwt vts h1, ?_, ?_⟩
            · rw [← h, h3]
              simp
            · exact List.Forall₂.cons h2 List.Forall₂.nil
          | cons a2 as2 =>
            obtain ⟨vts2, rowss2, hvts2, hPt2, hflat2, hF22⟩ :=
              ih3 hwt (by simp) morerows h3
            rw [h1] at hvts2
            simp at hvts2
            subst hvts2
            refine ⟨vts, row :: rowss2, rfl, hPt2, ?_, List.Forall₂.cons h2 hF22⟩
            rw [← h, hflat2]
            simp

theorem eval_all_trees_rel {α : Type} (F : EarleyForest α) :
    ∀ (l : List Span) (acc out : List α), F.eval_all_trees l acc = .ok out →
      ∃ tss hss, List.Forall₂ (fun sp ts => F.walker_all sp = .ok ts) l tss ∧
        List.Forall₂ (fun ts hs => headsOf ts = .ok hs) tss hss ∧
        out = acc ++ hss.flatten := by
  intro l
  induction l with
  | nil =>
    intro acc out h
    rw [EarleyForest.eval_all_trees] at h
    simp at h
    exact ⟨[], [], List.Forall₂.nil, List.Forall₂.nil, by rw [h]; simp⟩
  | cons root rs ih =>
    intro acc out h
    rw [EarleyForest.eval_all_trees] at h
    cases h1 : F.walker_all root with
    | error e =>
      rw [h1] at h
      simp at h
    | ok ts =>
      rw [h1] at h
      simp only [except_bind_ok] at h
      cases h2 : headsOf ts with
      | error e =>
        rw [h2] at h
        simp at h
      | ok hs =>
        rw [h2] at h
        simp only [except_bind_ok] at h
        obtain ⟨tss, hss, hr1, hr2, hout⟩ := ih (acc ++ hs) out h
        refine ⟨ts :: tss, hs :: hss, List.Forall₂.cons h1 hr1,
          List.Forall₂.cons h2 hr2, ?_⟩
        rw [hout]
        simp

/-- C3: each tree list produced by `walker_all` contains, in order, one
entry per choice of back-pointer source at every reachable span — the
choices `picks` enumerates source-major with the Cartesian product of
source choices (major) and trigger choices (minor) at each completion, in
the insertion order of sources — and each entry is the evaluation of its
choice; `eval_all_recursive` returns the first elements of those per-root
lists concatenated in root order. -/
theorem c3_eval_all_enumerates_picks {α : Type} (F : EarleyForest α)
    (root : Span) (others : List Span)
    (hwa : ∀ sp ∈ root :: others, wfAll sp = true) :
    (∀ sp ∈ root :: others, ∀ ts, F.walker_all sp = .ok ts →
       List.Forall₂ (fun p v => F.evalPick sp p = .ok v) (picks sp) ts) ∧
    (∀ out, F.eval_all_recursive (root :: others) = .ok out →
       ∃ tss hss,
         List.Forall₂ (fun sp ts => F.walker_all sp = .ok ts ∧
             List.Forall₂ (fun p v => F.evalPick sp p = .ok v) (picks sp) ts)
           (root :: others) tss ∧
         List.Forall₂ (fun ts hs => headsOf ts = .ok hs) tss hss ∧
         out = hss.flatten) := by
  have hpart1 : ∀ sp ∈ root :: others, ∀ ts, F.walker_all sp = .ok ts →
      List.Forall₂ (fun p v => F.evalPick sp p = .ok v) (picks sp) ts :=
    fun sp hsp ts hts => (walker_all_picks F).1 sp (hwa sp hsp) ts hts
  refine ⟨hpart1, ?_⟩
  intro out hout
  have hrw : F.eval_all_recursive (root :: others) =
      F.eval_all_trees (root :: others) [] := rfl
  rw [hrw] at hout
  obtain ⟨tss, hss, hr1, hr2, heq⟩ := eval_all_trees_rel F (root :: others) [] out hout
  refine ⟨tss, hss, ?_, hr2, by rw [heq]; simp⟩
  clear hr2 heq hout
  have : ∀ (l : List Span) (tss : List (List (List α))),
      List.Forall₂ (fun sp ts => F.walker_all sp = .ok ts) l tss →
      (∀ sp ∈ l, wfAll sp = true) →
      List.Forall₂ (fun sp ts => F.walker_all sp = .ok ts ∧
          List.Forall₂ (fun p v => F.evalPick sp p = .ok v) (picks sp) ts) l tss := by
    intro l tss h
    induction h with
    | nil => exact fun _ => List.Forall₂.nil
    | cons hab htl ih =>
      intro hl
      rename_i sp ts l2 tss2
      refine List.Forall₂.cons
        ⟨hab, (walker_all_picks F).1 sp (hl sp (by simp)) ts hab⟩
        (ih (fun sp2 hsp2 => hl sp2 (by simp [hsp2])))
  exact this (root :: others) tss hr1 hwa

/-- Witness for C3 on the chart `N -> 0`: there is one source choice and
`walker_all` produces exactly its evaluation. -/
theorem c3_witness :
    (∀ sp ∈ ([wSpan1] : List Span), wfAll sp = true) ∧
    wForest.walker_all wSpan1 = .ok [[2]] ∧
    List.Forall₂ (fun p v => wForest.evalPick wSpan1 p = .ok v) (picks wSpan1) [[2]] := by
  have hwa : ∀ sp ∈ ([wSpan1] : List Span), wfAll sp = true := by
    intro sp hsp
    simp at hsp
    subst hsp
    simp [wfAll, wfSrcs, wSpan1, wSpan0, ruleN, Span.rule, Span.dot,
      Span.next_symbol, Span.complete]
  have hrun : wForest.walker_all wSpan1 = .ok [[2]] := by
    simp [EarleyForest.walker_all, EarleyForest.wa_sources, EarleyForest.wa_scan,
      EarleyForest.reduce, wSpan1, wSpan0, ruleN, wForest, Span.rule, Span.dot,
      Span.next_symbol, Span.complete, Symbol.name, ruleN_str]
  exact ⟨hwa, hrun,
    (c3_eval_all_enumerates_picks wForest wSpan1 [] hwa).1 wSpan1 (by simp) [[2]] hrun⟩

end Earlgrey

/-- C7: positioned at `#`, the EBNF tokenizer discards everything up to
and including the next newline and restarts, so a comment line is
invisible to the produced token sequence, and a block of consecutive
comment lines is discarded entirely. -/
theorem c7_comment_discard (c r : List Char) (hc : '\n' ∉ c)
    (comments : List (List Char)) (hcs : ∀ cc ∈ comments, '\n' ∉ cc)
    (fuel : Nat) :
    ebnf_next (initTok ('#' :: (c ++ '\n' :: r))) = ebnf_next (initTok r) ∧
    ebnf_tokens fuel (initTok ('#' :: (c ++ '\n' :: r))) =
      ebnf_tokens fuel (initTok r) ∧
    ebnf_tokens fuel
        (initTok (comments.foldr (fun cc acc => '#' :: (cc ++ '\n' :: acc)) r)) =
      ebnf_tokens fuel (initTok r) :=
  ⟨ebnf_next_comment c r hc,
   ebnf_tokens_congr _ _ (ebnf_next_comment c r hc) fuel,
   ebnf_comment_discard_aux comments hcs r fuel⟩

/-- Witness for C7: a comment line `#ab` followed by the input `n`
tokenizes exactly like `n` alone. -/
theorem c7_witness :
    ('\n' ∉ (['a', 'b'] : List Char)) ∧
    ebnf_tokens 5 (initTok ('#' :: (['a', 'b'] ++ '\n' :: ['n']))) =
      ebnf_tokens 5 (initTok ['n']) :=
  ⟨by decide, (c7_comment_discard ['a', 'b'] ['n'] (by decide) [] (by simp) 5).2.1⟩

/-- C8: a double or single quote followed by content free of that quote
and a matching closing quote starts a string literal whose content is
exactly the characters between the delimiters (the opening quote is
returned, the content and closing quote queued on the lookahead stack
with the content on top of the closing quote); when the closing quote
never occurs the scanner backtracks and the quote does not begin a
literal (the tokenizer yields nothing for it). -/
theorem c8_quote_delimiters (q : Char) (hq : q = '\x22' ∨ q = '\x27')
    (content r : List Char) (hqc : q ∉ content)
    (l : List Char) (hql : q ∉ l) :
    ebnf_next (initTok (q :: (content ++ q :: r))) =
      (some (String.mk [q]), ⟨[String.mk [q], String.mk content], ⟨[], r⟩⟩) ∧
    ebnf_next (initTok (q :: l)) = (none, ⟨[], ⟨[], q :: l⟩⟩) :=
  ⟨ebnf_quote_found q hq content r hqc, ebnf_quote_unterminated q hq l hql⟩

/-- Witness for C8: `"a"` starts a literal with content `a`; an
unterminated `"z` yields no token and leaves the scanner at the quote. -/
theorem c8_witness :
    (('\x22' : Char) = '\x22' ∨ ('\x22' : Char) = '\x27') ∧
    ebnf_next (initTok ('\x22' :: (['a'] ++ '\x22' :: []))) =
      (some (String.mk ['\x22']),
        ⟨[String.mk ['\x22'], String.mk ['a']], ⟨[], []⟩⟩) ∧
    ebnf_next (initTok ('\x22' :: ['z'])) = (none, ⟨[], ⟨[], '\x22' :: ['z']⟩⟩) := by
  have h := c8_quote_delimiters '\x22' (by decide) ['a'] [] (by decide) ['z'] (by decide)
  exact ⟨Or.inl rfl, h.1, h.2⟩

/-- C10: a quote with a matching later closing quote is emitted as exactly
three consecutive tokens — the one-character opening quote, the (possibly
empty) text strictly between the quotes, and the one-character closing
quote — before tokenizing resumes after the literal. -/
theorem c10_quote_three_tokens (q : Char) (hq : q = '\x22' ∨ q = '\x27')
    (content r : List Char) (hqc : q ∉ content) (fuel : Nat) :
    ebnf_tokens (fuel + 3) (initTok (q :: (content ++ q :: r))) =
      String.mk [q] :: String.mk content :: String.mk [q] ::
        ebnf_tokens fuel (initTok r) :=
  ebnf_quote_tokens_aux q hq content r hqc fuel

/-- Witness for C10: `'ab'` produces the three tokens `'`, `ab`, `'`. -/
theorem c10_witness :
    (('\x27' : Char) = '\x22' ∨ ('\x27' : Char) = '\x27') ∧
    ebnf_tokens 7 (initTok ('\x27' :: (['a', 'b'] ++ '\x27' :: []))) =
      String.mk ['\x27'] :: String.mk ['a', 'b'] :: String.mk ['\x27'] ::
        ebnf_tokens 4 (initTok []) :=
  ⟨Or.inr rfl, c10_quote_three_tokens '\x27' (by decide) ['a', 'b'] [] (by decide) 4⟩

